import Mathlib

/-!
# Verification of the syntax-highlighting core (`src/highlight/src/lib.rs`)

A shallow embedding of the highlight library: the property-sheet loader
(`Properties::new`, `flatten_tree_path`, `parse_args`), the tree-step
evaluator (`process_tree_step`), the range intersector (`intersect_ranges`),
the per-layer depth-first walker (`Layer::advance`, `enter_node`,
`leave_node`, `offset`, `cmp`) and the merged iterator (`Highlighter::next`,
`emit_source`, `add_layer`, `remove_first_layer`).

Machine integers are modelled as `Nat`/`Int` with explicit wrapping where the
source relies on it (`as usize` casts).  Rust panics are modelled as explicit
error values so that "the code panics here" is a provable statement.
External collaborators (the parser, the compiled property sheet, the
injection callback) are modelled as explicit parameters: a syntax tree is a
rose tree with byte/point ranges and kind ids, a property sheet is a function
from node kind ids to `Properties`, and the parser is an oracle supplied in
an `Env`.
-/

namespace TSHighlight

/-- `tree_sitter::Point` (row, column). -/
structure Point where
  row : Nat
  column : Nat
deriving DecidableEq, Repr

/-- `usize::MAX` on a 64-bit target. -/
def USIZE_MAX : Nat := 2 ^ 64 - 1

/-- `tree_sitter::Range`: a byte range together with its point coordinates. -/
structure Range where
  start_byte : Nat
  start_point : Point
  end_byte : Nat
  end_point : Point
deriving DecidableEq, Repr

/-- The `Highlight` enumeration from the source (28 variants). -/
inductive Highlight where
  | attribute
  | comment
  | constant
  | constantBuiltin
  | constructor
  | constructorBuiltin
  | embedded
  | escape
  | function
  | functionBuiltin
  | keyword
  | number
  | operator
  | property
  | propertyBuiltin
  | punctuation
  | punctuationBracket
  | punctuationDelimiter
  | punctuationSpecial
  | string
  | stringSpecial
  | tag
  | type
  | typeBuiltin
  | variable
  | variableBuiltin
  | variableParameter
  | unknown
deriving DecidableEq, Repr

/-- `Error` from the source. -/
inductive Error where
  | Cancelled
  | InvalidLanguage
  | Unknown
deriving DecidableEq, Repr

/- ## UTF-8 validation

`cow::decode_utf8` is code of this repository that is not under `src/`
(module `cow` of the crate).  Modelled from the spec: §4.4 "UTF-8 handling of
Source" relies on a decoder reporting `valid_up_to` and an optional
`error_len`, which is the behaviour of Rust's `str::from_utf8`
(`core::str::Utf8Error`).  The validator below reproduces that behaviour:
it scans the bytes and, at the first ill-formed sequence, reports the number
of valid bytes seen so far together with `some errorLen` (the length of the
maximal invalid prefix, 1–3 bytes) or `none` when the input ends in an
incomplete (but so far well-formed) multi-byte sequence. -/

/-- Rust's `utf8_char_width` table. -/
def utf8CharWidth (b : Nat) : Nat :=
  if b < 0x80 then 1
  else if b < 0xC2 then 0
  else if b < 0xE0 then 2
  else if b < 0xF0 then 3
  else if b < 0xF5 then 4
  else 0

/-- Is `b` a UTF-8 continuation byte (`0x80–0xBF`)?  In the Rust source the
negation is written `b as i8 >= -64`. -/
def isUtf8Cont (b : Nat) : Bool := 0x80 ≤ b && b < 0xC0

/-- Valid second byte of a three-byte sequence headed by `b0`. -/
def validUtf8Second3 (b0 b1 : Nat) : Bool :=
  (b0 == 0xE0 && 0xA0 ≤ b1 && b1 ≤ 0xBF) ||
  (0xE1 ≤ b0 && b0 ≤ 0xEC && 0x80 ≤ b1 && b1 ≤ 0xBF) ||
  (b0 == 0xED && 0x80 ≤ b1 && b1 ≤ 0x9F) ||
  (0xEE ≤ b0 && b0 ≤ 0xEF && 0x80 ≤ b1 && b1 ≤ 0xBF)

/-- Valid second byte of a four-byte sequence headed by `b0`. -/
def validUtf8Second4 (b0 b1 : Nat) : Bool :=
  (b0 == 0xF0 && 0x90 ≤ b1 && b1 ≤ 0xBF) ||
  (0xF1 ≤ b0 && b0 ≤ 0xF3 && 0x80 ≤ b1 && b1 ≤ 0xBF) ||
  (b0 == 0xF4 && 0x80 ≤ b1 && b1 ≤ 0x8F)

/-- UTF-8 validation: `none` when the whole input is valid, otherwise
`some (validUpTo, errorLen?)` exactly as Rust's `str::from_utf8` reports it.
`i` is the number of bytes already validated. -/
def validateUtf8 : List Nat → Nat → Option (Nat × Option Nat)
  | [], _ => none
  | b :: rest, i =>
    if b < 0x80 then validateUtf8 rest (i + 1)
    else if utf8CharWidth b = 2 then
      match rest with
      | [] => some (i, none)
      | b1 :: rest2 =>
        if isUtf8Cont b1 then validateUtf8 rest2 (i + 2) else some (i, some 1)
    else if utf8CharWidth b = 3 then
      match rest with
      | [] => some (i, none)
      | b1 :: rest2 =>
        if validUtf8Second3 b b1 then
          match rest2 with
          | [] => some (i, none)
          | b2 :: rest3 =>
            if isUtf8Cont b2 then validateUtf8 rest3 (i + 3) else some (i, some 2)
        else some (i, some 1)
    else if utf8CharWidth b = 4 then
      match rest with
      | [] => some (i, none)
      | b1 :: rest2 =>
        if validUtf8Second4 b b1 then
          match rest2 with
          | [] => some (i, none)
          | b2 :: rest3 =>
            if isUtf8Cont b2 then
              match rest3 with
              | [] => some (i, none)
              | b3 :: rest4 =>
                if isUtf8Cont b3 then validateUtf8 rest4 (i + 4) else some (i, some 3)
            else some (i, some 2)
        else some (i, some 1)
    else some (i, some 1)

/-- `cow::decode_utf8`: either the (valid) text, or `(valid_up_to, error_len)`.
Text is represented by its byte sequence. -/
def decode_utf8 (input : List Nat) : Except (Nat × Option Nat) (List Nat) :=
  match validateUtf8 input 0 with
  | none => .ok input
  | some e => .error e

/-- The UTF-8 encoding of U+FFFD, the replacement character. -/
def fffdBytes : List Nat := [0xEF, 0xBF, 0xBD]

/-- `source.bytes(a, b)`: the byte slice `[a, b)` of a flat buffer. -/
def sliceBytes (src : List Nat) (a b : Nat) : List Nat :=
  (src.take b).drop a

/-- The UTF-8 encoding of one scalar value. -/
def encodeUtf8Char (c : Char) : List Nat :=
  let v := c.toNat
  if v < 0x80 then [v]
  else if v < 0x800 then [0xC0 + v / 64, 0x80 + v % 64]
  else if v < 0x10000 then [0xE0 + v / 4096, 0x80 + (v / 64) % 64, 0x80 + v % 64]
  else [0xF0 + v / 262144, 0x80 + (v / 4096) % 64, 0x80 + (v / 64) % 64, 0x80 + v % 64]

/-- The UTF-8 bytes of a string (Rust `&str` contents). -/
def strBytes (s : String) : List Nat := (s.data.map encodeUtf8Char).flatten

/- ## Syntax trees and languages (external collaborators)

`tree_sitter::Tree`/`Node` are provided by the external parser.  A node is
modelled as a rose tree carrying its byte range, point range and numeric kind
id; a `Node` value of the source corresponds to a subtree here. -/

/-- A concrete syntax tree / node. -/
inductive STree where
  | mk (start_byte : Nat) (start_point : Point) (end_byte : Nat) (end_point : Point)
      (kind_id : Nat) (children : List STree)
deriving Repr

def STree.start_byte : STree → Nat
  | .mk sb _ _ _ _ _ => sb

def STree.start_position : STree → Point
  | .mk _ sp _ _ _ _ => sp

def STree.end_byte : STree → Nat
  | .mk _ _ eb _ _ _ => eb

def STree.end_position : STree → Point
  | .mk _ _ _ ep _ _ => ep

def STree.kind_id : STree → Nat
  | .mk _ _ _ _ k _ => k

def STree.children : STree → List STree
  | .mk _ _ _ _ _ c => c

/-- `node.range()`. -/
def STree.range (n : STree) : Range :=
  { start_byte := n.start_byte, start_point := n.start_position,
    end_byte := n.end_byte, end_point := n.end_position }

/-- `node.child(i)`. -/
def STree.child (n : STree) (i : Nat) : Option STree := n.children[i]?

/-- `node.child_count()`. -/
def STree.child_count (n : STree) : Nat := n.children.length

/-- `tree_sitter::Language`: only the queries the source makes of it are
modelled (kind-name table and whether the parser accepts it). -/
structure Lang where
  node_kind_count : Nat
  node_kind_for_id : Nat → String
  node_kind_is_named : Nat → Bool
  valid : Bool

/- ## Tree paths -/

/-- `TreeStep` from the source: a flattened tree-path step.  `index` is an
`isize` in the source, modelled as `Int`. -/
inductive TreeStep where
  | child (index : Int) (kinds : Option (List Nat))
  | children (kinds : Option (List Nat))
  | next (kinds : Option (List Nat))
deriving DecidableEq, Repr

/- `TreePathJSON` / `TreePathArgJSON`: the nested call-expression form of a
tree path as it appears in the property sheet. -/
mutual
inductive TreePathJSON where
  | this
  | child (args : List TreePathArgJSON)
  | next (args : List TreePathArgJSON)
  | children (args : List TreePathArgJSON)

inductive TreePathArgJSON where
  | treePath (p : TreePathJSON)
  | number (i : Int)
  | str (s : String)
end

/-- The loop body of `Properties::parse_args` over the non-receiver
arguments: the last numeric argument becomes the index, string arguments
accumulate as kind names, and a nested tree path is an error. -/
def parseArgsRest (index : Option Int) (kinds : List String) (name : String) :
    List TreePathArgJSON → Except String (Option Int × List String)
  | [] => .ok (index, kinds)
  | .treePath _ :: _ =>
    .error ("Other arguments to `" ++ name ++ "()` must be strings or numbers")
  | .number i :: rest => parseArgsRest (some i) kinds name rest
  | .str s :: rest => parseArgsRest index (kinds ++ [s]) name rest

/-- The kind-name resolution at the end of `Properties::parse_args`: an empty
kind set becomes `none`; a non-empty set is resolved against the language's
named-kind table and must yield at least one id. -/
def resolveKinds (kinds : List String) (lang : Lang) : Except String (Option (List Nat)) :=
  if kinds.length > 0 then
    let kind_ids := (List.range lang.node_kind_count).filter
      (fun i => kinds.any (fun s => s == lang.node_kind_for_id i) && lang.node_kind_is_named i)
    if kind_ids.length = 0 then .error "Non-existent node kinds"
    else .ok (some kind_ids)
  else .ok none

/-- `Properties::parse_args`. -/
def parse_args (name : String) (args : List TreePathArgJSON) (lang : Lang) :
    Except String (TreePathJSON × Option Int × Option (List Nat)) :=
  match args with
  | .treePath p :: rest =>
    match parseArgsRest none [] name rest with
    | .error e => .error e
    | .ok (index, kinds) =>
      match resolveKinds kinds lang with
      | .error e => .error e
      | .ok kindIds => .ok (p, index, kindIds)
  | _ => .error ("First argument to `" ++ name ++ "()` must be a tree path")

/-- `Properties::flatten_tree_path`.  The source pushes steps onto an
accumulator vector; the embedding returns the list of pushed steps (the
receiver path's steps first, then this call's own step), which is the same
final vector.  `parse_args` is inlined (its receiver extraction is the head
match here, the remainder is `parseArgsRest` + `resolveKinds`) so that the
recursion on the receiver path is structural. -/
def flatten_tree_path : TreePathJSON → Lang → Except String (List TreeStep)
  | .this, _ => .ok []
  | .child args, lang =>
    match args with
    | .treePath p :: rest =>
      match parseArgsRest none [] "child" rest with
      | .error e => .error e
      | .ok (index, kinds) =>
        match resolveKinds kinds lang with
        | .error e => .error e
        | .ok kindIds =>
          match flatten_tree_path p lang with
          | .error e => .error e
          | .ok steps =>
            match index with
            | some i => .ok (steps ++ [TreeStep.child i kindIds])
            | none => .error "The `child` function requires an index"
    | _ => .error "First argument to `child()` must be a tree path"
  | .children args, lang =>
    match args with
    | .treePath p :: rest =>
      match parseArgsRest none [] "children" rest with
      | .error e => .error e
      | .ok (_, kinds) =>
        match resolveKinds kinds lang with
        | .error e => .error e
        | .ok kindIds =>
          match flatten_tree_path p lang with
          | .error e => .error e
          | .ok steps => .ok (steps ++ [TreeStep.children kindIds])
    | _ => .error "First argument to `children()` must be a tree path"
  | .next args, lang =>
    match args with
    | .treePath p :: rest =>
      match parseArgsRest none [] "next" rest with
      | .error e => .error e
      | .ok (_, kinds) =>
        match resolveKinds kinds lang with
        | .error e => .error e
        | .ok kindIds =>
          match flatten_tree_path p lang with
          | .error e => .error e
          | .ok steps => .ok (steps ++ [TreeStep.next kindIds])
    | _ => .error "First argument to `next()` must be a tree path"


/- ## Properties and `Properties::new` -/

/-- `InjectionLanguage` from the source. -/
inductive InjectionLanguage where
  | literal (s : String)
  | treePath (steps : List TreeStep)
deriving DecidableEq, Repr

/-- `Injection` from the source. -/
structure Injection where
  language : InjectionLanguage
  content : List TreeStep
  includes_children : Bool
deriving DecidableEq, Repr

/-- `Properties` from the source. -/
structure Properties where
  highlight : Option Highlight
  highlight_nonlocal : Option Highlight
  injections : List Injection
  local_scope : Option Bool
  local_definition : Bool
  local_reference : Bool
deriving DecidableEq, Repr

/-- `InjectionLanguageJSON` (serde-untagged). -/
inductive InjectionLanguageJSON where
  | list (l : List InjectionLanguageJSON)
  | treePath (p : TreePathJSON)
  | literal (s : String)

/-- `InjectionContentJSON` (serde-untagged). -/
inductive InjectionContentJSON where
  | list (l : List InjectionContentJSON)
  | treePath (p : TreePathJSON)

/-- `InjectionIncludesChildrenJSON` (serde-untagged). -/
inductive InjectionIncludesChildrenJSON where
  | list (l : List Bool)
  | single (b : Bool)

/-- `PropertiesJSON`: the machine-readable record for one matched node class. -/
structure PropertiesJSON where
  highlight : Option Highlight
  highlight_nonlocal : Option Highlight
  injection_language : Option InjectionLanguageJSON
  injection_content : Option InjectionContentJSON
  injection_includes_children : Option InjectionIncludesChildrenJSON
  local_scope : Bool
  local_scope_inherit : Bool
  local_definition : Bool
  local_reference : Bool

/-- A `PropertiesJSON` with every field absent/false, for building examples. -/
def PropertiesJSON.base : PropertiesJSON :=
  ⟨none, none, none, none, none, false, false, false, false⟩

/-- Failures of `Properties::new`.  The source returns `Err(String)` — mapped
to `PropertySheetError::InvalidFormat` by `load_property_sheet` — but also
contains two `panic!` sites and one panicking vector index; panics are
modelled as the distinct `panicked` value so that "this input panics" is
expressible. -/
inductive LoadErr where
  | invalidFormat (msg : String)
  | panicked (msg : String)
deriving DecidableEq, Repr

/-- The element loop over a list-valued `injection-language`. -/
def processLanguageElems (lang : Lang) :
    List InjectionLanguageJSON → Except LoadErr (List InjectionLanguage)
  | [] => .ok []
  | .treePath p :: rest =>
    match flatten_tree_path p lang with
    | .error e => .error (.invalidFormat e)
    | .ok steps =>
      match processLanguageElems lang rest with
      | .error e => .error e
      | .ok tail => .ok (.treePath steps :: tail)
  | .literal s :: rest =>
    match processLanguageElems lang rest with
    | .error e => .error e
    | .ok tail => .ok (.literal s :: tail)
  | .list _ :: _ => .error (.panicked "Injection-language cannot be a list of lists")

/-- The `languages` computation in `Properties::new` (singleton promotion). -/
def processLanguages (lang : Lang) :
    InjectionLanguageJSON → Except LoadErr (List InjectionLanguage)
  | .list l => processLanguageElems lang l
  | .treePath p =>
    match flatten_tree_path p lang with
    | .error e => .error (.invalidFormat e)
    | .ok steps => .ok [.treePath steps]
  | .literal s => .ok [.literal s]

/-- The element loop over a list-valued `injection-content`. -/
def processContentElems (lang : Lang) :
    List InjectionContentJSON → Except LoadErr (List (List TreeStep))
  | [] => .ok []
  | .treePath p :: rest =>
    match flatten_tree_path p lang with
    | .error e => .error (.invalidFormat e)
    | .ok steps =>
      match processContentElems lang rest with
      | .error e => .error e
      | .ok tail => .ok (steps :: tail)
  | .list _ :: _ => .error (.panicked "Injection-content cannot be a list of lists")

/-- The `contents` computation in `Properties::new` (singleton promotion). -/
def processContents (lang : Lang) :
    InjectionContentJSON → Except LoadErr (List (List TreeStep))
  | .list l => processContentElems lang l
  | .treePath p =>
    match flatten_tree_path p lang with
    | .error e => .error (.invalidFormat e)
    | .ok steps => .ok [steps]

/-- `Vec::resize`: truncate to `n` or extend with `pad`. -/
def vecResize (v : List Bool) (n : Nat) (pad : Bool) : List Bool :=
  if n ≤ v.length then v.take n else v ++ List.replicate (n - v.length) pad

/-- The normalisation of `injection-includes-children` in `Properties::new`:
a list stays itself, a scalar becomes a one-element list, absence becomes
`[false]`. -/
def normalizeIncludesChildren : Option InjectionIncludesChildrenJSON → List Bool
  | some (.list v) => v
  | some (.single v) => [v]
  | none => [false]

/-- The `injections` computation of `Properties::new` (the big `match` on
the two injection fields). -/
def computeInjections (json : PropertiesJSON) (language : Lang) :
    Except LoadErr (List Injection) :=
  match json.injection_language, json.injection_content with
  | none, none => Except.ok ([] : List Injection)
  | some _, none =>
    Except.error (.invalidFormat
      "Must specify an injection-content along with an injection-language")
  | none, some _ =>
    Except.error (.invalidFormat
      "Must specify an injection-language along with an injection-content")
  | some language_json, some content_json =>
    match processLanguages language language_json with
    | .error e => .error e
    | .ok languages =>
      match processContents language content_json with
      | .error e => .error e
      | .ok contents =>
        if languages.length = contents.length then
          match normalizeIncludesChildren json.injection_includes_children with
          | [] => Except.error (.panicked "index out of bounds: the len is 0 but the index is 0")
          | pad :: restIc =>
            Except.ok (List.zipWith
              (fun (lc : InjectionLanguage × List TreeStep) ic =>
                { language := lc.1, content := lc.2, includes_children := ic })
              (languages.zip contents) (vecResize (pad :: restIc) languages.length pad))
        else
          Except.error (.invalidFormat
            "Mismatch between the number of injection-language values and injection-content values")

/-- `Properties::new`.  Note that the source's
`includes_children.resize(languages.len(), includes_children[0])` evaluates
`includes_children[0]` before resizing, so an empty `injection-includes-children`
list panics whenever the lengths match. -/
def Properties.new (json : PropertiesJSON) (language : Lang) : Except LoadErr Properties :=
  match computeInjections json language with
  | .error e => .error e
  | .ok injections =>
    Except.ok {
      highlight := json.highlight
      highlight_nonlocal := json.highlight_nonlocal
      local_scope := if json.local_scope then some json.local_scope_inherit else none
      local_definition := json.local_definition
      local_reference := json.local_reference
      injections := injections
    }

/- ## Tree-step execution -/

/-- The cast chain `(node.child_count() as isize + index) as usize` for a
negative `index`: two's-complement wrap on a 64-bit target. -/
def intToUsize (i : Int) : Nat := (i % (2 ^ 64 : Int)).toNat

/-- The index computation of the `Child` arm:
`if *index >= 0 { *index as usize } else { (child_count as isize + *index) as usize }`. -/
def childIndexVal (index : Int) (count : Nat) : Nat :=
  if index ≥ 0 then index.toNat else intToUsize ((count : Int) + index)

/-- The body of `Highlighter::process_tree_step` for one input node: the
children this node contributes to the next level.  The `Next` arm is
`unimplemented!()` in the source, which panics at use time; the panic is the
explicit error value here. -/
def treeStepNodeResults (step : TreeStep) (node : STree) : Except String (List STree) :=
  match step with
  | .child index kinds =>
    match node.child (childIndexVal index node.child_count) with
    | some c =>
      match kinds with
      | some ks => if ks.contains c.kind_id then .ok [c] else .ok []
      | none => .ok [c]
    | none => .ok []
  | .children kinds =>
    match kinds with
    | some ks => .ok (node.children.filter (fun c => ks.contains c.kind_id))
    | none => .ok node.children
  | .next _ => .error "not implemented"

/-- `Highlighter::process_tree_step`: apply one step to every node of the
working buffer, then drop the consumed prefix (the source appends the results
and drains the prefix; the embedding returns the appended results directly). -/
def process_tree_step (step : TreeStep) (nodes : List STree) : Except String (List STree) :=
  match nodes with
  | [] => .ok []
  | n :: rest =>
    match treeStepNodeResults step n with
    | .error e => .error e
    | .ok rs =>
      match process_tree_step step rest with
      | .error e => .error e
      | .ok tail => .ok (rs ++ tail)

/-- `Highlighter::nodes_for_tree_path`. -/
def nodes_for_tree_path (node : STree) (steps : List TreeStep) : Except String (List STree) :=
  nodesForSteps [node] steps
where
  nodesForSteps (nodes : List STree) : List TreeStep → Except String (List STree)
    | [] => .ok nodes
    | step :: rest =>
      match process_tree_step step nodes with
      | .error e => .error e
      | .ok nodes2 => nodesForSteps nodes2 rest

/- ## Range intersection (`Highlighter::intersect_ranges`)

The source is a triple-nested imperative loop over content nodes, excluded
ranges per node, and a monotone parent-range cursor, with an early `return`
when the parent ranges are exhausted.  Each loop becomes a recursive
function; the `Option (Range × List Range)` component is the parent cursor
handed to the next loop iteration (`none` encodes the early `return`). -/

/-- The `while parent_range.start_byte <= range.end_byte` loop.  The
recursion consumes the list of parent ranges not yet visited. -/
def intersectWhile : List Range → Range → Range → List Range →
    List Range × Option (Range × List Range)
  | rest, parent, range, acc =>
    if parent.start_byte ≤ range.end_byte then
      if parent.end_byte > range.start_byte then
        let range1 := if range.start_byte < parent.start_byte then
            { range with start_byte := parent.start_byte, start_point := parent.start_point }
          else range
        if parent.end_byte < range1.end_byte then
          let acc1 := if range1.start_byte < parent.end_byte then
              acc ++ [{ start_byte := range1.start_byte, start_point := range1.start_point,
                        end_byte := parent.end_byte, end_point := parent.end_point }]
            else acc
          let range2 := { range1 with start_byte := parent.end_byte, start_point := parent.end_point }
          match rest with
          | nextR :: rest2 => intersectWhile rest2 nextR range2 acc1
          | [] => (acc1, none)
        else
          let acc1 := if range1.start_byte < range1.end_byte then acc ++ [range1] else acc
          (acc1, some (parent, rest))
      else
        match rest with
        | nextR :: rest2 => intersectWhile rest2 nextR range acc
        | [] => (acc, none)
    else (acc, some (parent, rest))

/-- The `for excluded_range in …` loop: candidates are the gaps between
consecutive excluded ranges, starting from `preceding`. -/
def intersectExcl : List Range → Range → Range → List Range → List Range →
    List Range × Option (Range × List Range)
  | [], _, parent, rest, acc => (acc, some (parent, rest))
  | excluded :: more, preceding, parent, rest, acc =>
    let range : Range := { start_byte := preceding.end_byte, start_point := preceding.end_point,
                           end_byte := excluded.start_byte, end_point := excluded.start_point }
    if range.end_byte < parent.start_byte then
      intersectExcl more excluded parent rest acc
    else
      match intersectWhile rest parent range acc with
      | (acc1, some (parent1, rest1)) => intersectExcl more excluded parent1 rest1 acc1
      | (acc1, none) => (acc1, none)

/-- The `for node in nodes.iter()` loop. -/
def intersectNodes (includes_children : Bool) :
    List STree → Range → List Range → List Range → List Range × Option (Range × List Range)
  | [], parent, rest, acc => (acc, some (parent, rest))
  | node :: moreNodes, parent, rest, acc =>
    let preceding : Range := { start_byte := 0, start_point := ⟨0, 0⟩,
                               end_byte := node.start_byte, end_point := node.start_position }
    let following : Range := { start_byte := node.end_byte, start_point := node.end_position,
                               end_byte := USIZE_MAX, end_point := ⟨USIZE_MAX, USIZE_MAX⟩ }
    let excls := (if includes_children then [] else node.children.map STree.range) ++ [following]
    match intersectExcl excls preceding parent rest acc with
    | (acc1, some (parent1, rest1)) => intersectNodes includes_children moreNodes parent1 rest1 acc1
    | (acc1, none) => (acc1, none)

/-- `Highlighter::intersect_ranges`.  An empty `parent_ranges` makes the
source panic (`.expect(…)`); layers are only ever constructed with non-empty
range vectors, and the claims about this function assume non-emptiness, so
that case is mapped to `[]` here. -/
def intersect_ranges (parent_ranges : List Range) (nodes : List STree)
    (includes_children : Bool) : List Range :=
  match parent_ranges with
  | [] => []
  | parent :: rest => (intersectNodes includes_children nodes parent rest []).1

/- ## Layers: the per-tree depth-first walker with scope tracking -/

/-- `Scope` from the source.  Local-definition keys are the UTF-8 bytes of the
node text (Rust `&str` comparison is bytewise). -/
structure Scope where
  inherits : Bool
  local_defs : List (List Nat × Highlight)

/-- Bytewise lexicographic order on byte strings (Rust's `str` order). -/
def bytesLt : List Nat → List Nat → Bool
  | [], [] => false
  | [], _ :: _ => true
  | _ :: _, [] => false
  | a :: as_, b :: bs => if a < b then true else if a = b then bytesLt as_ bs else false

/-- The `binary_search_by_key` + `insert` in `enter_node`, specified on the
sorted list it operates on: insert in key order, first binding wins. -/
def insertLocalDef (defs : List (List Nat × Highlight)) (text : List Nat) (hl : Highlight) :
    List (List Nat × Highlight) :=
  match defs with
  | [] => [(text, hl)]
  | (t, g) :: rest =>
    if bytesLt t text then (t, g) :: insertLocalDef rest text hl
    else if t = text then (t, g) :: rest
    else (text, hl) :: (t, g) :: rest

/-- The `binary_search_by_key` lookup in `enter_node`, specified on the
sorted list: find the binding with this key, if any. -/
def lookupLocalDef (defs : List (List Nat × Highlight)) (text : List Nat) : Option Highlight :=
  (defs.find? (fun e => e.1 == text)).map (fun e => e.2)

/-- The scope-stack search of `enter_node` for a local reference: innermost
scope first, stopping at the first non-inheriting scope.  The stack is
modelled with the innermost scope at the head (the source keeps it at the
end of a `Vec` and iterates `.rev()`). -/
def lookupScopes : List Scope → List Nat → Option Highlight
  | [], _ => none
  | scope :: rest, text =>
    match lookupLocalDef scope.local_defs text with
    | some h => some h
    | none => if scope.inherits then lookupScopes rest text else none

/-- A cursor position is the list of child indices from the root. -/
def nodeAt : STree → List Nat → Option STree
  | t, [] => some t
  | t, i :: p =>
    match t.children[i]? with
    | some c => nodeAt c p
    | none => none

/-- `Layer` from the source.  `opq` is the source's `opaque` field; the
cursor is the pair `tree`/`path`; `sheet` is the layer's property sheet
(external collaborator, keyed by node kind id). -/
structure Layer where
  tree : STree
  path : List Nat
  sheet : Nat → Properties
  ranges : List Range
  at_node_end : Bool
  depth : Nat
  opq : Bool
  scope_stack : List Scope
  local_highlight : Option Highlight

/-- `cursor.node()`. -/
def Layer.node (l : Layer) : STree := (nodeAt l.tree l.path).getD l.tree

/-- `TreeCursor::goto_first_child`. -/
def goto_first_child (t : STree) (p : List Nat) : Option (List Nat) :=
  match nodeAt t p with
  | some n => if n.children.isEmpty then none else some (p ++ [0])
  | none => none

/-- `TreeCursor::goto_next_sibling`. -/
def goto_next_sibling (t : STree) (p : List Nat) : Option (List Nat) :=
  match p.getLast? with
  | none => none
  | some i =>
    match nodeAt t p.dropLast with
    | some parent => if i + 1 < parent.children.length then some (p.dropLast ++ [i + 1]) else none
    | none => none

/-- `TreeCursor::goto_parent`. -/
def goto_parent (p : List Nat) : Option (List Nat) :=
  match p with
  | [] => none
  | _ => some p.dropLast

/-- `Layer::new` (the cursor starts at the root; the scope stack holds the
sentinel root scope). -/
def Layer.new (tree : STree) (sheet : Nat → Properties) (ranges : List Range)
    (depth : Nat) (opq : Bool) : Layer :=
  { tree := tree, path := [], sheet := sheet, ranges := ranges, at_node_end := false,
    depth := depth, opq := opq, scope_stack := [⟨false, []⟩], local_highlight := none }

/-- `Layer::offset`. -/
def Layer.offset (l : Layer) : Nat :=
  if l.at_node_end then l.node.end_byte else l.node.start_byte

/-- Rust's `Ord` on `bool`: `false < true`. -/
def boolCmp : Bool → Bool → Ordering
  | false, false => .eq
  | false, true => .lt
  | true, false => .gt
  | true, true => .eq

/-- `Layer::cmp`: offset, then ends-before-starts, then depth. -/
def Layer.cmp (a b : Layer) : Ordering :=
  (compare a.offset b.offset).then
    ((boolCmp b.at_node_end a.at_node_end).then (compare a.depth b.depth))

/-- `Layer::enter_node`.  `cursor.node_bytes()` is the source slice of the
current node's byte range. -/
def Layer.enter_node (l : Layer) (src : List Nat) : Layer :=
  let node := l.node
  let props := l.sheet node.kind_id
  let node_text : Option (List Nat) :=
    if props.local_definition || props.local_reference then
      match decode_utf8 (sliceBytes src node.start_byte node.end_byte) with
      | .ok t => some t
      | .error _ => none
    else none
  let l1 :=
    if props.local_definition then
      match node_text, l.scope_stack, props.highlight with
      | some text, inner :: restScopes, some hl =>
        { l with local_highlight := props.highlight,
                 scope_stack :=
                   { inner with local_defs := insertLocalDef inner.local_defs text hl } ::
                     restScopes }
      | _, _, _ => l
    else if props.local_reference then
      match node_text with
      | some text =>
        match lookupScopes l.scope_stack text with
        | some h => { l with local_highlight := some h }
        | none => l
      | none => l
    else l
  match props.local_scope with
  | some inherits => { l1 with scope_stack := ⟨inherits, []⟩ :: l1.scope_stack }
  | none => l1

/-- `Layer::leave_node`. -/
def Layer.leave_node (l : Layer) : Layer :=
  let props := l.sheet l.node.kind_id
  if (props.local_scope).isSome then { l with scope_stack := l.scope_stack.tail } else l

/-- `Layer::advance`: `none` models returning `false` (exhausted). -/
def Layer.advance (l : Layer) (src : List Nat) : Option Layer :=
  let l0 := { l with local_highlight := none }
  if l0.at_node_end then
    let l1 := l0.leave_node
    match goto_next_sibling l1.tree l1.path with
    | some p => some (Layer.enter_node { l1 with path := p, at_node_end := false } src)
    | none =>
      match goto_parent l1.path with
      | some p => some { l1 with path := p }
      | none => none
  else
    match goto_first_child l0.tree l0.path with
    | some p => some (Layer.enter_node { l0 with path := p } src)
    | none => some { l0 with at_node_end := true }

/- ## The Highlighter iterator -/

def CANCELLATION_CHECK_INTERVAL : Nat := 100

/-- `HighlightEvent`; `Source` text is represented by its UTF-8 bytes. -/
inductive HighlightEvent where
  | source (text : List Nat)
  | highlightStart (h : Highlight)
  | highlightEnd
deriving DecidableEq, Repr

/-- Bookkeeping attached to each emitted highlight event by the embedding
(not part of the source's event type): the source offset it was staged at,
and the emitting layer's depth and phase. -/
structure EvMeta where
  offset : Nat
  depth : Nat
  atEnd : Bool
deriving DecidableEq, Repr

/-- The mutable state of `Highlighter` (`max_opq_layer_depth` is the
source's `max_opaque_layer_depth`; the cancellation flag's value is the
constant the atomic would read). -/
structure HState where
  source : List Nat
  source_offset : Nat
  layers : List Layer
  max_opq_layer_depth : Nat
  utf8_error_len : Option Nat
  operation_count : Nat
  cancellation_flag : Option Nat

/-- The external collaborators of the iterator: the injection callback
(keyed by the UTF-8 bytes of the language name) and the parser
(`set_included_ranges` + `parse_source`; `none` models a cancelled parse). -/
structure Env where
  callback : List Nat → Option (Lang × (Nat → Properties))
  parse : Lang → List Range → Option STree

/-- The initial state built by `Highlighter::new` from an already-parsed
root tree: one root layer over the maximal range, opaque, depth 0. -/
def HState.init (src : List Nat) (tree : STree) (sheet : Nat → Properties)
    (flag : Option Nat) : HState :=
  { source := src, source_offset := 0,
    layers := [Layer.new tree sheet
      [{ start_byte := 0, start_point := ⟨0, 0⟩,
         end_byte := USIZE_MAX, end_point := ⟨USIZE_MAX, USIZE_MAX⟩ }] 0 true],
    max_opq_layer_depth := 0, utf8_error_len := none, operation_count := 0,
    cancellation_flag := flag }

/-- `Highlighter::emit_source`: `none` models `next()` returning `None`. -/
def HState.emit_source (s : HState) (next_offset : Nat) :
    Option (Except Error HighlightEvent) × HState :=
  let input := sliceBytes s.source s.source_offset next_offset
  match decode_utf8 input with
  | .ok valid => (some (.ok (.source valid)), { s with source_offset := next_offset })
  | .error (valid_len, some error_len) =>
    if valid_len > 0 then
      (some (.ok (.source (input.take valid_len))), { s with utf8_error_len := some error_len })
    else
      (some (.ok (.source fffdBytes)), { s with source_offset := s.source_offset + error_len })
  | .error (_, none) => (none, s)

/-- `Highlighter::injection_language_string`.  A `TreeStep::Next` in the
path makes the source panic (`Except.error`). -/
def injection_language_string (src : List Nat) (node : STree) :
    InjectionLanguage → Except String (Option (List Nat))
  | .literal s => .ok (some (strBytes s))
  | .treePath steps =>
    match nodes_for_tree_path node steps with
    | .error e => .error e
    | .ok ns =>
      match ns.head? with
      | none => .ok none
      | some n =>
        let bytes := sliceBytes src n.start_byte n.end_byte
        match decode_utf8 bytes with
        | .ok t => .ok (some t)
        | .error _ => .ok none

/-- Insertion at the position found by `binary_search_by` on the sorted
layer list: after every layer that does not compare greater. -/
def orderedInsertLayer (layer : Layer) : List Layer → List Layer
  | [] => [layer]
  | a :: rest =>
    if Layer.cmp a layer = Ordering.gt then layer :: a :: rest
    else a :: orderedInsertLayer layer rest

/-- `Highlighter::add_layer`. -/
def HState.add_layer (env : Env) (s : HState) (language_bytes : List Nat)
    (ranges : List Range) (depth : Nat) (includes_children : Bool) : Option Error × HState :=
  match env.callback language_bytes with
  | none => (none, s)
  | some (lang, sheet) =>
    if !lang.valid then (some .InvalidLanguage, s)
    else
      match env.parse lang ranges with
      | some tree =>
        let layer := Layer.new tree sheet ranges depth includes_children
        let s1 := if includes_children && decide (depth > s.max_opq_layer_depth) then
            { s with max_opq_layer_depth := depth }
          else s
        (none, { s1 with layers := orderedInsertLayer layer s1.layers })
      | none => (some .Cancelled, s)

/-- `Highlighter::remove_first_layer`. -/
def HState.remove_first_layer (s : HState) : HState :=
  match s.layers with
  | [] => s
  | layer :: rest =>
    let s1 := { s with layers := rest }
    if layer.opq && decide (layer.depth = s.max_opq_layer_depth) then
      { s1 with max_opq_layer_depth :=
          ((rest.filterMap (fun l => if l.opq then some l.depth else none)).foldr max 0) }
    else s1

/-- The `filter_map` over the current node's injections in `next()`:
resolve each language name, compute content nodes and intersected ranges,
and keep the non-empty ones. -/
def gatherInjections (src : List Nat) (node : STree) (layerRanges : List Range) :
    List Injection → Except String (List (List Nat × List Range × Bool))
  | [] => .ok []
  | inj :: rest =>
    match injection_language_string src node inj.language with
    | .error e => .error e
    | .ok none => gatherInjections src node layerRanges rest
    | .ok (some name) =>
      match nodes_for_tree_path node inj.content with
      | .error e => .error e
      | .ok ns =>
        let ranges := intersect_ranges layerRanges ns inj.includes_children
        match gatherInjections src node layerRanges rest with
        | .error e => .error e
        | .ok tail =>
          if ranges.length > 0 then .ok ((name, ranges, inj.includes_children) :: tail)
          else .ok tail

/-- The `for (language, ranges, includes_children) in injections` loop. -/
def addLayers (env : Env) (depth : Nat) :
    List (List Nat × List Range × Bool) → HState → Option Error × HState
  | [], s => (none, s)
  | (name, ranges, ic) :: rest, s =>
    match HState.add_layer env s name ranges depth ic with
    | (some e, s1) => (some e, s1)
    | (none, s1) => addLayers env depth rest s1

/-- The adjacent-swap re-sort after the head layer advances:
`while layers[i].cmp(layers[i+1]) == Greater { swap }` — the advanced head
`a` is swapped past every following layer it compares greater than. -/
def bubbleLayer (a : Layer) : List Layer → List Layer
  | [] => [a]
  | b :: rest =>
    if Layer.cmp a b = Ordering.gt then b :: bubbleLayer a rest else a :: b :: rest

/-- The re-sort applied to the whole list (head bubbled into the tail). -/
def bubbleHead : List Layer → List Layer
  | [] => []
  | a :: rest => bubbleLayer a rest

/-- Results of one iteration of the `while !self.layers.is_empty()` loop in
`next()`: an emitted item (`return Some(r)`), a direct `return None`
(`finished`), loop exit because no layers remain (`fellThrough`), a Rust
panic, or an advance with no event (`advanced`: the loop continues). -/
inductive IterRes where
  | emit (r : Except Error HighlightEvent) (meta : Option EvMeta) (s : HState)
  | finished (s : HState)
  | fellThrough (s : HState)
  | panicked (msg : String) (s : HState)
  | advanced (s : HState)

/-- The injection-gathering phase of one loop iteration: when the head is
visible and at a node start, gather its injections and install the new
layers (the `Option Error` is the `add_layer` failure that aborts the
iteration). -/
def injPhase (env : Env) (s : HState) (first : Layer) :
    Except String (Option Error × HState) :=
  if decide (first.depth ≥ s.max_opq_layer_depth) && !first.at_node_end then
    match gatherInjections s.source first.node first.ranges
        ((first.sheet first.node.kind_id).injections) with
    | .error msg => .error msg
    | .ok injs => .ok (addLayers env (first.depth + 1) injs s)
  else .ok (none, s)

/-- The staging phase of one loop iteration: with the pre-injection head's
visibility, `local_highlight` and properties, and the re-fetched head
`first1`, either return early (pending source slice — `inl`) or stage a
highlight boundary (`inr`). -/
def stagePhase (s1 : HState) (visible : Bool) (lh : Option Highlight) (props : Properties)
    (first1 : Layer) : Sum IterRes (Option (HighlightEvent × EvMeta)) :=
  if visible then
    match lh <|> props.highlight_nonlocal <|> props.highlight with
    | some highlight =>
      let next_offset := min s1.source.length first1.offset
      if s1.source_offset < next_offset then
        match HState.emit_source s1 next_offset with
        | (some r, s2) => .inl (.emit r none s2)
        | (none, s2) => .inl (.finished s2)
      else
        .inr (some
          ((if first1.at_node_end then HighlightEvent.highlightEnd
            else HighlightEvent.highlightStart highlight),
           (⟨next_offset, first1.depth, first1.at_node_end⟩ : EvMeta)))
    | none => .inr none
  else .inr none

/-- The advance phase of one loop iteration: advance the head layer and
re-sort by adjacent swaps, or remove it when exhausted. -/
def advancePhase (s1 : HState) (first1 : Layer) (rest1 : List Layer) : HState :=
  match first1.advance s1.source with
  | some f1 => { s1 with layers := bubbleHead (f1 :: rest1) }
  | none => HState.remove_first_layer s1

/-- One iteration of the `while` loop in `Highlighter::next`.  Mirrors the
source's statement order: visibility is decided on the head layer first;
injections are gathered from the head's current node and added (possibly
re-ordering the layer list); the head is then re-fetched for the highlight
staging; a pending source slice is returned before any staged highlight
boundary; finally the head advances and the list is re-sorted by adjacent
swaps (or the head is removed). -/
def loopIter (env : Env) (s : HState) : IterRes :=
  match s.layers with
  | [] => .fellThrough s
  | first :: _ =>
    match injPhase env s first with
    | .error msg => .panicked msg s
    | .ok (some e, s1) => .emit (.error e) none s1
    | .ok (none, s1) =>
      match s1.layers with
      | [] => .fellThrough s1
      | first1 :: rest1 =>
        match stagePhase s1 (decide (first.depth ≥ s.max_opq_layer_depth))
            first.local_highlight (first.sheet first.node.kind_id) first1 with
        | .inl res => res
        | .inr scope_event =>
          match scope_event with
          | some (ev, m) => .emit (.ok ev) (some m) (advancePhase s1 first1 rest1)
          | none => .advanced (advancePhase s1 first1 rest1)

/-- Results of the whole `while` loop (fuelled). -/
inductive LoopRes where
  | emit (r : Except Error HighlightEvent) (meta : Option EvMeta) (s : HState)
  | finished (s : HState)
  | fellThrough (s : HState)
  | panicked (msg : String) (s : HState)
  | outOfFuel (s : HState)

/-- The `while !self.layers.is_empty()` loop, one call of `loopIter` per
unit of fuel. -/
def nextLoop (env : Env) : Nat → HState → LoopRes
  | 0, s => .outOfFuel s
  | fuel + 1, s =>
    match loopIter env s with
    | .emit r m s2 => .emit r m s2
    | .finished s2 => .finished s2
    | .fellThrough s2 => .fellThrough s2
    | .panicked msg s2 => .panicked msg s2
    | .advanced s2 => nextLoop env fuel s2

/-- Results of one `next()` call. -/
inductive NextRes where
  | item (r : Except Error HighlightEvent) (meta : Option EvMeta) (s : HState)
  | finished (s : HState)
  | panicked (msg : String) (s : HState)
  | outOfFuel (s : HState)

/-- The part of `Highlighter::next` after the cancellation check: pending
U+FFFD replacement, the layer loop, then the trailing source slice. -/
def nextAfterCancel (env : Env) (loopFuel : Nat) (s1 : HState) : NextRes :=
  match s1.utf8_error_len with
  | some l =>
    .item (.ok (.source fffdBytes)) none
      { s1 with utf8_error_len := none, source_offset := s1.source_offset + l }
  | none =>
    match nextLoop env loopFuel s1 with
    | .emit r m s2 => .item r m s2
    | .finished s2 => .finished s2
    | .outOfFuel s2 => .outOfFuel s2
    | .panicked msg s2 => .panicked msg s2
    | .fellThrough s2 =>
      if s2.source_offset < s2.source.length then
        match HState.emit_source s2 s2.source.length with
        | (some r, s3) => .item r none s3
        | (none, s3) => .finished s3
      else .finished s2

/-- `Highlighter::next`: the cancellation check (bump the counter; at the
interval, reset it and fail if the flag is nonzero), then the rest of the
call. -/
def nextH (env : Env) (loopFuel : Nat) (s : HState) : NextRes :=
  match s.cancellation_flag with
  | some v =>
    if s.operation_count + 1 ≥ CANCELLATION_CHECK_INTERVAL then
      if v ≠ 0 then .item (.error .Cancelled) none { s with operation_count := 0 }
      else nextAfterCancel env loopFuel { s with operation_count := 0 }
    else nextAfterCancel env loopFuel { s with operation_count := s.operation_count + 1 }
  | none => nextAfterCancel env loopFuel s

/-- How a full iteration ended. -/
inductive RunEnd where
  | done
  | errored (e : Error)
  | panicked (msg : String)
  | fuelOut
deriving DecidableEq, Repr

/-- Drive the iterator to completion (at most `n` calls of `next()`),
collecting the emitted events with their bookkeeping.  Iteration stops at
the first `Err`, as the API contract requires of callers. -/
def runH (env : Env) (loopFuel : Nat) :
    Nat → HState → List (HighlightEvent × Option EvMeta) × RunEnd
  | 0, _ => ([], .fuelOut)
  | n + 1, s =>
    match nextH env loopFuel s with
    | .item (.ok ev) m s1 =>
      let (evs, e) := runH env loopFuel n s1
      ((ev, m) :: evs, e)
    | .item (.error e) _ _ => ([], .errored e)
    | .finished _ => ([], .done)
    | .outOfFuel _ => ([], .fuelOut)
    | .panicked msg _ => ([], .panicked msg)

/-- The events of a run, without bookkeeping. -/
def runEvents (env : Env) (loopFuel n : Nat) (s : HState) : List HighlightEvent :=
  ((runH env loopFuel n s).1).map (fun x => x.1)

instance {ε α : Type} [DecidableEq ε] [DecidableEq α] : DecidableEq (Except ε α) := fun a b =>
  match a, b with
  | .ok x, .ok y => decidable_of_iff (x = y) (by simp)
  | .error x, .error y => decidable_of_iff (x = y) (by simp)
  | .ok _, .error _ => isFalse (by simp)
  | .error _, .ok _ => isFalse (by simp)

/- ## Derived observations on event streams -/

/-- Concatenation of the texts of all `Source` events, in order. -/
def sourceConcat : List HighlightEvent → List Nat
  | [] => []
  | .source t :: rest => t ++ sourceConcat rest
  | _ :: rest => sourceConcat rest

/-- Number of `HighlightStart` events. -/
def countStarts (evs : List HighlightEvent) : Nat :=
  (evs.filter fun e => match e with | .highlightStart _ => true | _ => false).length

/-- Number of `HighlightEnd` events. -/
def countEnds (evs : List HighlightEvent) : Nat :=
  (evs.filter fun e => match e with | .highlightEnd => true | _ => false).length

/-- The bookkeeping of the highlight events of a traced run, in emission
order (source events carry no bookkeeping). -/
def highlightMetas (tr : List (HighlightEvent × Option EvMeta)) : List EvMeta :=
  tr.filterMap (fun x => x.2)

/-- The ordering the claim asserts between two highlight events emitted in
this order: strictly increasing offset, or at equal offset an end before a
start, or equal phase with non-decreasing depth. -/
def claimPairOk (a b : EvMeta) : Prop :=
  a.offset < b.offset ∨
    (a.offset = b.offset ∧
      ((a.atEnd = true ∧ b.atEnd = false) ∨ (a.atEnd = b.atEnd ∧ a.depth ≤ b.depth)))

instance (a b : EvMeta) : Decidable (claimPairOk a b) := by
  unfold claimPairOk
  infer_instance

/- ## Concrete inputs used by the analyses -/

/-- A `Properties` record with nothing set. -/
def Properties.empty : Properties := ⟨none, none, [], none, false, false⟩

/-- An environment whose injection callback knows no languages. -/
def Env.nil : Env := ⟨fun _ => none, fun _ _ => none⟩

/-- A single five-byte node covering the source `61 62 FF 63 64` (an invalid
byte between two valid runs). -/
def utf8Tree : STree := .mk 0 ⟨0, 0⟩ 5 ⟨0, 5⟩ 0 []

/-- Highlighter over `61 62 FF 63 64` with a sheet assigning no properties. -/
def utf8State : HState :=
  HState.init [0x61, 0x62, 0xFF, 0x63, 0x64] utf8Tree (fun _ => Properties.empty) none

/-- Sheet for the definition/reference example: kind 1 is a local definition
highlighted `variable`; kind 2 is a local reference with neither `highlight`
nor `highlight_nonlocal`. -/
def defRefSheet : Nat → Properties := fun k =>
  if k = 1 then ⟨some .variable, none, [], none, true, false⟩
  else if k = 2 then ⟨none, none, [], none, false, true⟩
  else Properties.empty

/-- Root `[0,2)` with children: a definition node `[0,1)` (kind 1) and a
reference node `[1,2)` (kind 2); both spell the same text `x`. -/
def defRefTree : STree :=
  .mk 0 ⟨0, 0⟩ 2 ⟨0, 2⟩ 0
    [.mk 0 ⟨0, 0⟩ 1 ⟨0, 1⟩ 1 [], .mk 1 ⟨0, 1⟩ 2 ⟨0, 2⟩ 2 []]

/-- Highlighter over the source `"xx"` with `defRefSheet`. -/
def defRefState : HState := HState.init [0x78, 0x78] defRefTree defRefSheet none

/-- A zero-width root node `[0,0)` whose sheet assigns a highlight. -/
def zeroWidthTree : STree := .mk 0 ⟨0, 0⟩ 0 ⟨0, 0⟩ 0 []

/-- Highlighter over the empty source with the zero-width highlighted node. -/
def zeroWidthState : HState :=
  HState.init [] zeroWidthTree (fun _ => ⟨some .keyword, none, [], none, false, false⟩) none

/-- A node that is not a local reference but carries both `highlight`
(`variable`) and `highlight_nonlocal` (`keyword`). -/
def bothHighlightsState : HState :=
  HState.init [0x61] (.mk 0 ⟨0, 0⟩ 1 ⟨0, 1⟩ 0 [])
    (fun _ => ⟨some .variable, some .keyword, [], none, false, false⟩) none

/- ## C1, C2-counterexample, C3-counterexample, C5-counterexample -/

/-- C1.  On the source `61 62 FF 63 64` with no highlights, iteration
completes without error but the `Source` events concatenate to
`"ab" FFFD "b" FFFD FFFD "cd"`, not to `"ab" FFFD "cd"`: when `emit_source`
meets an invalid sequence after a non-empty valid prefix it emits the prefix
and records `utf8_error_len`, but does not advance `source_offset` by the
prefix length (the claimed behaviour), so the prefix tail is re-emitted and
extra U+FFFD events appear.  The last conjunct pins the missing advance
itself: the `emit_source` call leaves `source_offset` unchanged at 0. -/
theorem c1_reassembly_code_bug :
    (runH Env.nil 50 50 utf8State).2 = RunEnd.done ∧
    runEvents Env.nil 50 50 utf8State =
      [.source [0x61, 0x62], .source fffdBytes, .source [0x62],
       .source fffdBytes, .source fffdBytes, .source [0x63, 0x64]] ∧
    sourceConcat (runEvents Env.nil 50 50 utf8State) ≠
      [0x61, 0x62] ++ fffdBytes ++ [0x63, 0x64] ∧
    (HState.emit_source utf8State 5).1 = some (.ok (.source [0x61, 0x62])) ∧
    (HState.emit_source utf8State 5).2.source_offset = 0 := by
  decide

/-- C2 counterexample.  A local reference that resolves to an in-scope
definition but has neither `highlight` nor `highlight_nonlocal` emits a
`HighlightStart` at node start (from `local_highlight`) but no
`HighlightEnd` at node end (where `local_highlight` has been cleared), so a
run that completes without error has two starts and one end. -/
theorem c2_balance_counterexample :
    (runH Env.nil 50 50 defRefState).2 = RunEnd.done ∧
    runEvents Env.nil 50 50 defRefState =
      [.highlightStart .variable, .source [0x78], .highlightEnd,
       .highlightStart .variable, .source [0x78]] ∧
    countStarts (runEvents Env.nil 50 50 defRefState) = 2 ∧
    countEnds (runEvents Env.nil 50 50 defRefState) = 1 := by
  decide

/-- C3 counterexample.  A zero-width highlighted node emits its
`HighlightStart` and then its `HighlightEnd` at the same offset 0, so at
equal offsets a start precedes an end, violating the claimed tie rule. -/
theorem c3_ordering_counterexample :
    (runH Env.nil 50 50 zeroWidthState).2 = RunEnd.done ∧
    highlightMetas (runH Env.nil 50 50 zeroWidthState).1 =
      [⟨0, 0, false⟩, ⟨0, 0, true⟩] ∧
    ¬ List.Pairwise claimPairOk (highlightMetas (runH Env.nil 50 50 zeroWidthState).1) := by
  decide

/-- C5 counterexample.  A node whose `local_reference` is false and whose
`highlight` is present (`variable`) emits its `highlight_nonlocal`
(`keyword`) instead: the staging computes
`local_highlight.or(highlight_nonlocal).or(highlight)` with no reference
check. -/
theorem c5_nonlocal_counterexample :
    (runH Env.nil 50 50 bothHighlightsState).2 = RunEnd.done ∧
    runEvents Env.nil 50 50 bothHighlightsState =
      [.highlightStart .keyword, .source [0x61], .highlightEnd] ∧
    HighlightEvent.highlightStart .variable ∉ runEvents Env.nil 50 50 bothHighlightsState := by
  decide

/- ## Property-sheet loading: C6, C7, C9, C10 -/

/-- A one-kind language accepting everything, for sheet-loading examples. -/
def langSimple : Lang := ⟨1, fun _ => "node", fun _ => true, true⟩

/-- A record whose `injection-language` is a list of lists. -/
def listOfListsJson : PropertiesJSON :=
  { PropertiesJSON.base with
    injection_language := some (.list [.list []])
    injection_content := some (.treePath .this) }

/-- A record with one language/content pair but an empty
`injection-includes-children` list. -/
def emptyIncludesJson : PropertiesJSON :=
  { PropertiesJSON.base with
    injection_language := some (.literal "a")
    injection_content := some (.treePath .this)
    injection_includes_children := some (.list []) }

/-- A record whose `injection-content` is the tree path `next(this)`. -/
def nextStepJson : PropertiesJSON :=
  { PropertiesJSON.base with
    injection_language := some (.literal "javascript")
    injection_content := some (.treePath (.next [.treePath .this])) }

/-- C6 counterexample.  A list-of-lists `injection-language` makes
`Properties::new` panic (`panic!("Injection-language cannot be a list of
lists")`), so load does not return an `InvalidFormat` error for it. -/
theorem c6_list_of_lists_counterexample :
    Properties.new listOfListsJson langSimple =
      .error (.panicked "Injection-language cannot be a list of lists") ∧
    (∀ msg, Properties.new listOfListsJson langSimple ≠ .error (.invalidFormat msg)) := by
  constructor
  · decide
  · intro msg h
    rw [show Properties.new listOfListsJson langSimple =
        .error (.panicked "Injection-language cannot be a list of lists") from by decide] at h
    simp at h

/-- C6 amended.  A list-of-lists in the `injection-language` (resp.
`injection-content`) field still fails at load time, but by a panic, not by a
returned `InvalidFormat`: whenever the offending nested list is the first
element of the list (so that no earlier element fails first), `Properties::new`
panics with the corresponding message. -/
theorem c6_list_of_lists_amended (json : PropertiesJSON) (lang : Lang) :
    (∀ l rest c, json.injection_language = some (.list (.list l :: rest)) →
      json.injection_content = some c →
      Properties.new json lang =
        .error (.panicked "Injection-language cannot be a list of lists")) ∧
    (∀ s cl crest, json.injection_language = some (.literal s) →
      json.injection_content = some (.list (.list cl :: crest)) →
      Properties.new json lang =
        .error (.panicked "Injection-content cannot be a list of lists")) := by
  constructor
  · intro l rest c h1 h2
    unfold Properties.new computeInjections
    rw [h1, h2]
    rfl
  · intro s cl crest h1 h2
    unfold Properties.new computeInjections
    rw [h1, h2]
    rfl

/-- C6 amended, witnessed at `listOfListsJson`. -/
theorem c6_list_of_lists_amended_witness :
    Properties.new listOfListsJson langSimple =
      .error (.panicked "Injection-language cannot be a list of lists") :=
  (c6_list_of_lists_amended listOfListsJson langSimple).1 [] [] (.treePath .this) rfl rfl

/-- C7 counterexample.  With one language/content pair (`n = 1`) and an
empty `injection-includes-children` list, `Properties::new` panics on
`includes_children[0]` instead of producing `n` injections. -/
theorem c7_includes_children_counterexample :
    Properties.new emptyIncludesJson langSimple =
      .error (.panicked "index out of bounds: the len is 0 but the index is 0") := by
  decide

/-- The `includes_children` flags of the produced injections are the resized
vector itself, because the zipped lists have equal length. -/
theorem map_ic_zipWith (ab : List (InjectionLanguage × List TreeStep)) (cd : List Bool)
    (h : ab.length = cd.length) :
    (List.zipWith
      (fun (lc : InjectionLanguage × List TreeStep) ic =>
        ({ language := lc.1, content := lc.2, includes_children := ic } : Injection)) ab cd).map
      (fun i => i.includes_children) = cd := by
  induction ab generalizing cd with
  | nil => cases cd with
    | nil => rfl
    | cons c cs => simp at h
  | cons a as_ ih =>
    cases cd with
    | nil => simp at h
    | cons c cs =>
      simp only [List.zipWith_cons_cons, List.map_cons]
      rw [ih cs (by simpa using h)]

/-- `vecResize` always returns a list of length `n`. -/
theorem vecResize_length (v : List Bool) (n : Nat) (pad : Bool) :
    (vecResize v n pad).length = n := by
  unfold vecResize
  split
  · simp
    omega
  · simp
    omega

/-- C7 amended.  For records whose language and content lists both process
successfully to `n` entries each, and whose `injection-includes-children`
normalises to a non-empty vector (it is omitted, a scalar, or a non-empty
list — an empty list panics instead, see the counterexample),
`Properties::new` produces exactly `n` injections whose flags are the
normalised vector resized to `n` padded with its first element: all-`false`
when omitted, broadcast when scalar, first-element-padded when a shorter
non-empty list. -/
theorem c7_includes_children_amended (json : PropertiesJSON) (lang : Lang)
    (lj : InjectionLanguageJSON) (cj : InjectionContentJSON)
    (languages : List InjectionLanguage) (contents : List (List TreeStep))
    (ics : List Bool)
    (hl : json.injection_language = some lj)
    (hc : json.injection_content = some cj)
    (h1 : processLanguages lang lj = Except.ok languages)
    (h2 : processContents lang cj = Except.ok contents)
    (hlen : languages.length = contents.length)
    (hic : normalizeIncludesChildren json.injection_includes_children = ics)
    (hne : ics ≠ []) :
    ∃ props, Properties.new json lang = Except.ok props ∧
      props.injections.length = languages.length ∧
      props.injections.map (fun i => i.includes_children) =
        vecResize ics languages.length (ics.headD false) := by
  match ics, hne with
  | pad :: restIc, _ =>
    have hz : (languages.zip contents).length =
        (vecResize (pad :: restIc) languages.length pad).length := by
      simp only [vecResize_length, List.length_zip]
      omega
    refine ⟨{ highlight := json.highlight, highlight_nonlocal := json.highlight_nonlocal,
              injections := List.zipWith
                (fun (lc : InjectionLanguage × List TreeStep) ic =>
                  ({ language := lc.1, content := lc.2, includes_children := ic } : Injection))
                (languages.zip contents) (vecResize (pad :: restIc) languages.length pad),
              local_scope := if json.local_scope then some json.local_scope_inherit else none,
              local_definition := json.local_definition,
              local_reference := json.local_reference }, ?_, ?_, ?_⟩
    · have hinj : computeInjections json lang = Except.ok (List.zipWith
          (fun (lc : InjectionLanguage × List TreeStep) ic =>
            ({ language := lc.1, content := lc.2, includes_children := ic } : Injection))
          (languages.zip contents) (vecResize (pad :: restIc) languages.length pad)) := by
        simp only [computeInjections, hl, hc, h1, h2, hic, if_pos hlen]
      simp only [Properties.new, hinj]
    · simp only [List.length_zipWith, List.length_zip, vecResize_length]
      omega
    · exact map_ic_zipWith _ _ hz

/-- C7 amended, witnessed: two literal languages and contents with a
length-1 flag list broadcast `true` to both injections. -/
theorem c7_includes_children_amended_witness :
    ∃ props,
      Properties.new
        { PropertiesJSON.base with
          injection_language := some (.list [.literal "a", .literal "b"])
          injection_content := some (.list [.treePath .this, .treePath .this])
          injection_includes_children := some (.list [true]) } langSimple = Except.ok props ∧
      props.injections.length = 2 ∧
      props.injections.map (fun i => i.includes_children) = [true, true] := by
  obtain ⟨props, h1, h2, h3⟩ :=
    c7_includes_children_amended
      { PropertiesJSON.base with
        injection_language := some (.list [.literal "a", .literal "b"])
        injection_content := some (.list [.treePath .this, .treePath .this])
        injection_includes_children := some (.list [true]) } langSimple
      (.list [.literal "a", .literal "b"]) (.list [.treePath .this, .treePath .this])
      [.literal "a", .literal "b"] [[], []] [true]
      rfl rfl (by decide) (by decide) rfl rfl (by decide)
  exact ⟨props, h1, h2, by rw [h3]; decide⟩

/-- C9.  `flatten_tree_path` accepts the well-formed `next(this)` form and
emits a `TreeStep::Next` without error; a sheet containing it loads
successfully; but executing the `Next` step in `process_tree_step` hits the
`unimplemented!()` arm and panics at use time. -/
theorem c9_next_step_panics :
    flatten_tree_path (.next [.treePath .this]) langSimple = .ok [.next none] ∧
    Properties.new nextStepJson langSimple =
      .ok ⟨none, none, [⟨.literal "javascript", [.next none], false⟩], none, false, false⟩ ∧
    process_tree_step (.next none) [utf8Tree] = .error "not implemented" :=
  ⟨by decide, by decide, rfl⟩

/-- The `Child` arm of the per-node step computation always yields a result
(no arm of it is the panic value). -/
theorem treeStepNodeResults_child_ok (index : Int) (kinds : Option (List Nat)) (node : STree) :
    ∃ rs, treeStepNodeResults (.child index kinds) node = .ok rs := by
  simp only [treeStepNodeResults]
  cases node.child (childIndexVal index node.child_count) with
  | none => exact ⟨[], rfl⟩
  | some c =>
    cases kinds with
    | none => exact ⟨[c], rfl⟩
    | some ks =>
      by_cases hk : ks.contains c.kind_id
      · exact ⟨[c], by simp only [hk, if_true]⟩
      · exact ⟨[], by simp only [hk, Bool.false_eq_true, if_false]⟩

/-- `process_tree_step` on a `Child` step returns a result for every input
(never the panic value), by cases on the per-node computation. -/
theorem process_tree_step_child_total (index : Int) (kinds : Option (List Nat))
    (nodes : List STree) :
    ∃ out, process_tree_step (.child index kinds) nodes = .ok out := by
  induction nodes with
  | nil => exact ⟨[], rfl⟩
  | cons n rest ih =>
    obtain ⟨out, hout⟩ := ih
    obtain ⟨rs, hrs⟩ := treeStepNodeResults_child_ok index kinds n
    refine ⟨rs ++ out, ?_⟩
    unfold process_tree_step
    rw [hrs, hout]

/-- C10.  A `Child` step never panics: the per-node result is always
defined, and an out-of-range signed index — non-negative at least the child
count, or negative with magnitude above the child count, whose cast to
`usize` wraps into a huge value — selects no child, so the node contributes
nothing.  The bounds are the `isize` range and a child count below `2^63`,
under which the wrapped value is at least `2^63` and hence past any child. -/
theorem c10_child_step_no_panic (node : STree) (index : Int) (kinds : Option (List Nat))
    (nodes : List STree) :
    (∃ out, process_tree_step (.child index kinds) nodes = .ok out) ∧
    (node.child_count ≤ 2 ^ 63 → -(2 ^ 63) ≤ index → index < 2 ^ 63 →
      ((0 ≤ index ∧ node.child_count ≤ index.toNat) ∨
        (index < 0 ∧ node.child_count < index.natAbs)) →
      treeStepNodeResults (.child index kinds) node = .ok []) := by
  refine ⟨process_tree_step_child_total index kinds nodes, ?_⟩
  intro hcount hlo hhi hcases
  have hnone : node.child (childIndexVal index node.child_count) = none := by
    unfold childIndexVal STree.child
    rcases hcases with ⟨hpos, hge⟩ | ⟨hneg, hmag⟩
    · rw [if_pos hpos]
      apply List.getElem?_eq_none
      simpa [STree.child_count] using hge
    · rw [if_neg (by omega)]
      unfold intToUsize
      apply List.getElem?_eq_none
      have hcc : node.children.length = node.child_count := rfl
      rw [hcc]
      have hmag' : (node.child_count : Int) < (index.natAbs : Int) := by exact_mod_cast hmag
      have hcnt : (node.child_count : Int) ≤ 2 ^ 63 := by exact_mod_cast hcount
      have h1 : ((node.child_count : Int) + index) % 2 ^ 64 =
          (node.child_count : Int) + index + 2 ^ 64 := by omega
      rw [h1]
      omega
  simp only [treeStepNodeResults]
  rw [hnone]

/- ## C5 amended: the staging priority chain -/

/-- C5 amended.  When the visible head layer stands at a node start with the
source caught up (and the node declares no injections, no cancellation flag
is installed and no replacement is pending), the staged event is
`HighlightStart` of exactly `local_highlight.or(highlight_nonlocal).or(highlight)`:
`highlight_nonlocal`, when present, takes precedence over `highlight`
regardless of `local_reference`, and is overridden only by a computed local
highlight; in particular a local reference with no in-scope definition (for
which `local_highlight` is `none`) takes `highlight_nonlocal`. -/
theorem c5_highlight_priority_amended (env : Env) (lf : Nat) (s : HState)
    (first : Layer) (rest : List Layer) (hl : Highlight)
    (hlayers : s.layers = first :: rest)
    (hvis : first.depth ≥ s.max_opq_layer_depth)
    (hstart : first.at_node_end = false)
    (hinj : (first.sheet first.node.kind_id).injections = [])
    (hflag : s.cancellation_flag = none)
    (hpend : s.utf8_error_len = none)
    (hoff : ¬ s.source_offset < min s.source.length first.offset)
    (hsel : (first.local_highlight <|> (first.sheet first.node.kind_id).highlight_nonlocal <|>
             (first.sheet first.node.kind_id).highlight) = some hl) :
    ∃ s2, nextH env (lf + 1) s =
      .item (.ok (.highlightStart hl))
        (some ⟨min s.source.length first.offset, first.depth, false⟩) s2 := by
  have hip : injPhase env s first = .ok (none, s) := by
    unfold injPhase
    rw [hinj]
    simp [hvis, hstart, gatherInjections, addLayers]
  have hstage : stagePhase s true first.local_highlight (first.sheet first.node.kind_id)
      first = .inr (some (.highlightStart hl,
        ⟨min s.source.length first.offset, first.depth, false⟩)) := by
    unfold stagePhase
    rw [hsel]
    simp [hoff, hstart]
  have hiter : loopIter env s = .emit (.ok (.highlightStart hl))
      (some ⟨min s.source.length first.offset, first.depth, false⟩)
      (advancePhase s first rest) := by
    simp only [loopIter, hlayers, hip, decide_eq_true_eq, hvis, decide_True, hstage]
  refine ⟨advancePhase s first rest, ?_⟩
  unfold nextH
  simp only [hflag, hpend, nextAfterCancel, nextLoop, hiter]

/-- C5 amended, witnessed on the node carrying both `highlight` and
`highlight_nonlocal`: the staged start is the nonlocal `keyword`. -/
theorem c5_highlight_priority_amended_witness :
    ∃ s2, nextH Env.nil 1 bothHighlightsState =
      .item (.ok (.highlightStart .keyword)) (some ⟨0, 0, false⟩) s2 := by
  obtain ⟨s2, h⟩ := c5_highlight_priority_amended Env.nil 0 bothHighlightsState
    (bothHighlightsState.layers.headD (Layer.new zeroWidthTree (fun _ => Properties.empty) [] 0 true))
    [] .keyword rfl (by decide) rfl rfl rfl rfl (by decide) rfl
  exact ⟨s2, h⟩

/- ## C8: cancellation responsiveness -/

/-- The state carried by a `next()` result. -/
def NextRes.state : NextRes → HState
  | .item _ _ s => s
  | .finished s => s
  | .panicked _ s => s
  | .outOfFuel s => s

/-- The state carried by a loop result. -/
def LoopRes.state : LoopRes → HState
  | .emit _ _ s => s
  | .finished s => s
  | .fellThrough s => s
  | .panicked _ s => s
  | .outOfFuel s => s

/-- The state carried by a loop-iteration result. -/
def IterRes.state : IterRes → HState
  | .emit _ _ s => s
  | .finished s => s
  | .fellThrough s => s
  | .panicked _ s => s
  | .advanced s => s

/-- The state fields the cancellation logic reads. -/
def HState.cfg (s : HState) : Nat × Option Nat := (s.operation_count, s.cancellation_flag)

/-- The result state of the `k+1`-st call of `next()` starting from `s`. -/
def callSeq (env : Env) (lf : Nat) : Nat → HState → NextRes
  | 0, s => nextH env lf s
  | k + 1, s => callSeq env lf k (NextRes.state (nextH env lf s))

theorem emit_source_cfg (s : HState) (n : Nat) : (s.emit_source n).2.cfg = s.cfg := by
  simp only [HState.emit_source]
  cases decode_utf8 (sliceBytes s.source s.source_offset n) with
  | ok v => rfl
  | error e =>
    obtain ⟨vl, el⟩ := e
    cases el with
    | some l => by_cases h : vl > 0 <;> simp [h, HState.cfg]
    | none => rfl

theorem add_layer_cfg (env : Env) (s : HState) (nm : List Nat) (rs : List Range)
    (d : Nat) (ic : Bool) : (s.add_layer env nm rs d ic).2.cfg = s.cfg := by
  unfold HState.add_layer
  cases env.callback nm with
  | none => rfl
  | some p =>
    obtain ⟨lang, sheet⟩ := p
    by_cases hv : lang.valid
    · simp only [hv, Bool.not_true, if_false, ite_false]
      cases env.parse lang rs with
      | none => rfl
      | some tree =>
        by_cases hd : ic && decide (d > s.max_opq_layer_depth) <;> simp [hd, HState.cfg]
    · simp [hv]

theorem addLayers_cfg (env : Env) (d : Nat) (l : List (List Nat × List Range × Bool))
    (s : HState) : (addLayers env d l s).2.cfg = s.cfg := by
  induction l generalizing s with
  | nil => rfl
  | cons x rest ih =>
    obtain ⟨nm, rs, ic⟩ := x
    unfold addLayers
    cases hx : s.add_layer env nm rs d ic with
    | mk e s1 =>
      have h1 : s1.cfg = s.cfg := by
        have := add_layer_cfg env s nm rs d ic
        rw [hx] at this
        exact this
      cases e with
      | none => simp only []; rw [ih s1, h1]
      | some e => simp only []; exact h1

theorem remove_first_layer_cfg (s : HState) : s.remove_first_layer.cfg = s.cfg := by
  unfold HState.remove_first_layer
  cases s.layers with
  | nil => rfl
  | cons l rest =>
    by_cases h : l.opq && decide (l.depth = s.max_opq_layer_depth) <;> simp [h, HState.cfg]

theorem injPhase_cfg (env : Env) (s : HState) (first : Layer) {e : Option Error} {s1 : HState}
    (h : injPhase env s first = .ok (e, s1)) : s1.cfg = s.cfg := by
  unfold injPhase at h
  split at h
  · split at h
    · exact absurd h (by simp)
    · next injs hg =>
      simp only [Except.ok.injEq] at h
      have := addLayers_cfg env (first.depth + 1) injs s
      rw [h] at this
      exact this
  · simp only [Except.ok.injEq, Prod.mk.injEq] at h
    rw [← h.2]

theorem stagePhase_inl_cfg (s1 : HState) (visible : Bool) (lh : Option Highlight)
    (props : Properties) (first1 : Layer) {res : IterRes}
    (h : stagePhase s1 visible lh props first1 = .inl res) : res.state.cfg = s1.cfg := by
  simp only [stagePhase] at h
  split at h
  · split at h
    · split at h
      · split at h
        · next r s2 heq =>
          simp only [Sum.inl.injEq] at h
          rw [← h]
          show s2.cfg = s1.cfg
          have := emit_source_cfg s1 (min s1.source.length first1.offset)
          rw [heq] at this
          exact this
        · next s2 heq =>
          simp only [Sum.inl.injEq] at h
          rw [← h]
          show s2.cfg = s1.cfg
          have := emit_source_cfg s1 (min s1.source.length first1.offset)
          rw [heq] at this
          exact this
      · exact absurd h (by simp)
    · exact absurd h (by simp)
  · exact absurd h (by simp)

theorem advancePhase_cfg (s1 : HState) (first1 : Layer) (rest1 : List Layer) :
    (advancePhase s1 first1 rest1).cfg = s1.cfg := by
  unfold advancePhase
  cases first1.advance s1.source with
  | some f1 => rfl
  | none => exact remove_first_layer_cfg s1

theorem loopIter_cfg (env : Env) (s : HState) : (loopIter env s).state.cfg = s.cfg := by
  unfold loopIter
  split
  · rfl
  · next first rest hly =>
    split
    · rfl
    · next e s1 heq => exact injPhase_cfg env s first heq
    · next s1 heq =>
      have h1 : s1.cfg = s.cfg := injPhase_cfg env s first heq
      split
      · exact h1
      · next first1 rest1 hly1 =>
        split
        · next res hst =>
          rw [stagePhase_inl_cfg s1 _ _ _ first1 hst, h1]
        · next scope_event hst =>
          split
          · next ev m =>
            show (advancePhase s1 first1 rest1).cfg = s.cfg
            rw [advancePhase_cfg, h1]
          · show (advancePhase s1 first1 rest1).cfg = s.cfg
            rw [advancePhase_cfg, h1]

theorem nextLoop_cfg (env : Env) (fuel : Nat) (s : HState) :
    (nextLoop env fuel s).state.cfg = s.cfg := by
  induction fuel generalizing s with
  | zero => rfl
  | succ n ih =>
    unfold nextLoop
    cases hi : loopIter env s with
    | emit r m s2 =>
      have h := loopIter_cfg env s; rw [hi] at h; exact h
    | finished s2 =>
      have h := loopIter_cfg env s; rw [hi] at h; exact h
    | fellThrough s2 =>
      have h := loopIter_cfg env s; rw [hi] at h; exact h
    | panicked m s2 =>
      have h := loopIter_cfg env s; rw [hi] at h; exact h
    | advanced s2 =>
      have h := loopIter_cfg env s; rw [hi] at h
      show (nextLoop env n s2).state.cfg = s.cfg
      rw [ih s2]; exact h

theorem nextAfterCancel_cfg (env : Env) (lf : Nat) (s1 : HState) :
    (nextAfterCancel env lf s1).state.cfg = s1.cfg := by
  unfold nextAfterCancel
  cases hu : s1.utf8_error_len with
  | some l => simp [NextRes.state, HState.cfg]
  | none =>
    cases hl : nextLoop env lf s1 with
    | emit r m s2 =>
      have h := nextLoop_cfg env lf s1; rw [hl] at h; exact h
    | finished s2 =>
      have h := nextLoop_cfg env lf s1; rw [hl] at h; exact h
    | outOfFuel s2 =>
      have h := nextLoop_cfg env lf s1; rw [hl] at h; exact h
    | panicked m s2 =>
      have h := nextLoop_cfg env lf s1; rw [hl] at h; exact h
    | fellThrough s2 =>
      have h := nextLoop_cfg env lf s1; rw [hl] at h
      by_cases hoff : s2.source_offset < s2.source.length
      · simp only [if_pos hoff]
        cases he : s2.emit_source s2.source.length with
        | mk r s3 =>
          have h3 := emit_source_cfg s2 s2.source.length
          rw [he] at h3
          cases r with
          | some r => exact h3.trans h
          | none => exact h3.trans h
      · simp only [if_neg hoff]
        exact h

/-- One non-checking call of `next()` leaves the flag alone and increments
the operation counter by exactly one, whatever else it does. -/
theorem nextH_cfg_step (env : Env) (lf : Nat) (s : HState) (v : Nat)
    (hf : s.cancellation_flag = some v)
    (hop : s.operation_count + 1 < CANCELLATION_CHECK_INTERVAL) :
    (nextH env lf s).state.cfg = (s.operation_count + 1, some v) := by
  unfold nextH
  simp only [hf]
  rw [if_neg (by omega)]
  rw [nextAfterCancel_cfg]
  simp [HState.cfg]

/-- C8.  A highlighter built with a cancellation flag holding a nonzero
value returns `Err(Cancelled)` within at most `CANCELLATION_CHECK_INTERVAL`
(= 100) further calls of `next()`: the counter is bumped once per call and
the flag is read when it reaches the interval, before any event is produced
in that call. -/
theorem c8_cancellation_responsive (env : Env) (lf : Nat) (s : HState) (v : Nat)
    (hf : s.cancellation_flag = some v) (hv : v ≠ 0)
    (hop : s.operation_count < CANCELLATION_CHECK_INTERVAL) :
    ∃ k s', k < CANCELLATION_CHECK_INTERVAL ∧
      callSeq env lf k s = .item (.error .Cancelled) none s' := by
  simp only [CANCELLATION_CHECK_INTERVAL] at hop ⊢
  suffices h : ∃ k s', k ≤ 100 - 1 - s.operation_count ∧
      callSeq env lf k s = .item (.error .Cancelled) none s' by
    obtain ⟨k, s', hk, hc⟩ := h
    exact ⟨k, s', by omega, hc⟩
  clear hop
  generalize hg : 100 - 1 - s.operation_count = g
  induction g generalizing s with
  | zero =>
    refine ⟨0, { s with operation_count := 0 }, by omega, ?_⟩
    unfold callSeq nextH
    simp only [hf]
    rw [if_pos (by unfold CANCELLATION_CHECK_INTERVAL; omega), if_pos hv]
  | succ g ih =>
    have hstep := nextH_cfg_step env lf s v hf
      (by unfold CANCELLATION_CHECK_INTERVAL; omega)
    have hsf : (NextRes.state (nextH env lf s)).cancellation_flag = some v := by
      have := congrArg Prod.snd hstep; simpa [HState.cfg] using this
    have hso : (NextRes.state (nextH env lf s)).operation_count = s.operation_count + 1 := by
      have := congrArg Prod.fst hstep; simpa [HState.cfg] using this
    obtain ⟨k, s', hk, hcall⟩ := ih (NextRes.state (nextH env lf s)) hsf (by rw [hso]; omega)
    exact ⟨k + 1, s', by omega, hcall⟩

/-- A highlighter state whose cancellation flag reads 1. -/
def cancelState : HState := HState.init [] zeroWidthTree (fun _ => Properties.empty) (some 1)

/-- C8 witnessed on a flagged highlighter with a fresh operation counter. -/
theorem c8_cancellation_responsive_witness :
    ∃ k s', k < CANCELLATION_CHECK_INTERVAL ∧
      callSeq Env.nil 5 k cancelState = .item (.error .Cancelled) none s' :=
  c8_cancellation_responsive Env.nil 5 cancelState 1 rfl (by decide) (by decide)

/-- C10 witnessed at index `-3` against the two-child `defRefTree` (the
wrapped index is `2^64 - 1`, far beyond the child count). -/
theorem c10_child_step_no_panic_witness :
    (∃ out, process_tree_step (.child (-3) none) [defRefTree] = .ok out) ∧
    treeStepNodeResults (.child (-3) none) defRefTree = .ok [] :=
  ⟨(c10_child_step_no_panic defRefTree (-3) none [defRefTree]).1,
   (c10_child_step_no_panic defRefTree (-3) none [defRefTree]).2 (by decide) (by decide)
     (by decide) (Or.inr ⟨by decide, by decide⟩)⟩

/- ## C2 amended: balanced nesting for injection-free sheets -/

/-- Well-matchedness of a highlight-event stream, starting from `c` open
highlights: the running count never drops below zero and ends at zero. -/
def balancedFromB : Nat → List HighlightEvent → Bool
  | c, [] => c == 0
  | c, .highlightStart _ :: rest => balancedFromB (c + 1) rest
  | c, .highlightEnd :: rest => c != 0 && balancedFromB (c - 1) rest
  | c, .source _ :: rest => balancedFromB c rest

/-- Does the sheet give this node a phase-independent highlight
(`highlight_nonlocal.or(highlight)`), the predicate that decides the
`HighlightEnd` emission at its end phase? -/
def staticHl (sheet : Nat → Properties) (n : STree) : Bool :=
  ((sheet n.kind_id).highlight_nonlocal <|> (sheet n.kind_id).highlight).isSome

/-- The nodes along a path, root first, current node last. -/
def chainTo : STree → List Nat → List STree
  | t, [] => [t]
  | t, i :: p =>
    match t.children[i]? with
    | some c => t :: chainTo c p
    | none => [t]

/-- The number of highlights currently open in a layer: ancestors of the
current node with a static highlight, plus the current node itself when the
layer stands at its end phase (its start has been emitted, its end not). -/
def openCount (l : Layer) : Nat :=
  ((chainTo l.tree l.path).dropLast.filter (staticHl l.sheet)).length +
    (if l.at_node_end && staticHl l.sheet l.node then 1 else 0)

theorem validateUtf8_ascii (l : List Nat) (h : ∀ b ∈ l, b < 0x80) :
    ∀ i, validateUtf8 l i = none := by
  induction l with
  | nil => intro i; rfl
  | cons b rest ih =>
    intro i
    rw [validateUtf8.eq_def]
    dsimp only
    rw [if_pos (h b (by simp))]
    exact ih (fun x hx => h x (by simp [hx])) (i + 1)

theorem decode_utf8_ascii (l : List Nat) (h : ∀ b ∈ l, b < 0x80) :
    decode_utf8 l = .ok l := by
  unfold decode_utf8
  rw [validateUtf8_ascii l h 0]

theorem sliceBytes_ascii (src : List Nat) (a b : Nat) (h : ∀ x ∈ src, x < 0x80) :
    ∀ x ∈ sliceBytes src a b, x < 0x80 := by
  intro x hx
  exact h x (List.take_subset _ _ (List.drop_subset _ _ hx))

theorem emit_source_ascii (s : HState) (n : Nat) (h : ∀ b ∈ s.source, b < 0x80) :
    s.emit_source n = (some (.ok (.source (sliceBytes s.source s.source_offset n))),
      { s with source_offset := n }) := by
  simp only [HState.emit_source]
  rw [decode_utf8_ascii _ (sliceBytes_ascii s.source s.source_offset n h)]

theorem nodeAt_append (t : STree) (p : List Nat) (i : Nat) :
    nodeAt t (p ++ [i]) = (nodeAt t p).bind (fun n => n.children[i]?) := by
  induction p generalizing t with
  | nil =>
    show nodeAt t [i] = _
    unfold nodeAt
    cases h : t.children[i]? <;> simp [h, nodeAt]
  | cons j q ih =>
    show nodeAt t (j :: (q ++ [i])) = _
    unfold nodeAt
    cases t.children[j]? with
    | none => rfl
    | some c => exact ih c

theorem chainTo_append (t : STree) (p : List Nat) (n : STree) (i : Nat) (c : STree)
    (hp : nodeAt t p = some n) (hc : n.children[i]? = some c) :
    chainTo t (p ++ [i]) = chainTo t p ++ [c] := by
  induction p generalizing t with
  | nil =>
    have ht : t = n := by
      have : some t = some n := hp
      exact Option.some.inj this
    subst ht
    show chainTo t [i] = _
    unfold chainTo
    rw [hc]
    rfl
  | cons j q ih =>
    unfold nodeAt at hp
    cases hj : t.children[j]? with
    | none => rw [hj] at hp; exact absurd hp (by simp)
    | some tc =>
      simp only [hj] at hp
      show chainTo t (j :: (q ++ [i])) = _
      simp only [chainTo, hj]
      rw [ih tc hp]
      simp

theorem chainTo_getLast (t : STree) (p : List Nat) (n : STree)
    (hp : nodeAt t p = some n) : (chainTo t p).getLast? = some n := by
  induction p generalizing t with
  | nil =>
    have ht : t = n := Option.some.inj hp
    subst ht
    rfl
  | cons j q ih =>
    unfold nodeAt at hp
    cases hj : t.children[j]? with
    | none => rw [hj] at hp; exact absurd hp (by simp)
    | some tc =>
      simp only [hj] at hp
      simp only [chainTo, hj]
      have h2 := ih tc hp
      cases hcq : chainTo tc q with
      | nil => rw [hcq] at h2; simp at h2
      | cons a l =>
        rw [hcq] at h2
        rw [List.getLast?_cons_cons]
        exact h2

theorem chainTo_dropLast (t : STree) (p : List Nat) (n : STree)
    (hp : nodeAt t p = some n) :
    (chainTo t p).dropLast ++ [n] = chainTo t p :=
  List.dropLast_append_getLast? n (chainTo_getLast t p n hp)

theorem filter_concat_length (f : STree → Bool) (X : List STree) (y : STree) :
    ((X ++ [y]).filter f).length = (X.filter f).length + (if f y then 1 else 0) := by
  rw [List.filter_append]
  cases hf : f y <;> simp [hf]

/-- `enter_node` only changes `local_highlight` and the scope stack. -/
theorem enter_node_fields (l : Layer) (src : List Nat) :
    (l.enter_node src).tree = l.tree ∧ (l.enter_node src).path = l.path ∧
    (l.enter_node src).sheet = l.sheet ∧ (l.enter_node src).at_node_end = l.at_node_end ∧
    (l.enter_node src).depth = l.depth ∧ (l.enter_node src).ranges = l.ranges ∧
    (l.enter_node src).opq = l.opq := by
  unfold Layer.enter_node
  dsimp only
  repeat' split
  all_goals exact ⟨rfl, rfl, rfl, rfl, rfl, rfl, rfl⟩

/-- `leave_node` only changes the scope stack. -/
theorem leave_node_fields (l : Layer) :
    l.leave_node.tree = l.tree ∧ l.leave_node.path = l.path ∧
    l.leave_node.sheet = l.sheet ∧ l.leave_node.at_node_end = l.at_node_end ∧
    l.leave_node.depth = l.depth ∧ l.leave_node.ranges = l.ranges ∧
    l.leave_node.opq = l.opq ∧ l.leave_node.local_highlight = l.local_highlight := by
  unfold Layer.leave_node
  dsimp only
  split
  all_goals exact ⟨rfl, rfl, rfl, rfl, rfl, rfl, rfl, rfl⟩

/-- What `enter_node` can do to `local_highlight`: leave it, set it to the
node's own `highlight`, or set it on a local-reference node. -/
theorem enter_node_lh_cases (l : Layer) (src : List Nat) :
    (l.enter_node src).local_highlight = l.local_highlight ∨
    ((l.enter_node src).local_highlight = (l.sheet l.node.kind_id).highlight ∧
      ((l.sheet l.node.kind_id).highlight).isSome = true) ∨
    (l.sheet l.node.kind_id).local_reference = true := by
  unfold Layer.enter_node
  dsimp only
  repeat' split
  all_goals simp_all

/-- Under the reference condition on the sheet, a `local_highlight` computed
by `enter_node` from a cleared one implies the node has a static highlight. -/
theorem enter_node_lh_static (l : Layer) (src : List Nat)
    (h0 : l.local_highlight = none)
    (href : ∀ k, (l.sheet k).local_reference = true →
      ((l.sheet k).highlight_nonlocal <|> (l.sheet k).highlight).isSome = true)
    (h : ((l.enter_node src).local_highlight).isSome = true) :
    staticHl l.sheet l.node = true := by
  rcases enter_node_lh_cases l src with hc | ⟨hc, hs⟩ | hc
  · rw [hc, h0] at h
    simp at h
  · unfold staticHl
    cases hnl : (l.sheet l.node.kind_id).highlight_nonlocal with
    | some x => simp [Option.orElse]
    | none => simpa [Option.orElse, hnl] using hs
  · unfold staticHl
    have := href l.node.kind_id hc
    exact this

theorem layer_node_eq (l : Layer) (n : STree) (hp : nodeAt l.tree l.path = some n) :
    l.node = n := by
  unfold Layer.node
  rw [hp]
  rfl

theorem goto_first_child_some (t : STree) (p p2 : List Nat) (n : STree)
    (hp : nodeAt t p = some n) (h : goto_first_child t p = some p2) :
    p2 = p ++ [0] ∧ n.children.isEmpty = false := by
  unfold goto_first_child at h
  simp only [hp] at h
  cases hne : n.children.isEmpty with
  | true =>
    rw [if_pos hne] at h
    exact absurd h (by simp)
  | false =>
    rw [if_neg (by simp [hne])] at h
    exact ⟨(Option.some.inj h).symm, rfl⟩

theorem goto_next_sibling_some (t : STree) (p p2 : List Nat)
    (h : goto_next_sibling t p = some p2) :
    ∃ j m, p.getLast? = some j ∧ nodeAt t p.dropLast = some m ∧
      j + 1 < m.children.length ∧ p2 = p.dropLast ++ [j + 1] := by
  unfold goto_next_sibling at h
  cases hgl : p.getLast? with
  | none =>
    simp only [hgl] at h
    exact absurd h (by simp)
  | some j =>
    simp only [hgl] at h
    cases hq : nodeAt t p.dropLast with
    | none =>
      simp only [hq] at h
      exact absurd h (by simp)
    | some m =>
      simp only [hq] at h
      by_cases hlt : j + 1 < m.children.length
      · rw [if_pos hlt] at h
        exact ⟨j, m, rfl, rfl, hlt, (Option.some.inj h).symm⟩
      · rw [if_neg hlt] at h
        exact absurd h (by simp)

theorem goto_parent_some (p q : List Nat) (h : goto_parent p = some q) :
    p ≠ [] ∧ q = p.dropLast := by
  cases p with
  | nil => exact absurd h (by simp [goto_parent])
  | cons a as_ =>
    simp only [goto_parent] at h
    exact ⟨by simp, (Option.some.inj h).symm⟩

theorem goto_parent_none (p : List Nat) (h : goto_parent p = none) : p = [] := by
  cases p with
  | nil => rfl
  | cons a as_ =>
    simp only [goto_parent] at h
    exact absurd h (by simp)

theorem getLast?_cons_isSome (a : Nat) (l : List Nat) :
    ((a :: l).getLast?).isSome = true := by
  induction l generalizing a with
  | nil => rfl
  | cons b bs ih =>
    rw [List.getLast?_cons_cons]
    exact ih b

/-- `advance` at a start phase (`!self.at_node_end`): descend to the first
child or flip to the node's end phase. -/
theorem advance_eq_start (l : Layer) (src : List Nat) (hae : l.at_node_end = false) :
    l.advance src =
      match goto_first_child l.tree l.path with
      | some p => some (Layer.enter_node { l with local_highlight := none, path := p } src)
      | none => some { l with local_highlight := none, at_node_end := true } := by
  unfold Layer.advance
  dsimp only
  rw [if_neg (show ¬ (l.at_node_end = true) by simp [hae])]

/-- `advance` at an end phase (`self.at_node_end`): leave the node, then step
to the next sibling or up to the parent. -/
theorem advance_eq_end (l : Layer) (src : List Nat) (hae : l.at_node_end = true) :
    l.advance src =
      (match goto_next_sibling l.tree l.path with
      | some p => some (Layer.enter_node
          { ({ l with local_highlight := none } : Layer).leave_node with
            path := p, at_node_end := false } src)
      | none =>
        match goto_parent l.path with
        | some p =>
          some { ({ l with local_highlight := none } : Layer).leave_node with path := p }
        | none => none) := by
  have hlt : (({ l with local_highlight := none } : Layer).leave_node).tree = l.tree :=
    (leave_node_fields _).1
  have hlp : (({ l with local_highlight := none } : Layer).leave_node).path = l.path :=
    (leave_node_fields _).2.1
  unfold Layer.advance
  dsimp only
  rw [if_pos hae]
  rw [hlt, hlp]

/-- How one `advance` changes the number of open highlights: entering a node
with a static highlight opens one (a `HighlightStart` is staged at its start
phase), leaving one closes one, and exhaustion closes the root.  The other
conjuncts re-establish the state invariant: the cursor path stays valid, the
tree and sheet are untouched, `local_highlight` is cleared at end phases and
only ever set for nodes with a static highlight. -/
theorem advance_spec (l : Layer) (src : List Nat) (n : STree)
    (hpath : nodeAt l.tree l.path = some n)
    (hend : l.at_node_end = true → l.local_highlight = none)
    (href : ∀ k, (l.sheet k).local_reference = true →
      ((l.sheet k).highlight_nonlocal <|> (l.sheet k).highlight).isSome = true) :
    (l.advance src = none → l.at_node_end = true ∧
      openCount l = (if staticHl l.sheet n then 1 else 0)) ∧
    (∀ l2, l.advance src = some l2 →
      l2.tree = l.tree ∧ l2.sheet = l.sheet ∧ (nodeAt l2.tree l2.path).isSome = true ∧
      (l2.at_node_end = true → l2.local_highlight = none) ∧
      (l2.local_highlight.isSome = true → staticHl l2.sheet l2.node = true) ∧
      l2.depth = l.depth ∧
      (if l.at_node_end then
        openCount l2 + (if staticHl l.sheet n then 1 else 0) = openCount l
      else
        openCount l2 = openCount l + (if staticHl l.sheet n then 1 else 0))) := by
  have hnode : l.node = n := layer_node_eq l n hpath
  have hchain : (chainTo l.tree l.path).dropLast ++ [n] = chainTo l.tree l.path :=
    chainTo_dropLast l.tree l.path n hpath
  have hcount : ((chainTo l.tree l.path).filter (staticHl l.sheet)).length =
      (((chainTo l.tree l.path).dropLast).filter (staticHl l.sheet)).length +
        (if staticHl l.sheet n then 1 else 0) := by
    conv_lhs => rw [← hchain]
    exact filter_concat_length _ _ _
  cases hae : l.at_node_end with
  | false =>
    -- start phase: descend to the first child or flip to the end phase
    have hadv := advance_eq_start l src hae
    cases hgc : goto_first_child l.tree l.path with
    | some p2 =>
      -- the head enters its first child
      simp only [hgc] at hadv
      obtain ⟨hp2, hne⟩ := goto_first_child_some l.tree l.path p2 n hpath hgc
      obtain ⟨c0, cs, hc0⟩ : ∃ c0 cs, n.children = c0 :: cs := by
        cases hcc : n.children with
        | nil => rw [hcc] at hne; simp at hne
        | cons a as_ => exact ⟨a, as_, rfl⟩
      have hc0e : n.children[0]? = some c0 := by rw [hc0]; exact List.getElem?_cons_zero
      have hvalid : nodeAt l.tree p2 = some c0 := by
        rw [hp2, nodeAt_append, hpath]
        exact hc0e
      have hchain2 : chainTo l.tree p2 = chainTo l.tree l.path ++ [c0] := by
        rw [hp2]
        exact chainTo_append l.tree l.path n 0 c0 hpath hc0e
      constructor
      · intro hcontra
        rw [hadv] at hcontra
        exact absurd hcontra (by simp)
      · intro l2 hl2
        rw [hadv] at hl2
        have hl2e : l2 = Layer.enter_node
            { l with local_highlight := none, path := p2 } src :=
          (Option.some.inj hl2).symm
        obtain ⟨het, hep, hes, hee, -, -, -⟩ :=
          enter_node_fields ({ l with local_highlight := none, path := p2 }) src
        refine ⟨?_, ?_, ?_, ?_, ?_, ?_, ?_⟩
        · rw [hl2e, het]
        · rw [hl2e, hes]
        · rw [hl2e, het, hep]
          dsimp only
          rw [hvalid]
          rfl
        · intro hx
          rw [hl2e, hee] at hx
          dsimp only at hx
          rw [hae] at hx
          exact absurd hx (by simp)
        · intro hx
          rw [hl2e] at hx ⊢
          have hnn : (Layer.enter_node { l with local_highlight := none, path := p2 } src).node
              = ({ l with local_highlight := none, path := p2 } : Layer).node := by
            unfold Layer.node
            rw [het, hep]
          rw [hes, hnn]
          exact enter_node_lh_static _ src rfl href hx
        · rw [hl2e, (enter_node_fields _ _).2.2.2.2.1]
        · rw [if_neg (show ¬ (false = true) by simp)]
          unfold openCount
          rw [hl2e, het, hep, hes, hee]
          dsimp only
          rw [hae, hnode]
          simp only [Bool.false_and, Bool.false_eq_true, if_false, ite_false, add_zero]
          rw [hchain2, List.dropLast_concat, hcount]
    | none =>
      -- no children: flip to the end phase
      simp only [hgc] at hadv
      constructor
      · intro hcontra
        rw [hadv] at hcontra
        exact absurd hcontra (by simp)
      · intro l2 hl2
        rw [hadv] at hl2
        have hl2e : l2 = { l with local_highlight := none, at_node_end := true } :=
          (Option.some.inj hl2).symm
        have hn2 : ({ l with local_highlight := none, at_node_end := true } : Layer).node
            = n := by
          unfold Layer.node at hnode ⊢
          exact hnode
        refine ⟨?_, ?_, ?_, ?_, ?_, ?_, ?_⟩
        · rw [hl2e]
        · rw [hl2e]
        · rw [hl2e]
          show (nodeAt l.tree l.path).isSome = true
          simp [hpath]
        · intro _
          rw [hl2e]
        · intro hx
          rw [hl2e] at hx
          simp at hx
        · rw [hl2e]
        · rw [if_neg (show ¬ (false = true) by simp)]
          unfold openCount
          rw [hl2e, hn2, hnode]
          dsimp only
          rw [hae]
          simp only [Bool.false_and, Bool.false_eq_true, if_false, ite_false, add_zero,
            Bool.true_and]
  | true =>
    -- end phase: leave the node, then try sibling, then parent
    have hadv := advance_eq_end l src hae
    have hlh : l.local_highlight = none := hend hae
    have hlt : (({ l with local_highlight := none } : Layer).leave_node).tree = l.tree :=
      (leave_node_fields _).1
    have hlp : (({ l with local_highlight := none } : Layer).leave_node).path = l.path :=
      (leave_node_fields _).2.1
    have hls : (({ l with local_highlight := none } : Layer).leave_node).sheet = l.sheet :=
      (leave_node_fields _).2.2.1
    have hla : (({ l with local_highlight := none } : Layer).leave_node).at_node_end = true := by
      have := (leave_node_fields ({ l with local_highlight := none } : Layer)).2.2.2.1
      rw [this]
      exact hae
    have hll : (({ l with local_highlight := none } : Layer).leave_node).local_highlight
        = none := (leave_node_fields _).2.2.2.2.2.2.2
    cases hgs : goto_next_sibling l.tree l.path with
    | some p2 =>
      -- move to the next sibling
      simp only [hgs] at hadv
      obtain ⟨j, m, hgl, hq, hjlt, hp2⟩ := goto_next_sibling_some l.tree l.path p2 hgs
      have hpd : l.path.dropLast ++ [j] = l.path :=
        List.dropLast_append_getLast? j hgl
      have hmn : m.children[j]? = some n := by
        have := nodeAt_append l.tree l.path.dropLast j
        rw [hpd, hq] at this
        rw [hpath] at this
        exact this.symm
      have hsib : m.children[j + 1]? = some (m.children.get ⟨j + 1, hjlt⟩) := by
        rw [List.getElem?_eq_getElem hjlt]
        rfl
      have hvalid2 : nodeAt l.tree p2 = some (m.children.get ⟨j + 1, hjlt⟩) := by
        rw [hp2, nodeAt_append, hq]
        exact hsib
      have hchq : chainTo l.tree l.path = chainTo l.tree l.path.dropLast ++ [n] := by
        conv_lhs => rw [← hpd]
        exact chainTo_append l.tree l.path.dropLast m j n hq hmn
      have hchs : chainTo l.tree p2 =
          chainTo l.tree l.path.dropLast ++ [m.children.get ⟨j + 1, hjlt⟩] := by
        rw [hp2]
        exact chainTo_append l.tree l.path.dropLast m (j + 1) _ hq hsib
      constructor
      · intro hcontra
        rw [hadv] at hcontra
        exact absurd hcontra (by simp)
      · intro l2 hl2
        rw [hadv] at hl2
        have hl2e : l2 = Layer.enter_node
            { ({ l with local_highlight := none } : Layer).leave_node with
              path := p2, at_node_end := false } src :=
          (Option.some.inj hl2).symm
        obtain ⟨het, hep, hes, hee, -, -, -⟩ := enter_node_fields
          ({ ({ l with local_highlight := none } : Layer).leave_node with
             path := p2, at_node_end := false }) src
        refine ⟨?_, ?_, ?_, ?_, ?_, ?_, ?_⟩
        · rw [hl2e, het]
          dsimp only
          exact hlt
        · rw [hl2e, hes]
          dsimp only
          exact hls
        · rw [hl2e, het, hep]
          dsimp only
          rw [hlt, hvalid2]
          rfl
        · intro hx
          rw [hl2e, hee] at hx
          dsimp only at hx
          exact absurd hx (by simp)
        · intro hx
          rw [hl2e] at hx ⊢
          have hnn : (Layer.enter_node
              { ({ l with local_highlight := none } : Layer).leave_node with
                path := p2, at_node_end := false } src).node
              = ({ ({ l with local_highlight := none } : Layer).leave_node with
                  path := p2, at_node_end := false } : Layer).node := by
            unfold Layer.node
            rw [het, hep]
          rw [hes, hnn]
          refine enter_node_lh_static _ src hll ?_ hx
          intro k
          have hsk : ({ ({ l with local_highlight := none } : Layer).leave_node with
              path := p2, at_node_end := false } : Layer).sheet k = l.sheet k :=
            congrFun hls k
          rw [hsk]
          exact href k
        · rw [hl2e, (enter_node_fields _ _).2.2.2.2.1]
          dsimp only
          exact (leave_node_fields _).2.2.2.2.1
        · rw [if_pos rfl]
          unfold openCount
          rw [hl2e, het, hep, hes, hee]
          dsimp only
          rw [hlt, hls, hae, hnode]
          simp only [Bool.false_and, Bool.false_eq_true, if_false, ite_false, add_zero,
            Bool.true_and]
          rw [hchs, List.dropLast_concat, hchq, List.dropLast_concat]
    | none =>
      simp only [hgs] at hadv
      cases hgp : goto_parent l.path with
      | some q =>
        -- step up to the parent, staying at the end phase
        simp only [hgp] at hadv
        obtain ⟨hpne, hqe⟩ := goto_parent_some l.path q hgp
        obtain ⟨j, hgl⟩ : ∃ j, l.path.getLast? = some j := by
          cases hpe : l.path with
          | nil => exact absurd hpe hpne
          | cons a as_ =>
            have := getLast?_cons_isSome a as_
            cases h2 : (a :: as_).getLast? with
            | none => rw [h2] at this; exact absurd this (by simp)
            | some x => exact ⟨x, rfl⟩
        have hpd : l.path.dropLast ++ [j] = l.path :=
          List.dropLast_append_getLast? j hgl
        obtain ⟨m, hq⟩ : ∃ m, nodeAt l.tree l.path.dropLast = some m := by
          have := nodeAt_append l.tree l.path.dropLast j
          rw [hpd, hpath] at this
          cases hx : nodeAt l.tree l.path.dropLast with
          | none => rw [hx] at this; simp at this
          | some m => exact ⟨m, rfl⟩
        have hmn : m.children[j]? = some n := by
          have := nodeAt_append l.tree l.path.dropLast j
          rw [hpd, hq, hpath] at this
          exact this.symm
        have hchq : chainTo l.tree l.path = chainTo l.tree l.path.dropLast ++ [n] := by
          conv_lhs => rw [← hpd]
          exact chainTo_append l.tree l.path.dropLast m j n hq hmn
        have hchm : (chainTo l.tree l.path.dropLast).dropLast ++ [m] =
            chainTo l.tree l.path.dropLast :=
          chainTo_dropLast l.tree l.path.dropLast m hq
        have hn2 : ({ ({ l with local_highlight := none } : Layer).leave_node with
            path := q } : Layer).node = m := by
          unfold Layer.node
          dsimp only
          rw [hlt, hqe, hq]
          rfl
        constructor
        · intro hcontra
          rw [hadv] at hcontra
          exact absurd hcontra (by simp)
        · intro l2 hl2
          rw [hadv] at hl2
          have hl2e : l2 = { ({ l with local_highlight := none } : Layer).leave_node with
              path := q } := (Option.some.inj hl2).symm
          refine ⟨?_, ?_, ?_, ?_, ?_, ?_, ?_⟩
          · rw [hl2e]
            exact hlt
          · rw [hl2e]
            exact hls
          · rw [hl2e]
            show (nodeAt (({ l with local_highlight := none } : Layer).leave_node).tree q).isSome
              = true
            rw [hlt, hqe, hq]
            rfl
          · intro _
            rw [hl2e]
            exact hll
          · intro hx
            rw [hl2e] at hx
            have h0 : ({ ({ l with local_highlight := none } : Layer).leave_node with
                path := q } : Layer).local_highlight = none := hll
            rw [h0] at hx
            simp at hx
          · rw [hl2e]
            exact (leave_node_fields _).2.2.2.2.1
          · rw [if_pos rfl]
            unfold openCount
            rw [hl2e, hn2, hnode]
            dsimp only
            rw [hlt, hls, hla, hqe, hae]
            simp only [Bool.true_and]
            have e1 : ((chainTo l.tree l.path.dropLast).filter (staticHl l.sheet)).length =
                (((chainTo l.tree l.path.dropLast).dropLast).filter (staticHl l.sheet)).length
                  + (if staticHl l.sheet m then 1 else 0) := by
              conv_lhs => rw [← hchm]
              exact filter_concat_length _ _ _
            have e2 : (((chainTo l.tree l.path).dropLast).filter (staticHl l.sheet)).length =
                ((chainTo l.tree l.path.dropLast).filter (staticHl l.sheet)).length := by
              rw [hchq, List.dropLast_concat]
            rw [e2, e1]
      | none =>
        -- the root's end phase: the layer is exhausted
        have hpnil : l.path = [] := goto_parent_none l.path hgp
        simp only [hgp] at hadv
        constructor
        · intro _
          refine ⟨by simp, ?_⟩
          have hroot : n = l.tree := by
            rw [hpnil] at hpath
            exact (Option.some.inj hpath).symm
          unfold openCount
          rw [hnode, hae, hpnil]
          unfold chainTo
          simp [hroot]
        · intro l2 hl2
          rw [hadv] at hl2
          exact absurd hl2 (by simp)

/- ## C2 amended: the run-level balance invariant -/

/-- Per-layer invariant: the cursor path is valid; `local_highlight` is
cleared at end phases and only set on nodes with a static highlight; the
layer's sheet has no injections; and every local-reference kind also has a
static highlight. -/
def LayerInv (l : Layer) : Prop :=
  (nodeAt l.tree l.path).isSome = true ∧
  (l.at_node_end = true → l.local_highlight = none) ∧
  (l.local_highlight.isSome = true → staticHl l.sheet l.node = true) ∧
  (∀ k, (l.sheet k).injections = []) ∧
  (∀ k, (l.sheet k).local_reference = true →
    ((l.sheet k).highlight_nonlocal <|> (l.sheet k).highlight).isSome = true)

/-- State invariant carried across `next()` calls: ASCII source, no pending
U+FFFD replacement, and either no layers with no open highlights, or a
single visible layer whose open count is `c`. -/
def SInv (s : HState) (c : Nat) : Prop :=
  (∀ b ∈ s.source, b < 0x80) ∧ s.utf8_error_len = none ∧
  ((s.layers = [] ∧ c = 0) ∨
   (∃ l, s.layers = [l] ∧ LayerInv l ∧ s.max_opq_layer_depth ≤ l.depth ∧ c = openCount l))

/-- How one emitted event changes the number of open highlights. -/
def balStep (c : Nat) (ev : HighlightEvent) (c2 : Nat) : Prop :=
  match ev with
  | .source _ => c2 = c
  | .highlightStart _ => c2 = c + 1
  | .highlightEnd => c ≠ 0 ∧ c2 = c - 1

theorem balancedFromB_cons (c c2 : Nat) (ev : HighlightEvent) (evs : List HighlightEvent)
    (hs : balStep c ev c2) (hrest : balancedFromB c2 evs = true) :
    balancedFromB c (ev :: evs) = true := by
  cases ev with
  | source t =>
    show balancedFromB c evs = true
    exact hs ▸ hrest
  | highlightStart h =>
    show balancedFromB (c + 1) evs = true
    exact hs ▸ hrest
  | highlightEnd =>
    obtain ⟨hne, hc2⟩ := hs
    show (c != 0 && balancedFromB (c - 1) evs) = true
    rw [← hc2, hrest]
    simp [hne]

theorem injPhase_noinj (env : Env) (s : HState) (first : Layer)
    (h : ∀ k, (first.sheet k).injections = []) :
    injPhase env s first = .ok (none, s) := by
  unfold injPhase
  split
  · rw [h]
    rfl
  · rfl

theorem remove_first_layer_sing (s : HState) (l : Layer) (h : s.layers = [l]) :
    s.remove_first_layer.layers = [] ∧ s.remove_first_layer.source = s.source ∧
    s.remove_first_layer.utf8_error_len = s.utf8_error_len := by
  unfold HState.remove_first_layer
  rw [h]
  dsimp only
  split
  · exact ⟨rfl, rfl, rfl⟩
  · exact ⟨rfl, rfl, rfl⟩

theorem advancePhase_some (s : HState) (first f1 : Layer)
    (h : first.advance s.source = some f1) :
    advancePhase s first [] = { s with layers := [f1] } := by
  unfold advancePhase
  rw [h]
  rfl

theorem advancePhase_none (s : HState) (first : Layer)
    (h : first.advance s.source = none) :
    advancePhase s first [] = s.remove_first_layer := by
  unfold advancePhase
  rw [h]

theorem SInv_offset (s : HState) (c x : Nat) (h : SInv s c) :
    SInv { s with source_offset := x } c := h

theorem SInv_opcount (s : HState) (c x : Nat) (h : SInv s c) :
    SInv { s with operation_count := x } c := h

/-- `stagePhase` on a visible head, unfolded. -/
theorem stagePhase_visible (s1 : HState) (lh : Option Highlight) (props : Properties)
    (first1 : Layer) :
    stagePhase s1 true lh props first1 =
      match lh <|> props.highlight_nonlocal <|> props.highlight with
      | some highlight =>
        if s1.source_offset < min s1.source.length first1.offset then
          match HState.emit_source s1 (min s1.source.length first1.offset) with
          | (some r, s2) => .inl (.emit r none s2)
          | (none, s2) => .inl (.finished s2)
        else
          .inr (some
            ((if first1.at_node_end then HighlightEvent.highlightEnd
              else HighlightEvent.highlightStart highlight),
             (⟨min s1.source.length first1.offset, first1.depth, first1.at_node_end⟩ : EvMeta)))
      | none => .inr none := by
  unfold stagePhase
  rw [if_pos rfl]

/-- One loop iteration preserves the invariant, and performs exactly one
balance step when it emits an event. -/
theorem loopIter_bal (env : Env) (s : HState) (c : Nat) (hinv : SInv s c) :
    match loopIter env s with
    | .emit r _ s2 => ∃ ev c2, r = .ok ev ∧ SInv s2 c2 ∧ balStep c ev c2
    | .finished _ => False
    | .fellThrough s2 => c = 0 ∧ SInv s2 c
    | .panicked _ _ => False
    | .advanced s2 => SInv s2 c := by
  obtain ⟨hsrc, huel, hlay⟩ := hinv
  rcases hlay with ⟨hempty, hc0⟩ | ⟨first, hls, hlinv, hmax, hc⟩
  · have hli : loopIter env s = .fellThrough s := by
      unfold loopIter
      rw [hempty]
    simp only [hli]
    exact ⟨hc0, hsrc, huel, Or.inl ⟨hempty, hc0⟩⟩
  · obtain ⟨hvp, hend2, hlhst, hnoinj, hrefs⟩ := hlinv
    obtain ⟨n, hpath⟩ : ∃ n, nodeAt first.tree first.path = some n := by
      cases hx : nodeAt first.tree first.path with
      | none => rw [hx] at hvp; simp at hvp
      | some m => exact ⟨m, rfl⟩
    have hnodef : first.node = n := layer_node_eq first n hpath
    have hinj : injPhase env s first = .ok (none, s) := injPhase_noinj env s first hnoinj
    have hvis : decide (first.depth ≥ s.max_opq_layer_depth) = true := decide_eq_true hmax
    have hspec := advance_spec first s.source n hpath hend2 hrefs
    simp only [loopIter, hls, hinj, hvis, hnodef, stagePhase_visible]
    cases hcond : first.local_highlight <|> (first.sheet n.kind_id).highlight_nonlocal
        <|> (first.sheet n.kind_id).highlight with
    | none =>
      simp only [hcond]
      have hstat : staticHl first.sheet n = false := by
        cases hlh : first.local_highlight with
        | some x =>
          rw [hlh, Option.some_orElse] at hcond
          exact absurd hcond (by simp)
        | none =>
          rw [hlh, Option.none_orElse] at hcond
          unfold staticHl
          rw [hcond]
          rfl
      rcases hspec with ⟨hnone, hsome⟩
      cases hadv : first.advance s.source with
      | some f1 =>
        obtain ⟨htree, hsheet, hvp', hend', hlh', hdep', hcnt⟩ := hsome f1 hadv
        rw [advancePhase_some s first f1 hadv]
        have hoc : openCount f1 = openCount first := by
          cases hae : first.at_node_end with
          | false =>
            rw [hae] at hcnt
            simp only [Bool.false_eq_true, if_false, ite_false] at hcnt
            rw [hstat] at hcnt
            simpa using hcnt
          | true =>
            rw [hae] at hcnt
            simp only [if_true, ite_true] at hcnt
            rw [hstat] at hcnt
            simpa using hcnt
        refine ⟨hsrc, huel, Or.inr ⟨f1, rfl, ⟨hvp', hend', hlh', ?_, ?_⟩, ?_, ?_⟩⟩
        · intro k
          rw [hsheet]
          exact hnoinj k
        · intro k
          rw [hsheet]
          exact hrefs k
        · show s.max_opq_layer_depth ≤ f1.depth
          rw [hdep']
          exact hmax
        · rw [hoc]
          exact hc
      | none =>
        obtain ⟨hae, hoc⟩ := hnone hadv
        rw [advancePhase_none s first hadv]
        obtain ⟨hrl, hrs, hru⟩ := remove_first_layer_sing s first hls
        have hc00 : c = 0 := by
          rw [hstat] at hoc
          simp at hoc
          omega
        refine ⟨?_, ?_, Or.inl ⟨hrl, hc00⟩⟩
        · rw [hrs]
          exact hsrc
        · rw [hru]
          exact huel
    | some hl =>
      simp only [hcond]
      have hstat : staticHl first.sheet n = true := by
        cases hlh : first.local_highlight with
        | some x =>
          have hx := hlhst (by rw [hlh]; rfl)
          rw [hnodef] at hx
          exact hx
        | none =>
          rw [hlh, Option.none_orElse] at hcond
          unfold staticHl
          rw [hcond]
          rfl
      rcases hspec with ⟨hnone, hsome⟩
      by_cases hso : s.source_offset < min s.source.length first.offset
      · rw [if_pos hso]
        simp only [emit_source_ascii s (min s.source.length first.offset) hsrc]
        exact ⟨.source (sliceBytes s.source s.source_offset
            (min s.source.length first.offset)), c, rfl,
          SInv_offset s c _ ⟨hsrc, huel,
            Or.inr ⟨first, hls, ⟨hvp, hend2, hlhst, hnoinj, hrefs⟩, hmax, hc⟩⟩, rfl⟩
      · rw [if_neg hso]
        cases hae : first.at_node_end with
        | false =>
          simp only [Bool.false_eq_true, if_false, ite_false]
          cases hadv : first.advance s.source with
          | none =>
            have h1 := (hnone hadv).1
            rw [hae] at h1
            exact absurd h1 (by simp)
          | some f1 =>
            obtain ⟨htree, hsheet, hvp', hend', hlh', hdep', hcnt⟩ := hsome f1 hadv
            rw [hae] at hcnt
            simp only [Bool.false_eq_true, if_false, ite_false] at hcnt
            rw [hstat] at hcnt
            simp only [if_true, ite_true] at hcnt
            rw [advancePhase_some s first f1 hadv]
            refine ⟨.highlightStart hl, c + 1, rfl,
              ⟨hsrc, huel, Or.inr ⟨f1, rfl, ⟨hvp', hend', hlh', ?_, ?_⟩, ?_, ?_⟩⟩, rfl⟩
            · intro k
              rw [hsheet]
              exact hnoinj k
            · intro k
              rw [hsheet]
              exact hrefs k
            · show s.max_opq_layer_depth ≤ f1.depth
              rw [hdep']
              exact hmax
            · omega
        | true =>
          simp only [if_true, ite_true]
          cases hadv : first.advance s.source with
          | some f1 =>
            obtain ⟨htree, hsheet, hvp', hend', hlh', hdep', hcnt⟩ := hsome f1 hadv
            rw [hae] at hcnt
            simp only [if_true, ite_true] at hcnt
            rw [hstat] at hcnt
            simp only [if_true, ite_true] at hcnt
            rw [advancePhase_some s first f1 hadv]
            refine ⟨.highlightEnd, c - 1, rfl,
              ⟨hsrc, huel, Or.inr ⟨f1, rfl, ⟨hvp', hend', hlh', ?_, ?_⟩, ?_, ?_⟩⟩, ?_, ?_⟩
            · intro k
              rw [hsheet]
              exact hnoinj k
            · intro k
              rw [hsheet]
              exact hrefs k
            · show s.max_opq_layer_depth ≤ f1.depth
              rw [hdep']
              exact hmax
            · omega
            · omega
            · rfl
          | none =>
            obtain ⟨-, hoc⟩ := hnone hadv
            rw [hstat] at hoc
            simp only [if_true, ite_true] at hoc
            rw [advancePhase_none s first hadv]
            obtain ⟨hrl, hrs, hru⟩ := remove_first_layer_sing s first hls
            refine ⟨.highlightEnd, 0, rfl, ⟨?_, ?_, Or.inl ⟨hrl, rfl⟩⟩, ?_, ?_⟩
            · rw [hrs]
              exact hsrc
            · rw [hru]
              exact huel
            · omega
            · omega

/-- The whole layer loop preserves the invariant. -/
theorem nextLoop_bal (env : Env) (fuel : Nat) (s : HState) (c : Nat) (hinv : SInv s c) :
    match nextLoop env fuel s with
    | .emit r _ s2 => ∃ ev c2, r = .ok ev ∧ SInv s2 c2 ∧ balStep c ev c2
    | .finished _ => False
    | .fellThrough s2 => c = 0 ∧ SInv s2 c
    | .panicked _ _ => False
    | .outOfFuel _ => True := by
  induction fuel generalizing s c with
  | zero =>
    simp only [nextLoop]
  | succ fuel ih =>
    have hb := loopIter_bal env s c hinv
    cases hli : loopIter env s with
    | emit r m s2 =>
      simp only [hli] at hb
      have he : nextLoop env (fuel + 1) s = .emit r m s2 := by
        unfold nextLoop
        rw [hli]
      simp only [he]
      exact hb
    | finished s2 =>
      simp only [hli] at hb
    | fellThrough s2 =>
      simp only [hli] at hb
      have he : nextLoop env (fuel + 1) s = .fellThrough s2 := by
        unfold nextLoop
        rw [hli]
      simp only [he]
      exact hb
    | panicked msg s2 =>
      simp only [hli] at hb
    | advanced s2 =>
      simp only [hli] at hb
      have he : nextLoop env (fuel + 1) s = nextLoop env fuel s2 := by
        simp only [nextLoop]
        rw [hli]
      simp only [he]
      exact ih s2 c hb

/-- The post-cancellation part of `next()` under the invariant: an emitted
`Ok` event is one balance step, and a `finished` return can only happen
with no open highlights. -/
theorem nextAfterCancel_bal (env : Env) (loopFuel : Nat) (s : HState) (c : Nat)
    (hinv : SInv s c) :
    (∀ ev m s1, nextAfterCancel env loopFuel s = .item (.ok ev) m s1 →
      ∃ c1, SInv s1 c1 ∧ balStep c ev c1) ∧
    (∀ s1, nextAfterCancel env loopFuel s = .finished s1 → c = 0) := by
  have huel : s.utf8_error_len = none := hinv.2.1
  have hnb := nextLoop_bal env loopFuel s c hinv
  have hnc : nextAfterCancel env loopFuel s =
      (match nextLoop env loopFuel s with
       | .emit r m s2 => .item r m s2
       | .finished s2 => .finished s2
       | .outOfFuel s2 => .outOfFuel s2
       | .panicked msg s2 => .panicked msg s2
       | .fellThrough s2 =>
         if s2.source_offset < s2.source.length then
           match HState.emit_source s2 s2.source.length with
           | (some r, s3) => .item r none s3
           | (none, s3) => .finished s3
         else .finished s2) := by
    unfold nextAfterCancel
    rw [huel]
  cases hnl : nextLoop env loopFuel s with
  | emit r m s2 =>
    simp only [hnl] at hnb hnc
    obtain ⟨ev, c2, hr, hs2, hbs⟩ := hnb
    subst hr
    constructor
    · intro ev' m' s1' h
      rw [hnc] at h
      injection h with h1 h2 h3
      injection h1 with h1
      subst h1 h3
      exact ⟨c2, hs2, hbs⟩
    · intro s1' h
      rw [hnc] at h
      exact absurd h (by simp)
  | finished s2 =>
    simp only [hnl] at hnb
  | outOfFuel s2 =>
    simp only [hnl] at hnc
    constructor
    · intro ev m s1 h
      rw [hnc] at h
      exact absurd h (by simp)
    · intro s1 h
      rw [hnc] at h
      exact absurd h (by simp)
  | panicked msg s2 =>
    simp only [hnl] at hnb
  | fellThrough s2 =>
    simp only [hnl] at hnb hnc
    obtain ⟨hc0, hs2⟩ := hnb
    by_cases hlt : s2.source_offset < s2.source.length
    · rw [if_pos hlt] at hnc
      have hsrc2 : ∀ b ∈ s2.source, b < 0x80 := hs2.1
      simp only [emit_source_ascii s2 s2.source.length hsrc2] at hnc
      constructor
      · intro ev m s1 h
        rw [hnc] at h
        injection h with h1 h2 h3
        injection h1 with h1
        subst h1 h3
        exact ⟨c, SInv_offset s2 c _ hs2, rfl⟩
      · intro s1 h
        rw [hnc] at h
        exact absurd h (by simp)
    · rw [if_neg hlt] at hnc
      constructor
      · intro ev m s1 h
        rw [hnc] at h
        exact absurd h (by simp)
      · intro s1 h
        exact hc0

/-- One `next()` call under the invariant. -/
theorem nextH_bal (env : Env) (loopFuel : Nat) (s : HState) (c : Nat) (hinv : SInv s c) :
    (∀ ev m s1, nextH env loopFuel s = .item (.ok ev) m s1 →
      ∃ c1, SInv s1 c1 ∧ balStep c ev c1) ∧
    (∀ s1, nextH env loopFuel s = .finished s1 → c = 0) := by
  cases hcf : s.cancellation_flag with
  | none =>
    have he : nextH env loopFuel s = nextAfterCancel env loopFuel s := by
      unfold nextH
      rw [hcf]
    rw [he]
    exact nextAfterCancel_bal env loopFuel s c hinv
  | some v =>
    by_cases hop : s.operation_count + 1 ≥ CANCELLATION_CHECK_INTERVAL
    · by_cases hv : v ≠ 0
      · have he : nextH env loopFuel s =
            .item (.error .Cancelled) none { s with operation_count := 0 } := by
          unfold nextH
          simp only [hcf]
          rw [if_pos hop, if_pos hv]
        rw [he]
        constructor
        · intro ev m s1 h
          exact absurd h (by simp)
        · intro s1 h
          exact absurd h (by simp)
      · have he : nextH env loopFuel s =
            nextAfterCancel env loopFuel { s with operation_count := 0 } := by
          unfold nextH
          simp only [hcf]
          rw [if_pos hop, if_neg hv]
        rw [he]
        exact nextAfterCancel_bal env loopFuel _ c (SInv_opcount s c 0 hinv)
    · have he : nextH env loopFuel s =
          nextAfterCancel env loopFuel { s with operation_count := s.operation_count + 1 } := by
        unfold nextH
        simp only [hcf]
        rw [if_neg hop]
      rw [he]
      exact nextAfterCancel_bal env loopFuel _ c (SInv_opcount s c _ hinv)

/-- A completed run starting from an invariant state closes every highlight
it opens. -/
theorem runH_bal (env : Env) (loopFuel : Nat) :
    ∀ (n : Nat) (s : HState) (c : Nat), SInv s c →
    (runH env loopFuel n s).2 = RunEnd.done →
    balancedFromB c ((runH env loopFuel n s).1.map Prod.fst) = true := by
  intro n
  induction n with
  | zero =>
    intro s c hinv hdone
    exact absurd hdone (by simp [runH])
  | succ n ih =>
    intro s c hinv hdone
    obtain ⟨hitem, hfin⟩ := nextH_bal env loopFuel s c hinv
    cases hnx : nextH env loopFuel s with
    | item r m s1 =>
      cases r with
      | ok ev =>
        obtain ⟨c1, hs1, hbs⟩ := hitem ev m s1 hnx
        have hrun : runH env loopFuel (n + 1) s =
            ((ev, m) :: (runH env loopFuel n s1).1, (runH env loopFuel n s1).2) := by
          simp only [runH]
          rw [hnx]
        rw [hrun] at hdone ⊢
        dsimp only at hdone ⊢
        rw [List.map_cons]
        exact balancedFromB_cons c c1 ev _ hbs (ih s1 c1 hs1 hdone)
      | error e =>
        have hrun : (runH env loopFuel (n + 1) s).2 = .errored e := by
          simp only [runH]
          rw [hnx]
        rw [hrun] at hdone
        exact absurd hdone (by simp)
    | finished s1 =>
      have hc0 := hfin s1 hnx
      have hrun : runH env loopFuel (n + 1) s = ([], .done) := by
        simp only [runH]
        rw [hnx]
      rw [hrun, hc0]
      rfl
    | panicked msg s1 =>
      have hrun : (runH env loopFuel (n + 1) s).2 = .panicked msg := by
        simp only [runH]
        rw [hnx]
      rw [hrun] at hdone
      exact absurd hdone (by simp)
    | outOfFuel s1 =>
      have hrun : (runH env loopFuel (n + 1) s).2 = .fuelOut := by
        simp only [runH]
        rw [hnx]
      rw [hrun] at hdone
      exact absurd hdone (by simp)

theorem SInv_init (src : List Nat) (tree : STree) (sheet : Nat → Properties)
    (flag : Option Nat)
    (hascii : ∀ b ∈ src, b < 0x80)
    (hnoinj : ∀ k, (sheet k).injections = [])
    (href : ∀ k, (sheet k).local_reference = true →
      ((sheet k).highlight_nonlocal <|> (sheet k).highlight).isSome = true) :
    SInv (HState.init src tree sheet flag) 0 := by
  refine ⟨hascii, rfl, Or.inr ⟨Layer.new tree sheet
    [{ start_byte := 0, start_point := ⟨0, 0⟩,
       end_byte := USIZE_MAX, end_point := ⟨USIZE_MAX, USIZE_MAX⟩ }] 0 true,
    rfl, ⟨rfl, ?_, ?_, hnoinj, href⟩, Nat.le_refl 0, rfl⟩⟩
  · intro h
    exact absurd h (by simp [Layer.new])
  · intro h
    exact absurd h (by simp [Layer.new])

/- ## C3: the layer-list ordering invariant -/

/-- The sortedness relation maintained on the layer list: `a` does not
compare greater than `b`. -/
def layerLe (a b : Layer) : Prop := Layer.cmp a b ≠ Ordering.gt

instance (a b : Layer) : Decidable (layerLe a b) := by
  unfold layerLe
  infer_instance

/-- `Layer::cmp` as an explicit lexicographic comparison on
(offset, ends-before-starts, depth). -/
theorem cmp_eval (a b : Layer) : Layer.cmp a b =
    (if a.offset < b.offset then Ordering.lt
     else if b.offset < a.offset then Ordering.gt
     else if a.at_node_end && !b.at_node_end then Ordering.lt
     else if b.at_node_end && !a.at_node_end then Ordering.gt
     else if a.depth < b.depth then Ordering.lt
     else if b.depth < a.depth then Ordering.gt
     else Ordering.eq) := by
  unfold Layer.cmp
  cases hoff : compare a.offset b.offset with
  | lt =>
    have h := Nat.compare_eq_lt.mp hoff
    rw [if_pos h]
    rfl
  | gt =>
    have h := Nat.compare_eq_gt.mp hoff
    rw [if_neg (by omega), if_pos h]
    rfl
  | eq =>
    have h := Nat.compare_eq_eq.mp hoff
    rw [if_neg (by omega), if_neg (by omega)]
    show (boolCmp b.at_node_end a.at_node_end).then (compare a.depth b.depth) = _
    cases hae : a.at_node_end <;> cases hbe : b.at_node_end
    · show compare a.depth b.depth = _
      simp only [Bool.and_false, Bool.false_and, Bool.false_eq_true, if_false, ite_false]
      cases hd : compare a.depth b.depth with
      | lt =>
        have hd2 := Nat.compare_eq_lt.mp hd
        rw [if_pos hd2]
      | gt =>
        have hd2 := Nat.compare_eq_gt.mp hd
        rw [if_neg (by omega), if_pos hd2]
      | eq =>
        have hd2 := Nat.compare_eq_eq.mp hd
        rw [if_neg (by omega), if_neg (by omega)]
    · show Ordering.gt = _
      simp
    · show Ordering.lt = _
      simp
    · show compare a.depth b.depth = _
      simp only [Bool.not_true, Bool.and_false, Bool.false_eq_true, if_false, ite_false]
      cases hd : compare a.depth b.depth with
      | lt =>
        have hd2 := Nat.compare_eq_lt.mp hd
        rw [if_pos hd2]
      | gt =>
        have hd2 := Nat.compare_eq_gt.mp hd
        rw [if_neg (by omega), if_pos hd2]
      | eq =>
        have hd2 := Nat.compare_eq_eq.mp hd
        rw [if_neg (by omega), if_neg (by omega)]

/-- `layerLe` in arithmetic form. -/
theorem layerLe_iff (a b : Layer) : layerLe a b ↔
    ¬ (b.offset < a.offset ∨ (a.offset = b.offset ∧
       ((b.at_node_end = true ∧ a.at_node_end = false) ∨
        (a.at_node_end = b.at_node_end ∧ b.depth < a.depth)))) := by
  unfold layerLe
  rw [cmp_eval]
  cases hae : a.at_node_end <;> cases hbe : b.at_node_end <;>
    by_cases h1 : a.offset < b.offset <;> by_cases h2 : b.offset < a.offset <;>
    by_cases h3 : a.depth < b.depth <;> by_cases h4 : b.depth < a.depth <;>
    simp_all <;> omega

theorem layerLe_total (a b : Layer) : layerLe a b ∨ layerLe b a := by
  rw [layerLe_iff, layerLe_iff]
  cases hae : a.at_node_end <;> cases hbe : b.at_node_end <;> simp_all <;> omega

theorem layerLe_trans {a b c : Layer} (h1 : layerLe a b) (h2 : layerLe b c) :
    layerLe a c := by
  rw [layerLe_iff] at h1 h2 ⊢
  cases hae : a.at_node_end <;> cases hbe : b.at_node_end <;> cases hce : c.at_node_end <;>
    simp_all <;> omega

/-- A layer not greater than the inserted one stays ahead of everything the
insertion produces. -/
theorem orderedInsertLayer_mem (a x : Layer) (l : List Layer)
    (h : x ∈ orderedInsertLayer a l) : x = a ∨ x ∈ l := by
  induction l with
  | nil =>
    unfold orderedInsertLayer at h
    simp only [List.mem_singleton] at h
    exact Or.inl h
  | cons b rest ih =>
    unfold orderedInsertLayer at h
    split at h
    · simp only [List.mem_cons] at h
      rcases h with h | h | h
      · exact Or.inl h
      · exact Or.inr (by simp [h])
      · exact Or.inr (by simp [h])
    · simp only [List.mem_cons] at h
      rcases h with h | h
      · exact Or.inr (by simp [h])
      · rcases ih h with h2 | h2
        · exact Or.inl h2
        · exact Or.inr (by simp [h2])

/-- `binary_search_by` insertion preserves sortedness. -/
theorem orderedInsertLayer_sorted (a : Layer) (l : List Layer)
    (h : List.Pairwise layerLe l) : List.Pairwise layerLe (orderedInsertLayer a l) := by
  induction l with
  | nil =>
    unfold orderedInsertLayer
    simp
  | cons b rest ih =>
    rw [List.pairwise_cons] at h
    obtain ⟨hball, hrest⟩ := h
    unfold orderedInsertLayer
    split
    · rename_i hgt
      rw [List.pairwise_cons]
      constructor
      · intro x hx
        simp only [List.mem_cons] at hx
        rcases hx with hx | hx
        · subst hx
          rcases layerLe_total a x with hle | hle
          · exact hle
          · exact absurd hgt hle
        · rcases layerLe_total a b with hle | hle
          · exact layerLe_trans hle (hball x hx)
          · exact absurd hgt hle
      · exact List.pairwise_cons.mpr ⟨hball, hrest⟩
    · rename_i hngt
      rw [List.pairwise_cons]
      constructor
      · intro x hx
        rcases orderedInsertLayer_mem a x rest hx with hx2 | hx2
        · subst hx2
          exact hngt
        · exact hball x hx2
      · exact ih hrest

theorem bubbleLayer_mem (a x : Layer) (l : List Layer)
    (h : x ∈ bubbleLayer a l) : x = a ∨ x ∈ l := by
  induction l with
  | nil =>
    unfold bubbleLayer at h
    simp only [List.mem_singleton] at h
    exact Or.inl h
  | cons b rest ih =>
    unfold bubbleLayer at h
    split at h
    · simp only [List.mem_cons] at h
      rcases h with h | h
      · exact Or.inr (by simp [h])
      · rcases ih h with h2 | h2
        · exact Or.inl h2
        · exact Or.inr (by simp [h2])
    · simp only [List.mem_cons] at h
      rcases h with h | h | h
      · exact Or.inl h
      · exact Or.inr (by simp [h])
      · exact Or.inr (by simp [h])

/-- The adjacent-swap pass restores sortedness when the tail is sorted. -/
theorem bubbleLayer_sorted (a : Layer) (l : List Layer)
    (h : List.Pairwise layerLe l) : List.Pairwise layerLe (bubbleLayer a l) := by
  induction l with
  | nil =>
    unfold bubbleLayer
    simp
  | cons b rest ih =>
    rw [List.pairwise_cons] at h
    obtain ⟨hball, hrest⟩ := h
    unfold bubbleLayer
    split
    · rename_i hgt
      rw [List.pairwise_cons]
      constructor
      · intro x hx
        rcases bubbleLayer_mem a x rest hx with hx2 | hx2
        · subst hx2
          rcases layerLe_total x b with hle | hle
          · exact absurd hgt hle
          · exact hle
        · exact hball x hx2
      · exact ih hrest
    · rename_i hngt
      rw [List.pairwise_cons]
      refine ⟨?_, List.pairwise_cons.mpr ⟨hball, hrest⟩⟩
      intro x hx
      simp only [List.mem_cons] at hx
      rcases hx with hx | hx
      · subst hx
        exact hngt
      · exact layerLe_trans hngt (hball x hx)

theorem add_layer_sorted (env : Env) (s : HState) (nm : List Nat) (ranges : List Range)
    (depth : Nat) (ic : Bool) (h : List.Pairwise layerLe s.layers) :
    List.Pairwise layerLe ((HState.add_layer env s nm ranges depth ic).2).layers := by
  unfold HState.add_layer
  cases hcb : env.callback nm with
  | none => exact h
  | some ls =>
    obtain ⟨lang, sheet⟩ := ls
    dsimp only
    by_cases hv : !lang.valid
    · rw [if_pos hv]
      exact h
    · rw [if_neg hv]
      cases hp : env.parse lang ranges with
      | some tree =>
        dsimp only
        split
        · exact orderedInsertLayer_sorted _ _ h
        · exact orderedInsertLayer_sorted _ _ h
      | none => exact h

theorem addLayers_sorted (env : Env) (depth : Nat)
    (injs : List (List Nat × List Range × Bool)) (s : HState)
    (h : List.Pairwise layerLe s.layers) :
    List.Pairwise layerLe ((addLayers env depth injs s).2).layers := by
  induction injs generalizing s with
  | nil => exact h
  | cons x rest ih =>
    obtain ⟨nm, ranges, ic⟩ := x
    unfold addLayers
    cases hal : HState.add_layer env s nm ranges depth ic with
    | mk e s1 =>
      have hs1 : List.Pairwise layerLe s1.layers := by
        have h2 := add_layer_sorted env s nm ranges depth ic h
        rw [hal] at h2
        exact h2
      cases e with
      | none => exact ih s1 hs1
      | some err => exact hs1

theorem remove_first_layer_sorted (s : HState) (h : List.Pairwise layerLe s.layers) :
    List.Pairwise layerLe s.remove_first_layer.layers := by
  unfold HState.remove_first_layer
  cases hls : s.layers with
  | nil => exact h
  | cons l rest =>
    rw [hls] at h
    dsimp only
    split
    · exact (List.pairwise_cons.mp h).2
    · exact (List.pairwise_cons.mp h).2

theorem injPhase_sorted (env : Env) (s : HState) (first : Layer)
    (h : List.Pairwise layerLe s.layers) :
    ∀ e s1, injPhase env s first = .ok (e, s1) → List.Pairwise layerLe s1.layers := by
  intro e s1 hi
  unfold injPhase at hi
  split at hi
  · cases hg : gatherInjections s.source first.node first.ranges
        ((first.sheet first.node.kind_id).injections) with
    | error msg =>
      simp only [hg] at hi
      exact absurd hi (by simp)
    | ok injs =>
      simp only [hg] at hi
      injection hi with h2
      have h3 := congrArg Prod.snd h2
      dsimp only at h3
      have h4 := addLayers_sorted env (first.depth + 1) injs s h
      rw [h3] at h4
      exact h4
  · injection hi with h2
    have h3 := congrArg Prod.snd h2
    dsimp only at h3
    rw [← h3]
    exact h

theorem emit_source_layers (s : HState) (x : Nat) :
    ((s.emit_source x).2).layers = s.layers := by
  unfold HState.emit_source
  dsimp only
  cases hd : decode_utf8 (sliceBytes s.source s.source_offset x) with
  | ok v => rfl
  | error p =>
    obtain ⟨vl, el⟩ := p
    cases el with
    | some l =>
      dsimp only
      split <;> rfl
    | none => rfl

theorem advancePhase_sorted (s1 : HState) (first1 : Layer) (rest1 : List Layer)
    (h : List.Pairwise layerLe (first1 :: rest1)) (hls : s1.layers = first1 :: rest1) :
    List.Pairwise layerLe (advancePhase s1 first1 rest1).layers := by
  unfold advancePhase
  cases ha : first1.advance s1.source with
  | some f1 =>
    show List.Pairwise layerLe (bubbleHead (f1 :: rest1))
    unfold bubbleHead
    exact bubbleLayer_sorted f1 rest1 (List.pairwise_cons.mp h).2
  | none =>
    refine remove_first_layer_sorted s1 ?_
    rw [hls]
    exact h

/-- One loop iteration keeps the layer list sorted, for every environment. -/
theorem loopIter_sorted (env : Env) (s : HState) (h : List.Pairwise layerLe s.layers) :
    match loopIter env s with
    | .emit _ _ s2 => List.Pairwise layerLe s2.layers
    | .finished s2 => List.Pairwise layerLe s2.layers
    | .fellThrough s2 => List.Pairwise layerLe s2.layers
    | .panicked _ s2 => List.Pairwise layerLe s2.layers
    | .advanced s2 => List.Pairwise layerLe s2.layers := by
  cases hls : s.layers with
  | nil =>
    have hli : loopIter env s = .fellThrough s := by
      unfold loopIter
      rw [hls]
    simp only [hli]
    exact h
  | cons first rest =>
    cases hip : injPhase env s first with
    | error msg =>
      have hli : loopIter env s = .panicked msg s := by
        unfold loopIter
        rw [hls]
        dsimp only
        rw [hip]
      simp only [hli]
      exact h
    | ok pr =>
      obtain ⟨e, s1⟩ := pr
      have hs1 : List.Pairwise layerLe s1.layers := injPhase_sorted env s first h e s1 hip
      cases e with
      | some err =>
        have hli : loopIter env s = .emit (.error err) none s1 := by
          unfold loopIter
          rw [hls]
          dsimp only
          rw [hip]
        simp only [hli]
        exact hs1
      | none =>
        cases hls1 : s1.layers with
        | nil =>
          have hli : loopIter env s = .fellThrough s1 := by
            unfold loopIter
            rw [hls]
            dsimp only
            rw [hip]
            dsimp only
            rw [hls1]
          simp only [hli]
          exact hs1
        | cons first1 rest1 =>
          have hadv : List.Pairwise layerLe (advancePhase s1 first1 rest1).layers := by
            refine advancePhase_sorted s1 first1 rest1 ?_ hls1
            rw [← hls1]
            exact hs1
          cases hsp : stagePhase s1 (decide (first.depth ≥ s.max_opq_layer_depth))
              first.local_highlight (first.sheet first.node.kind_id) first1 with
          | inl res =>
            have hli : loopIter env s = res := by
              unfold loopIter
              rw [hls]
              dsimp only
              rw [hip]
              dsimp only
              rw [hls1]
              dsimp only
              rw [hsp]
            unfold stagePhase at hsp
            dsimp only at hsp
            split at hsp
            · cases hcond : first.local_highlight
                  <|> (first.sheet first.node.kind_id).highlight_nonlocal
                  <|> (first.sheet first.node.kind_id).highlight with
              | none =>
                simp only [hcond] at hsp
                exact absurd hsp (by simp)
              | some hl =>
                simp only [hcond] at hsp
                split at hsp
                · cases hes : HState.emit_source s1 (min s1.source.length first1.offset) with
                  | mk r s2 =>
                    simp only [hes] at hsp
                    have h3 := congrArg Prod.snd hes
                    dsimp only at h3
                    have h4 := emit_source_layers s1 (min s1.source.length first1.offset)
                    rw [h3] at h4
                    cases r with
                    | some rr =>
                      injection hsp with h2
                      rw [← h2] at hli
                      simp only [hli]
                      show List.Pairwise layerLe s2.layers
                      rw [h4]
                      exact hs1
                    | none =>
                      injection hsp with h2
                      rw [← h2] at hli
                      simp only [hli]
                      show List.Pairwise layerLe s2.layers
                      rw [h4]
                      exact hs1
                · exact absurd hsp (by simp)
            · exact absurd hsp (by simp)
          | inr sev =>
            cases sev with
            | some evm =>
              obtain ⟨ev, m⟩ := evm
              have hli : loopIter env s =
                  .emit (.ok ev) (some m) (advancePhase s1 first1 rest1) := by
                unfold loopIter
                rw [hls]
                dsimp only
                rw [hip]
                dsimp only
                rw [hls1]
                dsimp only
                rw [hsp]
              simp only [hli]
              exact hadv
            | none =>
              have hli : loopIter env s = .advanced (advancePhase s1 first1 rest1) := by
                unfold loopIter
                rw [hls]
                dsimp only
                rw [hip]
                dsimp only
                rw [hls1]
                dsimp only
                rw [hsp]
              simp only [hli]
              exact hadv

theorem nextLoop_sorted (env : Env) (fuel : Nat) (s : HState)
    (h : List.Pairwise layerLe s.layers) :
    match nextLoop env fuel s with
    | .emit _ _ s2 => List.Pairwise layerLe s2.layers
    | .finished s2 => List.Pairwise layerLe s2.layers
    | .fellThrough s2 => List.Pairwise layerLe s2.layers
    | .panicked _ s2 => List.Pairwise layerLe s2.layers
    | .outOfFuel s2 => List.Pairwise layerLe s2.layers := by
  induction fuel generalizing s with
  | zero =>
    simp only [nextLoop]
    exact h
  | succ fuel ih =>
    have hb := loopIter_sorted env s h
    cases hli : loopIter env s with
    | emit r m s2 =>
      simp only [hli] at hb
      have he : nextLoop env (fuel + 1) s = .emit r m s2 := by
        unfold nextLoop
        rw [hli]
      simp only [he]
      exact hb
    | finished s2 =>
      simp only [hli] at hb
      have he : nextLoop env (fuel + 1) s = .finished s2 := by
        unfold nextLoop
        rw [hli]
      simp only [he]
      exact hb
    | fellThrough s2 =>
      simp only [hli] at hb
      have he : nextLoop env (fuel + 1) s = .fellThrough s2 := by
        unfold nextLoop
        rw [hli]
      simp only [he]
      exact hb
    | panicked msg s2 =>
      simp only [hli] at hb
      have he : nextLoop env (fuel + 1) s = .panicked msg s2 := by
        unfold nextLoop
        rw [hli]
      simp only [he]
      exact hb
    | advanced s2 =>
      simp only [hli] at hb
      have he : nextLoop env (fuel + 1) s = nextLoop env fuel s2 := by
        simp only [nextLoop]
        rw [hli]
      simp only [he]
      exact ih s2 hb

theorem nextAfterCancel_sorted (env : Env) (loopFuel : Nat) (s : HState)
    (h : List.Pairwise layerLe s.layers) :
    match nextAfterCancel env loopFuel s with
    | .item _ _ s1 => List.Pairwise layerLe s1.layers
    | .finished s1 => List.Pairwise layerLe s1.layers
    | .panicked _ s1 => List.Pairwise layerLe s1.layers
    | .outOfFuel s1 => List.Pairwise layerLe s1.layers := by
  cases hu : s.utf8_error_len with
  | some l =>
    have he : nextAfterCancel env loopFuel s =
        .item (.ok (.source fffdBytes)) none
          { s with utf8_error_len := none, source_offset := s.source_offset + l } := by
      unfold nextAfterCancel
      rw [hu]
    rw [he]
    exact h
  | none =>
    have he : nextAfterCancel env loopFuel s =
        (match nextLoop env loopFuel s with
         | .emit r m s2 => .item r m s2
         | .finished s2 => .finished s2
         | .outOfFuel s2 => .outOfFuel s2
         | .panicked msg s2 => .panicked msg s2
         | .fellThrough s2 =>
           if s2.source_offset < s2.source.length then
             match HState.emit_source s2 s2.source.length with
             | (some r, s3) => .item r none s3
             | (none, s3) => .finished s3
           else .finished s2) := by
      unfold nextAfterCancel
      rw [hu]
    rw [he]
    have hb := nextLoop_sorted env loopFuel s h
    cases hnl : nextLoop env loopFuel s with
    | emit r m s2 =>
      simp only [hnl] at hb ⊢
      exact hb
    | finished s2 =>
      simp only [hnl] at hb ⊢
      exact hb
    | outOfFuel s2 =>
      simp only [hnl] at hb ⊢
      exact hb
    | panicked msg s2 =>
      simp only [hnl] at hb ⊢
      exact hb
    | fellThrough s2 =>
      simp only [hnl] at hb ⊢
      by_cases hlt : s2.source_offset < s2.source.length
      · rw [if_pos hlt]
        cases hes : HState.emit_source s2 s2.source.length with
        | mk r s3 =>
          have h3 := congrArg Prod.snd hes
          dsimp only at h3
          have h4 := emit_source_layers s2 s2.source.length
          rw [h3] at h4
          cases r with
          | some rr =>
            show List.Pairwise layerLe s3.layers
            rw [h4]
            exact hb
          | none =>
            show List.Pairwise layerLe s3.layers
            rw [h4]
            exact hb
      · rw [if_neg hlt]
        exact hb

/-- One `next()` call keeps the layer list sorted, for every environment:
Highlighter states are always sorted between calls. -/
theorem nextH_sorted (env : Env) (loopFuel : Nat) (s : HState)
    (h : List.Pairwise layerLe s.layers) :
    match nextH env loopFuel s with
    | .item _ _ s1 => List.Pairwise layerLe s1.layers
    | .finished s1 => List.Pairwise layerLe s1.layers
    | .panicked _ s1 => List.Pairwise layerLe s1.layers
    | .outOfFuel s1 => List.Pairwise layerLe s1.layers := by
  cases hcf : s.cancellation_flag with
  | none =>
    have he : nextH env loopFuel s = nextAfterCancel env loopFuel s := by
      unfold nextH
      rw [hcf]
    rw [he]
    exact nextAfterCancel_sorted env loopFuel s h
  | some v =>
    by_cases hop : s.operation_count + 1 ≥ CANCELLATION_CHECK_INTERVAL
    · by_cases hv : v ≠ 0
      · have he : nextH env loopFuel s =
            .item (.error .Cancelled) none { s with operation_count := 0 } := by
          unfold nextH
          simp only [hcf]
          rw [if_pos hop, if_pos hv]
        rw [he]
        exact h
      · have he : nextH env loopFuel s =
            nextAfterCancel env loopFuel { s with operation_count := 0 } := by
          unfold nextH
          simp only [hcf]
          rw [if_pos hop, if_neg hv]
        rw [he]
        exact nextAfterCancel_sorted env loopFuel _ h
    · have he : nextH env loopFuel s =
          nextAfterCancel env loopFuel { s with operation_count := s.operation_count + 1 } := by
        unfold nextH
        simp only [hcf]
        rw [if_neg hop]
      rw [he]
      exact nextAfterCancel_sorted env loopFuel _ h

/- ## C3: the emitted-event ordering -/

mutual
/-- Well-formed syntax tree: every node is non-empty, children lie inside
their parent in document order. -/
def wfTree : STree → Bool
  | .mk sb _ eb _ _ cs => decide (sb < eb) && wfChildren sb eb cs

/-- Children well-formedness: each child starts no earlier than `lo` (the
parent start, or the previous sibling's end), ends by `hi`, and is itself
well-formed. -/
def wfChildren (lo hi : Nat) : List STree → Bool
  | [] => true
  | c :: rest =>
    decide (lo ≤ c.start_byte) && decide (c.end_byte ≤ hi) && wfTree c &&
      wfChildren c.end_byte hi rest
end

theorem wfTree_parts (n : STree) (h : wfTree n = true) :
    n.start_byte < n.end_byte ∧ wfChildren n.start_byte n.end_byte n.children = true := by
  cases n with
  | mk sb sp eb ep k cs =>
    unfold wfTree at h
    rw [Bool.and_eq_true, decide_eq_true_eq] at h
    exact h

theorem wfChildren_get (cs : List STree) : ∀ (lo hi j : Nat) (c : STree),
    wfChildren lo hi cs = true → cs[j]? = some c →
    wfTree c = true ∧ lo ≤ c.start_byte ∧ c.end_byte ≤ hi := by
  induction cs with
  | nil =>
    intro lo hi j c h hc
    simp at hc
  | cons c0 rest ih =>
    intro lo hi j c h hc
    unfold wfChildren at h
    rw [Bool.and_eq_true, Bool.and_eq_true, Bool.and_eq_true,
      decide_eq_true_eq, decide_eq_true_eq] at h
    obtain ⟨⟨⟨h1, h2⟩, h3⟩, h4⟩ := h
    cases j with
    | zero =>
      have hcc : c0 = c := by
        rw [List.getElem?_cons_zero] at hc
        exact Option.some.inj hc
      subst hcc
      exact ⟨h3, h1, h2⟩
    | succ j =>
      rw [List.getElem?_cons_succ] at hc
      obtain ⟨hw, hlo, hhi⟩ := ih c0.end_byte hi j c h4 hc
      have hse := (wfTree_parts c0 h3).1
      exact ⟨hw, by omega, hhi⟩

theorem wfChildren_sib (cs : List STree) : ∀ (lo hi j : Nat) (c c' : STree),
    wfChildren lo hi cs = true → cs[j]? = some c → cs[j + 1]? = some c' →
    c.end_byte ≤ c'.start_byte := by
  induction cs with
  | nil =>
    intro lo hi j c c' h hc hc'
    simp at hc
  | cons c0 rest ih =>
    intro lo hi j c c' h hc hc'
    unfold wfChildren at h
    rw [Bool.and_eq_true, Bool.and_eq_true, Bool.and_eq_true,
      decide_eq_true_eq, decide_eq_true_eq] at h
    obtain ⟨⟨⟨h1, h2⟩, h3⟩, h4⟩ := h
    cases j with
    | zero =>
      have hcc : c0 = c := by
        rw [List.getElem?_cons_zero] at hc
        exact Option.some.inj hc
      subst hcc
      rw [List.getElem?_cons_succ] at hc'
      exact (wfChildren_get rest c0.end_byte hi 0 c' h4 hc').2.1
    | succ j =>
      rw [List.getElem?_cons_succ] at hc
      rw [List.getElem?_cons_succ] at hc'
      exact ih c0.end_byte hi j c c' h4 hc hc'

theorem wfTree_nodeAt (t : STree) (p : List Nat) (n : STree)
    (hw : wfTree t = true) (hp : nodeAt t p = some n) :
    wfTree n = true ∧ t.start_byte ≤ n.start_byte ∧ n.end_byte ≤ t.end_byte := by
  induction p generalizing t with
  | nil =>
    have ht : t = n := Option.some.inj hp
    subst ht
    exact ⟨hw, Nat.le_refl _, Nat.le_refl _⟩
  | cons j q ih =>
    unfold nodeAt at hp
    cases hj : t.children[j]? with
    | none =>
      rw [hj] at hp
      exact absurd hp (by simp)
    | some c =>
      simp only [hj] at hp
      obtain ⟨hse, hch⟩ := wfTree_parts t hw
      obtain ⟨hwc, hlo, hhi⟩ := wfChildren_get t.children t.start_byte t.end_byte j c hch hj
      obtain ⟨hwn, hlo2, hhi2⟩ := ih c hwc hp
      exact ⟨hwn, by omega, by omega⟩

/-- The bookkeeping the head layer would attach to the event it stages at
its current phase. -/
def curMeta (len : Nat) (l : Layer) : EvMeta :=
  ⟨min len l.offset, l.depth, l.at_node_end⟩

theorem claimPairOk_of_key (o1 o2 d1 d2 : Nat) (e1 e2 : Bool)
    (h : o1 < o2 ∨ (o1 = o2 ∧ ((e1 = true ∧ e2 = false) ∨ (e1 = e2 ∧ d1 ≤ d2)))) :
    claimPairOk ⟨o1, d1, e1⟩ ⟨o2, d2, e2⟩ := h

theorem claimPairOk_trans (a b c : EvMeta) (h1 : claimPairOk a b) (h2 : claimPairOk b c) :
    claimPairOk a c := by
  unfold claimPairOk at h1 h2 ⊢
  cases hae : a.atEnd <;> cases hbe : b.atEnd <;> cases hce : c.atEnd <;> simp_all <;> omega

theorem curMeta_eval (len : Nat) (l : Layer) (n : STree)
    (hp : nodeAt l.tree l.path = some n) :
    curMeta len l =
      ⟨min len (if l.at_node_end then n.end_byte else n.start_byte), l.depth,
        l.at_node_end⟩ := by
  unfold curMeta Layer.offset
  rw [layer_node_eq l n hp]

/-- A successful `advance` keeps the cursor coherent (same tree and sheet,
valid path, same depth) and never moves the staged boundary backwards in
emission order: the next phase's offset is no smaller, and at equal offsets
only an end phase can precede a start phase. -/
theorem advance_ord (l : Layer) (src : List Nat) (n : STree) (l2 : Layer)
    (hpath : nodeAt l.tree l.path = some n)
    (hwf : wfTree l.tree = true)
    (hroot : l.tree.end_byte ≤ src.length)
    (hadv : l.advance src = some l2) :
    l2.tree = l.tree ∧ l2.sheet = l.sheet ∧ (nodeAt l2.tree l2.path).isSome = true ∧
    l2.depth = l.depth ∧
    claimPairOk (curMeta src.length l) (curMeta src.length l2) := by
  obtain ⟨hwn, hlo, hhi⟩ := wfTree_nodeAt l.tree l.path n hwf hpath
  have hlen : n.end_byte ≤ src.length := Nat.le_trans hhi hroot
  have hse : n.start_byte < n.end_byte := (wfTree_parts n hwn).1
  cases hae : l.at_node_end with
  | false =>
    have heq := advance_eq_start l src hae
    cases hgc : goto_first_child l.tree l.path with
    | some p2 =>
      simp only [hgc] at heq
      rw [heq] at hadv
      have hl2 : l2 = Layer.enter_node { l with local_highlight := none, path := p2 } src :=
        (Option.some.inj hadv).symm
      obtain ⟨hp2, hne⟩ := goto_first_child_some l.tree l.path p2 n hpath hgc
      obtain ⟨c0, cs, hc0⟩ : ∃ c0 cs, n.children = c0 :: cs := by
        cases hcc : n.children with
        | nil => rw [hcc] at hne; simp at hne
        | cons a as_ => exact ⟨a, as_, rfl⟩
      have hc0e : n.children[0]? = some c0 := by
        rw [hc0]
        exact List.getElem?_cons_zero
      have hvalid : nodeAt l.tree p2 = some c0 := by
        rw [hp2, nodeAt_append, hpath]
        exact hc0e
      obtain ⟨het, hep, hes, hee, hdep, -, -⟩ :=
        enter_node_fields ({ l with local_highlight := none, path := p2 }) src
      have htree : l2.tree = l.tree := by rw [hl2, het]
      have hvp2 : nodeAt l2.tree l2.path = some c0 := by
        rw [hl2, het, hep]
        dsimp only
        exact hvalid
      have hend2 : l2.at_node_end = false := by
        rw [hl2, hee]
        exact hae
      have hdep2 : l2.depth = l.depth := by rw [hl2, hdep]
      have hch : n.start_byte ≤ c0.start_byte :=
        (wfChildren_get n.children n.start_byte n.end_byte 0 c0 (wfTree_parts n hwn).2
          hc0e).2.1
      refine ⟨htree, by rw [hl2, hes], by rw [hvp2]; rfl, hdep2, ?_⟩
      rw [curMeta_eval src.length l n hpath, curMeta_eval src.length l2 c0 hvp2]
      rw [hae, hend2, hdep2]
      simp only [Bool.false_eq_true, if_false, ite_false]
      refine claimPairOk_of_key _ _ _ _ _ _ ?_
      rcases Nat.lt_or_ge (min src.length n.start_byte) (min src.length c0.start_byte)
          with h | h
      · exact Or.inl h
      · exact Or.inr ⟨by omega, Or.inr ⟨rfl, Nat.le_refl _⟩⟩
    | none =>
      simp only [hgc] at heq
      rw [heq] at hadv
      have hl2 : l2 = { l with local_highlight := none, at_node_end := true } :=
        (Option.some.inj hadv).symm
      have hvp2 : nodeAt l2.tree l2.path = some n := by
        rw [hl2]
        exact hpath
      refine ⟨by rw [hl2], by rw [hl2], by rw [hvp2]; rfl, by rw [hl2], ?_⟩
      rw [curMeta_eval src.length l n hpath, curMeta_eval src.length l2 n hvp2]
      have hend2 : l2.at_node_end = true := by rw [hl2]
      have hdep2 : l2.depth = l.depth := by rw [hl2]
      rw [hae, hend2, hdep2]
      simp only [if_true, ite_true, Bool.false_eq_true, if_false, ite_false]
      refine claimPairOk_of_key _ _ _ _ _ _ ?_
      exact Or.inl (by omega)
  | true =>
    have heq := advance_eq_end l src hae
    have hlt : (({ l with local_highlight := none } : Layer).leave_node).tree = l.tree :=
      (leave_node_fields _).1
    have hlp : (({ l with local_highlight := none } : Layer).leave_node).path = l.path :=
      (leave_node_fields _).2.1
    have hlsh : (({ l with local_highlight := none } : Layer).leave_node).sheet = l.sheet :=
      (leave_node_fields _).2.2.1
    have hla : (({ l with local_highlight := none } : Layer).leave_node).at_node_end
        = true := by
      have h2 := (leave_node_fields ({ l with local_highlight := none } : Layer)).2.2.2.1
      rw [h2]
      exact hae
    have hld : (({ l with local_highlight := none } : Layer).leave_node).depth = l.depth :=
      (leave_node_fields _).2.2.2.2.1
    cases hgs : goto_next_sibling l.tree l.path with
    | some p2 =>
      simp only [hgs] at heq
      rw [heq] at hadv
      have hl2 : l2 = Layer.enter_node
          { ({ l with local_highlight := none } : Layer).leave_node with
            path := p2, at_node_end := false } src :=
        (Option.some.inj hadv).symm
      obtain ⟨j, m, hgl, hq, hjlt, hp2⟩ := goto_next_sibling_some l.tree l.path p2 hgs
      have hpd : l.path.dropLast ++ [j] = l.path :=
        List.dropLast_append_getLast? j hgl
      have hmn : m.children[j]? = some n := by
        have h2 := nodeAt_append l.tree l.path.dropLast j
        rw [hpd, hq, hpath] at h2
        exact h2.symm
      have hsib : m.children[j + 1]? = some (m.children.get ⟨j + 1, hjlt⟩) := by
        rw [List.getElem?_eq_getElem hjlt]
        rfl
      have hvalid2 : nodeAt l.tree p2 = some (m.children.get ⟨j + 1, hjlt⟩) := by
        rw [hp2, nodeAt_append, hq]
        exact hsib
      obtain ⟨het, hep, hes, hee, hdep, -, -⟩ := enter_node_fields
        ({ ({ l with local_highlight := none } : Layer).leave_node with
           path := p2, at_node_end := false }) src
      have htree : l2.tree = l.tree := by
        rw [hl2, het]
        exact hlt
      have hvp2 : nodeAt l2.tree l2.path = some (m.children.get ⟨j + 1, hjlt⟩) := by
        rw [hl2, het, hep]
        dsimp only
        rw [hlt]
        exact hvalid2
      have hend2 : l2.at_node_end = false := by rw [hl2, hee]
      have hdep2 : l2.depth = l.depth := by
        rw [hl2, hdep]
        exact hld
      have hwfm := wfTree_nodeAt l.tree l.path.dropLast m hwf hq
      have hnext : n.end_byte ≤ (m.children.get ⟨j + 1, hjlt⟩).start_byte :=
        wfChildren_sib m.children m.start_byte m.end_byte j n _
          (wfTree_parts m hwfm.1).2 hmn hsib
      refine ⟨htree, by rw [hl2, hes]; exact hlsh, by rw [hvp2]; rfl, hdep2, ?_⟩
      rw [curMeta_eval src.length l n hpath,
        curMeta_eval src.length l2 (m.children.get ⟨j + 1, hjlt⟩) hvp2]
      rw [hae, hend2, hdep2]
      simp only [if_true, ite_true, Bool.false_eq_true, if_false, ite_false]
      refine claimPairOk_of_key _ _ _ _ _ _ ?_
      rcases Nat.lt_or_ge (min src.length n.end_byte)
          (min src.length (m.children.get ⟨j + 1, hjlt⟩).start_byte) with h | h
      · exact Or.inl h
      · exact Or.inr ⟨by omega, Or.inl ⟨rfl, rfl⟩⟩
    | none =>
      simp only [hgs] at heq
      cases hgp : goto_parent l.path with
      | some q =>
        simp only [hgp] at heq
        rw [heq] at hadv
        have hl2 : l2 = { ({ l with local_highlight := none } : Layer).leave_node with
            path := q } := (Option.some.inj hadv).symm
        obtain ⟨hpne, hqe⟩ := goto_parent_some l.path q hgp
        obtain ⟨j, hgl⟩ : ∃ j, l.path.getLast? = some j := by
          cases hpe : l.path with
          | nil => exact absurd hpe hpne
          | cons a as_ =>
            have h2 := getLast?_cons_isSome a as_
            cases h3 : (a :: as_).getLast? with
            | none => rw [h3] at h2; exact absurd h2 (by simp)
            | some x => exact ⟨x, rfl⟩
        have hpd : l.path.dropLast ++ [j] = l.path :=
          List.dropLast_append_getLast? j hgl
        obtain ⟨m, hq⟩ : ∃ m, nodeAt l.tree l.path.dropLast = some m := by
          have h2 := nodeAt_append l.tree l.path.dropLast j
          rw [hpd, hpath] at h2
          cases hx : nodeAt l.tree l.path.dropLast with
          | none => rw [hx] at h2; simp at h2
          | some mm => exact ⟨mm, rfl⟩
        have hmn : m.children[j]? = some n := by
          have h2 := nodeAt_append l.tree l.path.dropLast j
          rw [hpd, hq, hpath] at h2
          exact h2.symm
        have hvp2 : nodeAt l2.tree l2.path = some m := by
          rw [hl2]
          show nodeAt (({ l with local_highlight := none } : Layer).leave_node).tree q = _
          rw [hlt, hqe]
          exact hq
        have hend2 : l2.at_node_end = true := by
          rw [hl2]
          exact hla
        have hdep2 : l2.depth = l.depth := by
          rw [hl2]
          exact hld
        have hwfm := wfTree_nodeAt l.tree l.path.dropLast m hwf hq
        have hinm : n.end_byte ≤ m.end_byte :=
          (wfChildren_get m.children m.start_byte m.end_byte j n
            (wfTree_parts m hwfm.1).2 hmn).2.2
        refine ⟨by rw [hl2]; exact hlt, by rw [hl2]; exact hlsh, by rw [hvp2]; rfl,
          hdep2, ?_⟩
        rw [curMeta_eval src.length l n hpath, curMeta_eval src.length l2 m hvp2]
        rw [hae, hend2, hdep2]
        simp only [if_true, ite_true]
        refine claimPairOk_of_key _ _ _ _ _ _ ?_
        rcases Nat.lt_or_ge (min src.length n.end_byte) (min src.length m.end_byte)
            with h | h
        · exact Or.inl h
        · exact Or.inr ⟨by omega, Or.inr ⟨rfl, Nat.le_refl _⟩⟩
      | none =>
        simp only [hgp] at heq
        rw [heq] at hadv
        exact absurd hadv (by simp)

/-- Ordering invariant across `next()` calls: no layers, or a single layer
over a well-formed in-bounds tree with an injection-free sheet, whose next
staged boundary does not precede the last emitted one (`mo`). -/
def OInv (s : HState) (mo : Option EvMeta) : Prop :=
  s.layers = [] ∨
  ∃ l, s.layers = [l] ∧ (nodeAt l.tree l.path).isSome = true ∧
    wfTree l.tree = true ∧ l.tree.end_byte ≤ s.source.length ∧
    (∀ k, (l.sheet k).injections = []) ∧
    (∀ a, mo = some a → claimPairOk a (curMeta s.source.length l))

theorem OInv_transport (s s2 : HState) (mo : Option EvMeta)
    (hl : s2.layers = s.layers) (hs : s2.source = s.source) (h : OInv s mo) :
    OInv s2 mo := by
  unfold OInv at h ⊢
  rw [hl, hs]
  exact h

theorem emit_source_src (s : HState) (x : Nat) :
    ((s.emit_source x).2).source = s.source := by
  unfold HState.emit_source
  dsimp only
  cases hd : decode_utf8 (sliceBytes s.source s.source_offset x) with
  | ok v => rfl
  | error p =>
    obtain ⟨vl, el⟩ := p
    cases el with
    | some l =>
      dsimp only
      split <;> rfl
    | none => rfl

theorem stagePhase_invisible (s1 : HState) (lh : Option Highlight) (props : Properties)
    (first1 : Layer) : stagePhase s1 false lh props first1 = .inr none := by
  unfold stagePhase
  rw [if_neg (by simp)]

/-- One loop iteration never re-orders the staged boundaries: an emitted
highlight boundary does not precede the previously emitted one, and the
head layer's next boundary does not precede whatever was just emitted. -/
theorem loopIter_ord (env : Env) (s : HState) (mo : Option EvMeta) (hinv : OInv s mo) :
    match loopIter env s with
    | .emit _ m s2 => ∃ mo2, OInv s2 mo2 ∧
        ((m = none ∧ mo2 = mo) ∨
         (∃ meta, m = some meta ∧ mo2 = some meta ∧
           ∀ a, mo = some a → claimPairOk a meta))
    | .finished _ => True
    | .fellThrough s2 => OInv s2 mo
    | .panicked _ _ => True
    | .advanced s2 => OInv s2 mo := by
  rcases hinv with hempty | ⟨first, hls, hvp, hwf, hroot, hnoinj, hmo⟩
  · have hli : loopIter env s = .fellThrough s := by
      unfold loopIter
      rw [hempty]
    simp only [hli]
    exact Or.inl hempty
  · obtain ⟨n, hpath⟩ : ∃ n, nodeAt first.tree first.path = some n := by
      cases hx : nodeAt first.tree first.path with
      | none => rw [hx] at hvp; simp at hvp
      | some m => exact ⟨m, rfl⟩
    have hinj : injPhase env s first = .ok (none, s) := injPhase_noinj env s first hnoinj
    have hstep : ∀ f1, first.advance s.source = some f1 →
        OInv { s with layers := [f1] } (some (curMeta s.source.length first)) := by
      intro f1 hadv
      obtain ⟨htree, hsheet, hvp2, hdep2, hord⟩ :=
        advance_ord first s.source n f1 hpath hwf hroot hadv
      refine Or.inr ⟨f1, rfl, hvp2, ?_, ?_, ?_, ?_⟩
      · rw [htree]
        exact hwf
      · rw [htree]
        exact hroot
      · intro k
        rw [hsheet]
        exact hnoinj k
      · intro a ha
        have haa : a = curMeta s.source.length first := Option.some.inj ha.symm
        rw [haa]
        exact hord
    have hstepmo : ∀ f1, first.advance s.source = some f1 →
        OInv { s with layers := [f1] } mo := by
      intro f1 hadv
      obtain ⟨htree, hsheet, hvp2, hdep2, hord⟩ :=
        advance_ord first s.source n f1 hpath hwf hroot hadv
      refine Or.inr ⟨f1, rfl, hvp2, ?_, ?_, ?_, ?_⟩
      · rw [htree]
        exact hwf
      · rw [htree]
        exact hroot
      · intro k
        rw [hsheet]
        exact hnoinj k
      · intro a ha
        exact claimPairOk_trans a (curMeta s.source.length first) _ (hmo a ha) hord
    have hremove : OInv s.remove_first_layer mo := by
      obtain ⟨hrl, hrs, -⟩ := remove_first_layer_sing s first hls
      refine Or.inl hrl
    simp only [loopIter, hls, hinj]
    cases hv : decide (first.depth ≥ s.max_opq_layer_depth) with
    | false =>
      simp only [stagePhase_invisible]
      cases hadv : first.advance s.source with
      | some f1 =>
        rw [advancePhase_some s first f1 hadv]
        exact hstepmo f1 hadv
      | none =>
        rw [advancePhase_none s first hadv]
        exact hremove
    | true =>
      simp only [stagePhase_visible]
      cases hcond : first.local_highlight
          <|> (first.sheet first.node.kind_id).highlight_nonlocal
          <|> (first.sheet first.node.kind_id).highlight with
      | none =>
        simp only [hcond]
        cases hadv : first.advance s.source with
        | some f1 =>
          rw [advancePhase_some s first f1 hadv]
          exact hstepmo f1 hadv
        | none =>
          rw [advancePhase_none s first hadv]
          exact hremove
      | some hl =>
        simp only [hcond]
        by_cases hso : s.source_offset < min s.source.length first.offset
        · rw [if_pos hso]
          cases hes : HState.emit_source s (min s.source.length first.offset) with
          | mk r s2 =>
            have h3 := congrArg Prod.snd hes
            dsimp only at h3
            have h4 := emit_source_layers s (min s.source.length first.offset)
            have h5 := emit_source_src s (min s.source.length first.offset)
            rw [h3] at h4 h5
            cases r with
            | some rr =>
              refine ⟨mo, ?_, Or.inl ⟨rfl, rfl⟩⟩
              refine OInv_transport s s2 mo h4 h5 ?_
              exact Or.inr ⟨first, hls, hvp, hwf, hroot, hnoinj, hmo⟩
            | none => trivial
        · rw [if_neg hso]
          cases hadv : first.advance s.source with
          | some f1 =>
            rw [advancePhase_some s first f1 hadv]
            refine ⟨some (curMeta s.source.length first), hstep f1 hadv,
              Or.inr ⟨curMeta s.source.length first, rfl, rfl, ?_⟩⟩
            intro a ha
            exact hmo a ha
          | none =>
            rw [advancePhase_none s first hadv]
            refine ⟨some (curMeta s.source.length first), ?_,
              Or.inr ⟨curMeta s.source.length first, rfl, rfl, ?_⟩⟩
            · rcases hremove with h2 | h2
              · exact Or.inl h2
              · obtain ⟨l2, hl2, -⟩ := h2
                obtain ⟨hrl, -, -⟩ := remove_first_layer_sing s first hls
                rw [hrl] at hl2
                exact absurd hl2 (by simp)
            · intro a ha
              exact hmo a ha

theorem nextLoop_ord (env : Env) (fuel : Nat) (s : HState) (mo : Option EvMeta)
    (hinv : OInv s mo) :
    match nextLoop env fuel s with
    | .emit _ m s2 => ∃ mo2, OInv s2 mo2 ∧
        ((m = none ∧ mo2 = mo) ∨
         (∃ meta, m = some meta ∧ mo2 = some meta ∧
           ∀ a, mo = some a → claimPairOk a meta))
    | .finished _ => True
    | .fellThrough s2 => OInv s2 mo
    | .panicked _ _ => True
    | .outOfFuel _ => True := by
  induction fuel generalizing s with
  | zero =>
    simp only [nextLoop]
  | succ fuel ih =>
    have hb := loopIter_ord env s mo hinv
    cases hli : loopIter env s with
    | emit r m s2 =>
      simp only [hli] at hb
      have he : nextLoop env (fuel + 1) s = .emit r m s2 := by
        unfold nextLoop
        rw [hli]
      simp only [he]
      exact hb
    | finished s2 =>
      have he : nextLoop env (fuel + 1) s = .finished s2 := by
        unfold nextLoop
        rw [hli]
      simp only [he]
    | fellThrough s2 =>
      simp only [hli] at hb
      have he : nextLoop env (fuel + 1) s = .fellThrough s2 := by
        unfold nextLoop
        rw [hli]
      simp only [he]
      exact hb
    | panicked msg s2 =>
      have he : nextLoop env (fuel + 1) s = .panicked msg s2 := by
        unfold nextLoop
        rw [hli]
      simp only [he]
    | advanced s2 =>
      simp only [hli] at hb
      have he : nextLoop env (fuel + 1) s = nextLoop env fuel s2 := by
        simp only [nextLoop]
        rw [hli]
      simp only [he]
      exact ih s2 hb

theorem nextH_ord (env : Env) (loopFuel : Nat) (s : HState) (mo : Option EvMeta)
    (hinv : OInv s mo) :
    ∀ r m s1, nextH env loopFuel s = .item r m s1 →
      ∃ mo2, OInv s1 mo2 ∧
        ((m = none ∧ mo2 = mo) ∨
         (∃ meta, m = some meta ∧ mo2 = some meta ∧
           ∀ a, mo = some a → claimPairOk a meta)) := by
  have hnac : ∀ s' : HState, OInv s' mo →
      ∀ r m s1, nextAfterCancel env loopFuel s' = .item r m s1 →
      ∃ mo2, OInv s1 mo2 ∧
        ((m = none ∧ mo2 = mo) ∨
         (∃ meta, m = some meta ∧ mo2 = some meta ∧
           ∀ a, mo = some a → claimPairOk a meta)) := by
    intro s' hinv' r m s1 h
    cases hu : s'.utf8_error_len with
    | some l =>
      have he : nextAfterCancel env loopFuel s' =
          .item (.ok (.source fffdBytes)) none
            { s' with utf8_error_len := none, source_offset := s'.source_offset + l } := by
        unfold nextAfterCancel
        rw [hu]
      rw [he] at h
      injection h with h1 h2 h3
      subst h2 h3
      exact ⟨mo, hinv', Or.inl ⟨rfl, rfl⟩⟩
    | none =>
      have he : nextAfterCancel env loopFuel s' =
          (match nextLoop env loopFuel s' with
           | .emit r m s2 => .item r m s2
           | .finished s2 => .finished s2
           | .outOfFuel s2 => .outOfFuel s2
           | .panicked msg s2 => .panicked msg s2
           | .fellThrough s2 =>
             if s2.source_offset < s2.source.length then
               match HState.emit_source s2 s2.source.length with
               | (some r, s3) => .item r none s3
               | (none, s3) => .finished s3
             else .finished s2) := by
        unfold nextAfterCancel
        rw [hu]
      rw [he] at h
      have hb := nextLoop_ord env loopFuel s' mo hinv'
      cases hnl : nextLoop env loopFuel s' with
      | emit r' m' s2 =>
        simp only [hnl] at hb h
        obtain ⟨mo2, hmo2, hstep⟩ := hb
        injection h with h1 h2 h3
        subst h2 h3
        exact ⟨mo2, hmo2, hstep⟩
      | finished s2 =>
        simp only [hnl] at h
        exact absurd h (by simp)
      | outOfFuel s2 =>
        simp only [hnl] at h
        exact absurd h (by simp)
      | panicked msg s2 =>
        simp only [hnl] at h
        exact absurd h (by simp)
      | fellThrough s2 =>
        simp only [hnl] at hb h
        by_cases hlt : s2.source_offset < s2.source.length
        · rw [if_pos hlt] at h
          cases hes : HState.emit_source s2 s2.source.length with
          | mk rr s3 =>
            simp only [hes] at h
            have h3 := congrArg Prod.snd hes
            dsimp only at h3
            have h4 := emit_source_layers s2 s2.source.length
            have h5 := emit_source_src s2 s2.source.length
            rw [h3] at h4 h5
            cases rr with
            | some rrr =>
              injection h with h1 h2 hx
              subst h2 hx
              exact ⟨mo, OInv_transport s2 s3 mo h4 h5 hb, Or.inl ⟨rfl, rfl⟩⟩
            | none =>
              exact absurd h (by simp)
        · rw [if_neg hlt] at h
          exact absurd h (by simp)
  intro r m s1 h
  cases hcf : s.cancellation_flag with
  | none =>
    have he : nextH env loopFuel s = nextAfterCancel env loopFuel s := by
      unfold nextH
      rw [hcf]
    rw [he] at h
    exact hnac s hinv r m s1 h
  | some v =>
    by_cases hop : s.operation_count + 1 ≥ CANCELLATION_CHECK_INTERVAL
    · by_cases hv : v ≠ 0
      · have he : nextH env loopFuel s =
            .item (.error .Cancelled) none { s with operation_count := 0 } := by
          unfold nextH
          simp only [hcf]
          rw [if_pos hop, if_pos hv]
        rw [he] at h
        injection h with h1 h2 h3
        subst h2 h3
        refine ⟨mo, ?_, Or.inl ⟨rfl, rfl⟩⟩
        exact OInv_transport s { s with operation_count := 0 } mo rfl rfl hinv
      · have he : nextH env loopFuel s =
            nextAfterCancel env loopFuel { s with operation_count := 0 } := by
          unfold nextH
          simp only [hcf]
          rw [if_pos hop, if_neg hv]
        rw [he] at h
        exact hnac { s with operation_count := 0 }
          (OInv_transport s { s with operation_count := 0 } mo rfl rfl hinv) r m s1 h
    · have he : nextH env loopFuel s =
          nextAfterCancel env loopFuel { s with operation_count := s.operation_count + 1 } := by
        unfold nextH
        simp only [hcf]
        rw [if_neg hop]
      rw [he] at h
      exact hnac { s with operation_count := s.operation_count + 1 }
        (OInv_transport s { s with operation_count := s.operation_count + 1 } mo rfl rfl hinv)
        r m s1 h

theorem highlightMetas_cons (x : HighlightEvent × Option EvMeta)
    (l : List (HighlightEvent × Option EvMeta)) :
    highlightMetas (x :: l) =
      (match x.2 with
       | some m => m :: highlightMetas l
       | none => highlightMetas l) := by
  unfold highlightMetas
  rw [List.filterMap_cons]
  cases x.2 <;> rfl

/-- A run's highlight bookkeeping is totally ordered by the claimed
relation. -/
theorem runH_ord (env : Env) (loopFuel : Nat) :
    ∀ (n : Nat) (s : HState) (mo : Option EvMeta), OInv s mo →
    List.Pairwise claimPairOk (highlightMetas (runH env loopFuel n s).1) ∧
    (∀ a, mo = some a → ∀ b ∈ highlightMetas (runH env loopFuel n s).1, claimPairOk a b) := by
  intro n
  induction n with
  | zero =>
    intro s mo hinv
    constructor
    · simp [runH, highlightMetas]
    · intro a ha b hb
      simp [runH, highlightMetas] at hb
  | succ n ih =>
    intro s mo hinv
    cases hnx : nextH env loopFuel s with
    | item r m s1 =>
      obtain ⟨mo2, hmo2, hstep⟩ := nextH_ord env loopFuel s mo hinv r m s1 hnx
      cases r with
      | ok ev =>
        have hrun : runH env loopFuel (n + 1) s =
            ((ev, m) :: (runH env loopFuel n s1).1, (runH env loopFuel n s1).2) := by
          simp only [runH]
          rw [hnx]
        rw [hrun]
        dsimp only
        rw [highlightMetas_cons]
        dsimp only
        obtain ⟨hih1, hih2⟩ := ih s1 mo2 hmo2
        rcases hstep with ⟨hm, hmo2e⟩ | ⟨meta, hm, hmo2e, hfwd⟩
        · subst hm hmo2e
          exact ⟨hih1, hih2⟩
        · subst hm hmo2e
          constructor
          · rw [List.pairwise_cons]
            refine ⟨?_, hih1⟩
            intro b hb
            exact hih2 meta rfl b hb
          · intro a ha b hb
            simp only [List.mem_cons] at hb
            rcases hb with hb | hb
            · subst hb
              exact hfwd a ha
            · exact claimPairOk_trans a meta b (hfwd a ha) (hih2 meta rfl b hb)
      | error e =>
        have hrun : runH env loopFuel (n + 1) s = ([], .errored e) := by
          simp only [runH]
          rw [hnx]
        rw [hrun]
        constructor
        · simp [highlightMetas]
        · intro a ha b hb
          simp [highlightMetas] at hb
    | finished s1 =>
      have hrun : runH env loopFuel (n + 1) s = ([], .done) := by
        simp only [runH]
        rw [hnx]
      rw [hrun]
      constructor
      · simp [highlightMetas]
      · intro a ha b hb
        simp [highlightMetas] at hb
    | panicked msg s1 =>
      have hrun : runH env loopFuel (n + 1) s = ([], .panicked msg) := by
        simp only [runH]
        rw [hnx]
      rw [hrun]
      constructor
      · simp [highlightMetas]
      · intro a ha b hb
        simp [highlightMetas] at hb
    | outOfFuel s1 =>
      have hrun : runH env loopFuel (n + 1) s = ([], .fuelOut) := by
        simp only [runH]
        rw [hnx]
      rw [hrun]
      constructor
      · simp [highlightMetas]
      · intro a ha b hb
        simp [highlightMetas] at hb

theorem OInv_init (src : List Nat) (tree : STree) (sheet : Nat → Properties)
    (flag : Option Nat)
    (hwf : wfTree tree = true) (hroot : tree.end_byte ≤ src.length)
    (hnoinj : ∀ k, (sheet k).injections = []) :
    OInv (HState.init src tree sheet flag) none := by
  refine Or.inr ⟨Layer.new tree sheet
    [{ start_byte := 0, start_point := ⟨0, 0⟩,
       end_byte := USIZE_MAX, end_point := ⟨USIZE_MAX, USIZE_MAX⟩ }] 0 true,
    rfl, rfl, hwf, hroot, hnoinj, ?_⟩
  intro a ha
  exact absurd ha (by simp)

/-- C2 (amended): over an ASCII source, when the property sheets involve no
injections and every `local_reference` kind also carries a static highlight
(`highlight_nonlocal` or `highlight`), a run of the iterator that completes
without error emits a well-matched sequence of `HighlightStart` and
`HighlightEnd` events: the running depth never goes below zero and ends at
zero. -/
theorem c2_balance_amended (env : Env) (src : List Nat) (tree : STree)
    (sheet : Nat → Properties) (flag : Option Nat) (loopFuel n : Nat)
    (hascii : ∀ b ∈ src, b < 0x80)
    (hnoinj : ∀ k, (sheet k).injections = [])
    (href : ∀ k, (sheet k).local_reference = true →
      ((sheet k).highlight_nonlocal <|> (sheet k).highlight).isSome = true)
    (hdone : (runH env loopFuel n (HState.init src tree sheet flag)).2 = RunEnd.done) :
    balancedFromB 0 (runEvents env loopFuel n (HState.init src tree sheet flag)) = true := by
  have hinit := SInv_init src tree sheet flag hascii hnoinj href
  unfold runEvents
  exact runH_bal env loopFuel n (HState.init src tree sheet flag) 0 hinit hdone

/-- Witness for the amended C2 theorem: a two-child tree over the source
`"ab"` whose kind 1 is highlighted `keyword`; the hypotheses hold and the
run's events are balanced. -/
theorem c2_balance_amended_witness :
    balancedFromB 0 (runEvents Env.nil 60 40 (HState.init [0x61, 0x62]
      (.mk 0 ⟨0, 0⟩ 2 ⟨0, 2⟩ 0 [.mk 0 ⟨0, 0⟩ 1 ⟨0, 1⟩ 1 [], .mk 1 ⟨0, 1⟩ 2 ⟨0, 2⟩ 2 []])
      (fun k => if k = 1 then ⟨some .keyword, none, [], none, false, false⟩
        else Properties.empty)
      none)) = true :=
  c2_balance_amended Env.nil [0x61, 0x62]
    (.mk 0 ⟨0, 0⟩ 2 ⟨0, 2⟩ 0 [.mk 0 ⟨0, 0⟩ 1 ⟨0, 1⟩ 1 [], .mk 1 ⟨0, 1⟩ 2 ⟨0, 2⟩ 2 []])
    (fun k => if k = 1 then ⟨some .keyword, none, [], none, false, false⟩
      else Properties.empty)
    none 60 40 (by decide)
    (fun k => by by_cases h : k = 1 <;> simp [h, Properties.empty])
    (fun k h => by by_cases hk : k = 1 <;> simp [hk, Properties.empty] at h)
    (by decide)

/-- C3 (amended): between any two calls of `next()` the layer list is
sorted by `Layer::cmp` (offset, then ends-before-starts, then depth), for
every environment; and, over well-formed trees whose nodes are non-empty
and lie within the source — excluding zero-width nodes, for which the
counterexample shows an equal-offset start before an end — the highlight
events of an injection-free run are pairwise ordered: offsets ascending,
ends before starts at equal offsets, then depth non-decreasing. -/
theorem c3_ordering_amended :
    (∀ (env : Env) (loopFuel : Nat) (s : HState), List.Pairwise layerLe s.layers →
      (match nextH env loopFuel s with
       | .item _ _ s1 => List.Pairwise layerLe s1.layers
       | .finished s1 => List.Pairwise layerLe s1.layers
       | .panicked _ s1 => List.Pairwise layerLe s1.layers
       | .outOfFuel s1 => List.Pairwise layerLe s1.layers)) ∧
    (∀ (env : Env) (src : List Nat) (tree : STree) (sheet : Nat → Properties)
       (flag : Option Nat) (loopFuel n : Nat),
      wfTree tree = true → tree.end_byte ≤ src.length →
      (∀ k, (sheet k).injections = []) →
      List.Pairwise claimPairOk
        (highlightMetas (runH env loopFuel n (HState.init src tree sheet flag)).1)) :=
  ⟨fun env loopFuel s h => nextH_sorted env loopFuel s h,
   fun env src tree sheet flag loopFuel n hwf hroot hnoinj =>
     (runH_ord env loopFuel n (HState.init src tree sheet flag) none
       (OInv_init src tree sheet flag hwf hroot hnoinj)).1⟩

/-- Witness for the amended C3 theorem: the sortedness invariant holds
across a `next()` call on the definition/reference example, and the
highlight bookkeeping of the C2 witness run is pairwise ordered. -/
theorem c3_ordering_amended_witness :
    (match nextH Env.nil 50 defRefState with
     | .item _ _ s1 => List.Pairwise layerLe s1.layers
     | .finished s1 => List.Pairwise layerLe s1.layers
     | .panicked _ s1 => List.Pairwise layerLe s1.layers
     | .outOfFuel s1 => List.Pairwise layerLe s1.layers) ∧
    List.Pairwise claimPairOk
      (highlightMetas (runH Env.nil 60 40 (HState.init [0x61, 0x62]
        (.mk 0 ⟨0, 0⟩ 2 ⟨0, 2⟩ 0 [.mk 0 ⟨0, 0⟩ 1 ⟨0, 1⟩ 1 [], .mk 1 ⟨0, 1⟩ 2 ⟨0, 2⟩ 2 []])
        (fun k => if k = 1 then ⟨some .keyword, none, [], none, false, false⟩
          else Properties.empty)
        none)).1) :=
  ⟨c3_ordering_amended.1 Env.nil 50 defRefState (by decide),
   c3_ordering_amended.2 Env.nil [0x61, 0x62]
     (.mk 0 ⟨0, 0⟩ 2 ⟨0, 2⟩ 0 [.mk 0 ⟨0, 0⟩ 1 ⟨0, 1⟩ 1 [], .mk 1 ⟨0, 1⟩ 2 ⟨0, 2⟩ 2 []])
     (fun k => if k = 1 then ⟨some .keyword, none, [], none, false, false⟩
       else Properties.empty)
     none 60 40 (by decide) (by decide)
     (fun k => by by_cases h : k = 1 <;> simp [h, Properties.empty])⟩

/- ## C4: laws of intersect_ranges -/

/-- Two byte ranges in document order and disjoint. -/
def rngDisj (a b : Range) : Prop := a.end_byte ≤ b.start_byte

/-- A sorted, pairwise-disjoint list of non-empty ranges. -/
def sortedRanges (l : List Range) : Prop :=
  (∀ r ∈ l, r.start_byte < r.end_byte) ∧ List.Pairwise rngDisj l

/-- A byte position lies in one of the ranges. -/
def covers (x : Nat) (l : List Range) : Prop :=
  ∃ r ∈ l, r.start_byte ≤ x ∧ x < r.end_byte

theorem covers_nil (x : Nat) : ¬ covers x [] := by
  simp [covers]

theorem covers_cons (x : Nat) (r : Range) (l : List Range) :
    covers x (r :: l) ↔ (r.start_byte ≤ x ∧ x < r.end_byte) ∨ covers x l := by
  unfold covers
  simp only [List.mem_cons, or_and_right, exists_or, exists_eq_left]

theorem covers_append (x : Nat) (l1 l2 : List Range) :
    covers x (l1 ++ l2) ↔ covers x l1 ∨ covers x l2 := by
  unfold covers
  simp only [List.mem_append, or_and_right, exists_or]

theorem sortedRanges_tail (p : Range) (l : List Range) (h : sortedRanges (p :: l)) :
    sortedRanges l := by
  obtain ⟨h1, h2⟩ := h
  exact ⟨fun r hr => h1 r (by simp [hr]), (List.pairwise_cons.mp h2).2⟩

theorem covers_rest_lb (p : Range) (rest : List Range)
    (hdj : ∀ q ∈ rest, p.end_byte ≤ q.start_byte) (x : Nat) (h : covers x rest) :
    p.end_byte ≤ x := by
  obtain ⟨q, hq, hq1, hq2⟩ := h
  exact Nat.le_trans (hdj q hq) hq1

/-- The inner `while parent_range.start_byte <= range.end_byte` loop:
everything it pushes is a fresh non-empty sub-range of the current
candidate `range` and of one of the remaining parents, pushed in document
order; together the pushes cover exactly the candidate's intersection with
the remaining parents; and the loop leaves a suffix of the parents whose
coverage beyond the candidate is what it was (or no parents at all, every
parent then ending inside the candidate). -/
theorem intersectWhile_spec : ∀ (rest : List Range) (parent range : Range)
    (acc : List Range),
    sortedRanges (parent :: rest) →
    range.start_byte ≤ range.end_byte →
    ∃ Δ, (intersectWhile rest parent range acc).1 = acc ++ Δ ∧
      (∀ r ∈ Δ, r.start_byte < r.end_byte ∧ range.start_byte ≤ r.start_byte ∧
        r.end_byte ≤ range.end_byte ∧
        ∃ p ∈ parent :: rest, p.start_byte ≤ r.start_byte ∧ r.end_byte ≤ p.end_byte) ∧
      List.Pairwise rngDisj Δ ∧
      (∀ x, covers x Δ ↔
        (range.start_byte ≤ x ∧ x < range.end_byte ∧ covers x (parent :: rest))) ∧
      (match (intersectWhile rest parent range acc).2 with
       | some (parent', rest') =>
         (∃ pre, parent :: rest = pre ++ parent' :: rest') ∧
         (∀ x, range.end_byte ≤ x →
           (covers x (parent :: rest) ↔ covers x (parent' :: rest')))
       | none => ∀ x, range.end_byte ≤ x → ¬ covers x (parent :: rest)) := by
  intro rest
  induction rest with
  | nil =>
    intro parent range acc hs hr
    have hpne : parent.start_byte < parent.end_byte := hs.1 parent (by simp)
    unfold intersectWhile
    dsimp only
    by_cases h1 : parent.start_byte ≤ range.end_byte
    · rw [if_pos h1]
      by_cases h2 : parent.end_byte > range.start_byte
      · rw [if_pos h2]
        set r1 : Range := (if range.start_byte < parent.start_byte then { range with start_byte := parent.start_byte, start_point := parent.start_point } else range) with hr1
        have hr1s : r1.start_byte = max range.start_byte parent.start_byte := by
          rw [hr1]
          split
          · dsimp only
            omega
          · omega
        have hr1e : r1.end_byte = range.end_byte := by
          rw [hr1]
          split <;> rfl
        by_cases h3 : parent.end_byte < r1.end_byte
        · rw [if_pos h3]
          by_cases h4 : r1.start_byte < parent.end_byte
          · rw [if_pos h4]
            dsimp only
            refine ⟨[(⟨r1.start_byte, r1.start_point, parent.end_byte, parent.end_point⟩ : Range)],
              rfl, ?_, by simp, ?_, ?_⟩
            · intro r hrr
              rw [List.mem_singleton] at hrr
              subst hrr
              exact ⟨h4, by dsimp only; omega, by dsimp only; omega,
                parent, by simp, by dsimp only; omega, by dsimp only; omega⟩
            · intro x
              rw [covers_cons]
              simp only [covers_nil x, or_false, iff_false, false_or]
              rw [covers_cons]
              simp only [covers_nil x, or_false]
              omega
            · intro x hx
              rw [covers_cons]
              simp only [covers_nil x, or_false]
              omega
          · rw [if_neg h4]
            dsimp only
            refine ⟨[], by simp, by simp, by simp, ?_, ?_⟩
            · intro x
              simp only [covers_nil x, false_iff]
              rw [covers_cons]
              simp only [covers_nil x, or_false]
              omega
            · intro x hx
              rw [covers_cons]
              simp only [covers_nil x, or_false]
              omega
        · rw [if_neg h3]
          by_cases h4 : r1.start_byte < r1.end_byte
          · rw [if_pos h4]
            refine ⟨[r1], rfl, ?_, by simp, ?_, ?_⟩
            · intro r hrr
              rw [List.mem_singleton] at hrr
              subst hrr
              exact ⟨h4, by omega, by omega, parent, by simp, by omega, by omega⟩
            · intro x
              rw [covers_cons]
              simp only [covers_nil x, or_false]
              rw [covers_cons]
              simp only [covers_nil x, or_false]
              omega
            · exact ⟨⟨[], rfl⟩, fun x hx => Iff.rfl⟩
          · rw [if_neg h4]
            refine ⟨[], by simp, by simp, by simp, ?_, ?_⟩
            · intro x
              simp only [covers_nil x, false_iff]
              rw [covers_cons]
              simp only [covers_nil x, or_false]
              omega
            · exact ⟨⟨[], rfl⟩, fun x hx => Iff.rfl⟩
      · rw [if_neg h2]
        dsimp only
        refine ⟨[], by simp, by simp, by simp, ?_, ?_⟩
        · intro x
          simp only [covers_nil x, false_iff]
          rw [covers_cons]
          simp only [covers_nil x, or_false]
          omega
        · intro x hx
          rw [covers_cons]
          simp only [covers_nil x, or_false]
          omega
    · rw [if_neg h1]
      refine ⟨[], by simp, by simp, by simp, ?_, ?_⟩
      · intro x
        simp only [covers_nil x, false_iff]
        rw [covers_cons]
        simp only [covers_nil x, or_false]
        omega
      · exact ⟨⟨[], rfl⟩, fun x hx => Iff.rfl⟩
  | cons nextR rest2 ih =>
    intro parent range acc hs hr
    have hpne : parent.start_byte < parent.end_byte := hs.1 parent (by simp)
    have hdj : ∀ q ∈ nextR :: rest2, parent.end_byte ≤ q.start_byte :=
      (List.pairwise_cons.mp hs.2).1
    have hstail : sortedRanges (nextR :: rest2) := sortedRanges_tail parent _ hs
    unfold intersectWhile
    dsimp only
    by_cases h1 : parent.start_byte ≤ range.end_byte
    · rw [if_pos h1]
      by_cases h2 : parent.end_byte > range.start_byte
      · rw [if_pos h2]
        set r1 : Range := (if range.start_byte < parent.start_byte then { range with start_byte := parent.start_byte, start_point := parent.start_point } else range) with hr1
        have hr1s : r1.start_byte = max range.start_byte parent.start_byte := by
          rw [hr1]
          split
          · dsimp only
            omega
          · omega
        have hr1e : r1.end_byte = range.end_byte := by
          rw [hr1]
          split <;> rfl
        by_cases h3 : parent.end_byte < r1.end_byte
        · rw [if_pos h3]
          by_cases h4 : r1.start_byte < parent.end_byte
          · rw [if_pos h4]
            have hr2 : (⟨parent.end_byte, parent.end_point, r1.end_byte, r1.end_point⟩ : Range).start_byte ≤
                (⟨parent.end_byte, parent.end_point, r1.end_byte, r1.end_point⟩ : Range).end_byte := by
              dsimp only
              omega
            obtain ⟨Δ, heq, hper, hpw, hcov, hcont⟩ := ih nextR
              (⟨parent.end_byte, parent.end_point, r1.end_byte, r1.end_point⟩ : Range)
              (acc ++ [(⟨r1.start_byte, r1.start_point, parent.end_byte, parent.end_point⟩ : Range)])
              hstail hr2
            refine ⟨(⟨r1.start_byte, r1.start_point, parent.end_byte, parent.end_point⟩ : Range) :: Δ,
              by rw [heq]; simp, ?_, ?_, ?_, ?_⟩
            · intro r hrr
              rw [List.mem_cons] at hrr
              rcases hrr with hrr | hrr
              · subst hrr
                exact ⟨h4, by dsimp only; omega, by dsimp only; omega,
                  parent, by simp, by dsimp only; omega, by dsimp only; omega⟩
              · obtain ⟨hne2, hlo2, hhi2, p, hp, hp1, hp2⟩ := hper r hrr
                dsimp only at hlo2 hhi2
                exact ⟨hne2, by omega, by omega, p, by simp [hp], hp1, hp2⟩
            · rw [List.pairwise_cons]
              refine ⟨?_, hpw⟩
              intro r hrr
              have h5 := (hper r hrr).2.1
              dsimp only at h5
              show _ ≤ _
              dsimp only
              omega
            · intro x
              rw [covers_cons, hcov x]
              dsimp only
              rw [covers_cons x parent (nextR :: rest2)]
              constructor
              · rintro (⟨ha, hb⟩ | ⟨ha, hb, hc⟩)
                · exact ⟨by omega, by omega, Or.inl ⟨by omega, by omega⟩⟩
                · exact ⟨by omega, by omega, Or.inr hc⟩
              · rintro ⟨ha, hb, hc | hc⟩
                · by_cases hx4 : x < parent.end_byte
                  · exact Or.inl ⟨by omega, by omega⟩
                  · omega
                · have := covers_rest_lb parent _ hdj x hc
                  exact Or.inr ⟨by omega, by omega, hc⟩
            · have hbe : (⟨parent.end_byte, parent.end_point, r1.end_byte, r1.end_point⟩ : Range).end_byte
                  = range.end_byte := by
                dsimp only
                omega
              cases hc2 : (intersectWhile rest2 nextR
                  (⟨parent.end_byte, parent.end_point, r1.end_byte, r1.end_point⟩ : Range)
                  (acc ++ [(⟨r1.start_byte, r1.start_point, parent.end_byte, parent.end_point⟩ : Range)])).2 with
              | some pr =>
                obtain ⟨p2, r2⟩ := pr
                rw [hc2] at hcont
                obtain ⟨⟨pre, hpre⟩, hcv⟩ := hcont
                refine ⟨⟨parent :: pre, by rw [hpre]; simp⟩, ?_⟩
                intro x hx
                rw [covers_cons]
                rw [hbe] at hcv
                rw [← hcv x hx]
                constructor
                · rintro (⟨ha, hb⟩ | hc)
                  · omega
                  · exact hc
                · intro hc
                  exact Or.inr hc
              | none =>
                rw [hc2] at hcont
                intro x hx
                rw [hbe] at hcont
                rw [covers_cons]
                rintro (⟨ha, hb⟩ | hc)
                · omega
                · exact hcont x hx hc
          · exfalso
            omega
        · rw [if_neg h3]
          by_cases h4 : r1.start_byte < r1.end_byte
          · rw [if_pos h4]
            refine ⟨[r1], rfl, ?_, by simp, ?_, ?_⟩
            · intro r hrr
              rw [List.mem_singleton] at hrr
              subst hrr
              exact ⟨h4, by omega, by omega, parent, by simp, by omega, by omega⟩
            · intro x
              rw [covers_cons]
              simp only [covers_nil x, or_false]
              rw [covers_cons]
              constructor
              · intro hx
                exact ⟨by omega, by omega, Or.inl ⟨by omega, by omega⟩⟩
              · rintro ⟨ha, hb, hc | hc⟩
                · omega
                · have := covers_rest_lb parent _ hdj x hc
                  omega
            · exact ⟨⟨[], rfl⟩, fun x hx => Iff.rfl⟩
          · rw [if_neg h4]
            refine ⟨[], by simp, by simp, by simp, ?_, ?_⟩
            · intro x
              simp only [covers_nil x, false_iff]
              rw [covers_cons]
              rintro ⟨ha, hb, hc | hc⟩
              · omega
              · have := covers_rest_lb parent _ hdj x hc
                omega
            · exact ⟨⟨[], rfl⟩, fun x hx => Iff.rfl⟩
      · rw [if_neg h2]
        obtain ⟨Δ, heq, hper, hpw, hcov, hcont⟩ := ih nextR range acc hstail hr
        refine ⟨Δ, heq, ?_, hpw, ?_, ?_⟩
        · intro r hrr
          obtain ⟨hne2, hlo2, hhi2, p, hp, hp1, hp2⟩ := hper r hrr
          exact ⟨hne2, hlo2, hhi2, p, by simp [hp], hp1, hp2⟩
        · intro x
          rw [hcov x, covers_cons x parent (nextR :: rest2)]
          constructor
          · rintro ⟨ha, hb, hc⟩
            exact ⟨ha, hb, Or.inr hc⟩
          · rintro ⟨ha, hb, hc | hc⟩
            · omega
            · exact ⟨ha, hb, hc⟩
        · cases hc2 : (intersectWhile rest2 nextR range acc).2 with
          | some pr =>
            obtain ⟨p2, r2⟩ := pr
            rw [hc2] at hcont
            obtain ⟨⟨pre, hpre⟩, hcv⟩ := hcont
            refine ⟨⟨parent :: pre, by rw [hpre]; simp⟩, ?_⟩
            intro x hx
            rw [covers_cons, ← hcv x hx]
            constructor
            · rintro (⟨ha, hb⟩ | hc)
              · omega
              · exact hc
            · intro hc
              exact Or.inr hc
          | none =>
            rw [hc2] at hcont
            intro x hx
            rw [covers_cons]
            rintro (⟨ha, hb⟩ | hc)
            · omega
            · exact hcont x hx hc
    · rw [if_neg h1]
      refine ⟨[], by simp, by simp, by simp, ?_, ?_⟩
      · intro x
        simp only [covers_nil x, false_iff]
        rw [covers_cons]
        rintro ⟨ha, hb, hc | hc⟩
        · omega
        · have := covers_rest_lb parent _ hdj x hc
          omega
      · exact ⟨⟨[], rfl⟩, fun x hx => Iff.rfl⟩

/-- The candidate gaps the excluded-ranges loop sweeps: between `preceding`
and the first excluded range, then between consecutive excluded ranges. -/
def gapsFrom (preceding : Range) : List Range → List Range
  | [] => []
  | e :: more =>
    (⟨preceding.end_byte, preceding.end_point, e.start_byte, e.start_point⟩ : Range) ::
      gapsFrom e more

/-- The chaining condition on excluded ranges: each starts after the
previous one ends, and none is reversed. -/
def exclChain : Range → List Range → Prop
  | _, [] => True
  | p, e :: more => p.end_byte ≤ e.start_byte ∧ e.start_byte ≤ e.end_byte ∧ exclChain e more

/-- The position after which the excluded-ranges loop no longer inspects
parents: the start of the last excluded range. -/
def gapsBound : List Range → Nat
  | [] => 0
  | [e] => e.start_byte
  | _ :: e2 :: more => gapsBound (e2 :: more)

theorem gapsFrom_facts : ∀ (excls : List Range) (p : Range), exclChain p excls →
    ∀ g ∈ gapsFrom p excls, p.end_byte ≤ g.start_byte ∧ g.start_byte ≤ g.end_byte := by
  intro excls
  induction excls with
  | nil =>
    intro p h g hg
    simp [gapsFrom] at hg
  | cons e more ih =>
    intro p h g hg
    obtain ⟨h1, h2, h3⟩ := h
    unfold gapsFrom at hg
    rw [List.mem_cons] at hg
    rcases hg with hg | hg
    · subst hg
      exact ⟨Nat.le_refl _, h1⟩
    · obtain ⟨hh1, hh2⟩ := ih e h3 g hg
      exact ⟨by omega, hh2⟩

theorem gapsBound_ge : ∀ (excls : List Range) (p : Range), exclChain p excls →
    excls ≠ [] → p.end_byte ≤ gapsBound excls := by
  intro excls
  induction excls with
  | nil =>
    intro p h hne
    exact absurd rfl hne
  | cons e more ih =>
    intro p h hne
    obtain ⟨h1, h2, h3⟩ := h
    cases more with
    | nil =>
      show p.end_byte ≤ e.start_byte
      omega
    | cons e2 more2 =>
      have := ih e h3 (by simp)
      show p.end_byte ≤ gapsBound (e2 :: more2)
      omega

theorem sortedRanges_suffix (pre l : List Range) (h : sortedRanges (pre ++ l)) :
    sortedRanges l :=
  ⟨fun r hr => h.1 r (by simp [hr]), (List.pairwise_append.mp h.2).2.1⟩

theorem covers_head_lb (p : Range) (rest : List Range)
    (hdj : ∀ q ∈ rest, p.end_byte ≤ q.start_byte) (x : Nat)
    (h : covers x (p :: rest)) (hpne : p.start_byte ≤ p.end_byte) :
    p.start_byte ≤ x := by
  rcases (covers_cons x p rest).mp h with ⟨h1, h2⟩ | hc
  · exact h1
  · have := covers_rest_lb p rest hdj x hc
    omega

/-- The `for excluded_range in …` loop: what it pushes is exactly the
intersection of the remaining parents with the gaps between excluded
ranges, pushed as fresh non-empty ordered ranges each inside one gap and
one parent; it leaves a suffix of the parents untouched past the last gap,
or no parents at all. -/
theorem intersectExcl_spec : ∀ (excls : List Range) (preceding parent : Range)
    (rest acc : List Range),
    sortedRanges (parent :: rest) →
    exclChain preceding excls →
    ∃ Δ, (intersectExcl excls preceding parent rest acc).1 = acc ++ Δ ∧
      (∀ r ∈ Δ, r.start_byte < r.end_byte ∧
        (∃ g ∈ gapsFrom preceding excls,
          g.start_byte ≤ r.start_byte ∧ r.end_byte ≤ g.end_byte) ∧
        ∃ p ∈ parent :: rest, p.start_byte ≤ r.start_byte ∧ r.end_byte ≤ p.end_byte) ∧
      List.Pairwise rngDisj Δ ∧
      (∀ x, covers x Δ ↔
        (covers x (gapsFrom preceding excls) ∧ covers x (parent :: rest))) ∧
      (match (intersectExcl excls preceding parent rest acc).2 with
       | some (parent', rest') =>
         (∃ pre, parent :: rest = pre ++ parent' :: rest') ∧
         (∀ x, gapsBound excls ≤ x →
           (covers x (parent :: rest) ↔ covers x (parent' :: rest')))
       | none => ∀ x, gapsBound excls ≤ x → ¬ covers x (parent :: rest)) := by
  intro excls
  induction excls with
  | nil =>
    intro preceding parent rest acc hs hch
    refine ⟨[], by simp [intersectExcl], by simp, by simp, ?_, ?_⟩
    · intro x
      simp only [covers_nil x, false_iff, gapsFrom]
      rintro ⟨hc, -⟩
      exact hc
    · have hred : (intersectExcl [] preceding parent rest acc).2 = some (parent, rest) := rfl
      rw [hred]
      exact ⟨⟨[], rfl⟩, fun x hx => Iff.rfl⟩
  | cons e more ih =>
    intro preceding parent rest acc hs hch
    obtain ⟨hc1, he, hch2⟩ := hch
    have hpne : parent.start_byte < parent.end_byte := hs.1 parent (by simp)
    have hdjp : ∀ q ∈ rest, parent.end_byte ≤ q.start_byte :=
      (List.pairwise_cons.mp hs.2).1
    unfold intersectExcl
    dsimp only
    by_cases hskip : (⟨preceding.end_byte, preceding.end_point, e.start_byte,
        e.start_point⟩ : Range).end_byte < parent.start_byte
    · rw [if_pos hskip]
      dsimp only at hskip
      obtain ⟨Δ, heq, hper, hpw, hcov, hcont⟩ := ih e parent rest acc hs hch2
      refine ⟨Δ, heq, ?_, hpw, ?_, ?_⟩
      · intro r hrr
        obtain ⟨hne2, ⟨g, hg, hg1, hg2⟩, p, hp, hp1, hp2⟩ := hper r hrr
        exact ⟨hne2, ⟨g, by simp [gapsFrom, hg], hg1, hg2⟩, p, hp, hp1, hp2⟩
      · intro x
        rw [hcov x]
        have hgap : gapsFrom preceding (e :: more) =
            (⟨preceding.end_byte, preceding.end_point, e.start_byte,
              e.start_point⟩ : Range) :: gapsFrom e more := rfl
        rw [hgap, covers_cons x (⟨preceding.end_byte, preceding.end_point, e.start_byte,
          e.start_point⟩ : Range) (gapsFrom e more)]
        constructor
        · rintro ⟨hg, hp⟩
          exact ⟨Or.inr hg, hp⟩
        · rintro ⟨hg | hg, hp⟩
          · have := covers_head_lb parent rest hdjp x hp (by omega)
            dsimp only at hg
            omega
          · exact ⟨hg, hp⟩
      · cases hc2 : (intersectExcl more e parent rest acc).2 with
        | some pr =>
          obtain ⟨p2, r2⟩ := pr
          rw [hc2] at hcont
          obtain ⟨⟨pre, hpre⟩, hcv⟩ := hcont
          refine ⟨⟨pre, hpre⟩, ?_⟩
          intro x hx
          refine hcv x ?_
          cases more with
          | nil => simp [gapsBound] at hx ⊢
          | cons e2 more2 =>
            show gapsBound (e2 :: more2) ≤ x
            exact le_trans (le_refl _) hx
        | none =>
          rw [hc2] at hcont
          intro x hx
          refine hcont x ?_
          cases more with
          | nil => simp [gapsBound] at hx ⊢
          | cons e2 more2 =>
            show gapsBound (e2 :: more2) ≤ x
            exact le_trans (le_refl _) hx
    · rw [if_neg hskip]
      dsimp only at hskip
      have hcw : (⟨preceding.end_byte, preceding.end_point, e.start_byte,
          e.start_point⟩ : Range).start_byte ≤
          (⟨preceding.end_byte, preceding.end_point, e.start_byte,
            e.start_point⟩ : Range).end_byte := by
        dsimp only
        omega
      obtain ⟨Δ1, heq1, hper1, hpw1, hcov1, hcont1⟩ := intersectWhile_spec rest parent
        (⟨preceding.end_byte, preceding.end_point, e.start_byte, e.start_point⟩ : Range)
        acc hs hcw
      cases hw2 : intersectWhile rest parent
          (⟨preceding.end_byte, preceding.end_point, e.start_byte, e.start_point⟩ : Range)
          acc with
      | mk acc1 cont1 =>
        have heq1' : acc1 = acc ++ Δ1 := by
          have := congrArg Prod.fst hw2
          dsimp only at this
          rw [← this]
          exact heq1
        rw [hw2] at hcont1
        dsimp only at hcont1
        cases cont1 with
        | some pr1 =>
          obtain ⟨parent1, rest1⟩ := pr1
          obtain ⟨⟨pre1, hpre1⟩, hcv1⟩ := hcont1
          have hs1 : sortedRanges (parent1 :: rest1) := by
            rw [hpre1] at hs
            exact sortedRanges_suffix pre1 _ hs
          obtain ⟨Δ2, heq2, hper2, hpw2, hcov2, hcont2⟩ := ih e parent1 rest1 acc1 hs1 hch2
          dsimp only
          refine ⟨Δ1 ++ Δ2, by rw [heq2, heq1']; simp, ?_, ?_, ?_, ?_⟩
          · intro r hrr
            rw [List.mem_append] at hrr
            rcases hrr with hrr | hrr
            · obtain ⟨hne2, hlo2, hhi2, p, hp, hp1, hp2⟩ := hper1 r hrr
              dsimp only at hlo2 hhi2
              refine ⟨hne2, ⟨⟨preceding.end_byte, preceding.end_point, e.start_byte,
                e.start_point⟩, by simp [gapsFrom], by dsimp only; omega,
                by dsimp only; omega⟩, p, hp, hp1, hp2⟩
            · obtain ⟨hne2, ⟨g, hg, hg1, hg2⟩, p, hp, hp1, hp2⟩ := hper2 r hrr
              refine ⟨hne2, ⟨g, by simp [gapsFrom, hg], hg1, hg2⟩, p, ?_, hp1, hp2⟩
              rw [hpre1]
              exact List.mem_append_right pre1 hp
          · rw [List.pairwise_append]
            refine ⟨hpw1, hpw2, ?_⟩
            intro r1 hr1 r2 hr2
            have hb1 := (hper1 r1 hr1).2.2.1
            dsimp only at hb1
            obtain ⟨-, ⟨g, hg, hg1, -⟩, -⟩ := hper2 r2 hr2
            have := (gapsFrom_facts more e hch2 g hg).1
            show r1.end_byte ≤ r2.start_byte
            omega
          · intro x
            rw [covers_append, hcov1 x, hcov2 x]
            have hgap : gapsFrom preceding (e :: more) =
                (⟨preceding.end_byte, preceding.end_point, e.start_byte,
                  e.start_point⟩ : Range) :: gapsFrom e more := rfl
            rw [hgap, covers_cons x (⟨preceding.end_byte, preceding.end_point, e.start_byte,
              e.start_point⟩ : Range) (gapsFrom e more)]
            dsimp only
            constructor
            · rintro (⟨ha, hb, hc⟩ | ⟨hg, hc⟩)
              · exact ⟨Or.inl ⟨ha, hb⟩, hc⟩
              · obtain ⟨g, hgm, hgs, -⟩ := id hg
                have hge := (gapsFrom_facts more e hch2 g hgm).1
                have hxe : e.start_byte ≤ x := by omega
                refine ⟨Or.inr hg, ?_⟩
                rw [hcv1 x hxe]
                exact hc
            · rintro ⟨hg | hg, hc⟩
              · exact Or.inl ⟨hg.1, hg.2, hc⟩
              · obtain ⟨g, hgm, hgs, -⟩ := id hg
                have hge := (gapsFrom_facts more e hch2 g hgm).1
                have hxe : e.start_byte ≤ x := by omega
                refine Or.inr ⟨hg, ?_⟩
                rw [← hcv1 x hxe]
                exact hc
          · cases hc3 : (intersectExcl more e parent1 rest1 acc1).2 with
            | some pr2 =>
              obtain ⟨p2, r2⟩ := pr2
              rw [hc3] at hcont2
              obtain ⟨⟨pre2, hpre2⟩, hcv2⟩ := hcont2
              refine ⟨⟨pre1 ++ pre2, by rw [hpre1, hpre2]; simp⟩, ?_⟩
              intro x hx
              have hbx : e.start_byte ≤ x := by
                cases more with
                | nil => simpa [gapsBound] using hx
                | cons e2 more2 =>
                  have := gapsBound_ge (e2 :: more2) e hch2 (by simp)
                  have hx2 : gapsBound (e2 :: more2) ≤ x := hx
                  omega
              rw [hcv1 x hbx]
              refine hcv2 x ?_
              cases more with
              | nil => simp [gapsBound]
              | cons e2 more2 => exact hx
            | none =>
              rw [hc3] at hcont2
              intro x hx
              have hbx : e.start_byte ≤ x := by
                cases more with
                | nil => simpa [gapsBound] using hx
                | cons e2 more2 =>
                  have := gapsBound_ge (e2 :: more2) e hch2 (by simp)
                  have hx2 : gapsBound (e2 :: more2) ≤ x := hx
                  omega
              rw [hcv1 x hbx]
              refine hcont2 x ?_
              cases more with
              | nil => simp [gapsBound]
              | cons e2 more2 => exact hx
        | none =>
          dsimp only
          refine ⟨Δ1, heq1', ?_, hpw1, ?_, ?_⟩
          · intro r hrr
            obtain ⟨hne2, hlo2, hhi2, p, hp, hp1, hp2⟩ := hper1 r hrr
            dsimp only at hlo2 hhi2
            refine ⟨hne2, ⟨⟨preceding.end_byte, preceding.end_point, e.start_byte,
              e.start_point⟩, by simp [gapsFrom], by dsimp only; omega,
              by dsimp only; omega⟩, p, hp, hp1, hp2⟩
          · intro x
            rw [hcov1 x]
            have hgap : gapsFrom preceding (e :: more) =
                (⟨preceding.end_byte, preceding.end_point, e.start_byte,
                  e.start_point⟩ : Range) :: gapsFrom e more := rfl
            rw [hgap, covers_cons x (⟨preceding.end_byte, preceding.end_point, e.start_byte,
              e.start_point⟩ : Range) (gapsFrom e more)]
            dsimp only
            constructor
            · rintro ⟨ha, hb, hc⟩
              exact ⟨Or.inl ⟨ha, hb⟩, hc⟩
            · rintro ⟨hg | hg, hc⟩
              · exact ⟨hg.1, hg.2, hc⟩
              · obtain ⟨g, hgm, hgs, -⟩ := id hg
                have hge := (gapsFrom_facts more e hch2 g hgm).1
                exact absurd hc (hcont1 x (by omega))
          · intro x hx
            have hbx : e.start_byte ≤ x := by
              cases more with
              | nil => simpa [gapsBound] using hx
              | cons e2 more2 =>
                have := gapsBound_ge (e2 :: more2) e hch2 (by simp)
                have hx2 : gapsBound (e2 :: more2) ≤ x := hx
                omega
            exact hcont1 x hbx

/-- The `preceding_range` a node starts from: everything before the node. -/
def precedingOf (n : STree) : Range :=
  { start_byte := 0, start_point := ⟨0, 0⟩,
    end_byte := n.start_byte, end_point := n.start_position }

/-- The sentinel range after the node's end. -/
def followingOf (n : STree) : Range :=
  { start_byte := n.end_byte, start_point := n.end_position,
    end_byte := USIZE_MAX, end_point := ⟨USIZE_MAX, USIZE_MAX⟩ }

/-- The excluded ranges of one node: its children (unless
`includes_children`), then the sentinel after its end. -/
def exclsOf (ic : Bool) (n : STree) : List Range :=
  (if ic then [] else n.children.map STree.range) ++ [followingOf n]

/-- The candidate gaps contributed by one node. -/
def nodeGaps (ic : Bool) (n : STree) : List Range :=
  gapsFrom (precedingOf n) (exclsOf ic n)

/-- The candidate gaps of all content nodes. -/
def allGaps (ic : Bool) : List STree → List Range
  | [] => []
  | n :: more => nodeGaps ic n ++ allGaps ic more

/-- Well-formed content nodes in document order, each span within `usize`. -/
def nodesOk : List STree → Prop
  | [] => True
  | n :: more => wfTree n = true ∧ n.end_byte ≤ USIZE_MAX ∧
      (∀ m ∈ more, n.end_byte ≤ m.start_byte) ∧ nodesOk more

/-- End of the last node: past it the node loop leaves parents untouched. -/
def nodesBound : List STree → Nat
  | [] => 0
  | [n] => n.end_byte
  | _ :: n2 :: more => nodesBound (n2 :: more)

theorem gapsBound_last : ∀ (l : List Range) (f : Range),
    gapsBound (l ++ [f]) = f.start_byte := by
  intro l
  induction l with
  | nil => intro f; rfl
  | cons a l2 ih =>
    intro f
    cases l2 with
    | nil => rfl
    | cons b l3 =>
      show gapsBound ((b :: l3) ++ [f]) = f.start_byte
      exact ih f

theorem gapsBound_exclsOf (ic : Bool) (n : STree) :
    gapsBound (exclsOf ic n) = n.end_byte :=
  gapsBound_last (if ic then [] else n.children.map STree.range) (followingOf n)

theorem gapsFrom_end_le : ∀ (excls : List Range) (p : Range), exclChain p excls →
    ∀ g ∈ gapsFrom p excls, g.end_byte ≤ gapsBound excls := by
  intro excls
  induction excls with
  | nil =>
    intro p h g hg
    simp [gapsFrom] at hg
  | cons e more ih =>
    intro p h g hg
    obtain ⟨h1, h2, h3⟩ := h
    unfold gapsFrom at hg
    rw [List.mem_cons] at hg
    rcases hg with hg | hg
    · subst hg
      show e.start_byte ≤ gapsBound (e :: more)
      cases more with
      | nil => exact Nat.le_refl _
      | cons e2 more2 =>
        have := gapsBound_ge (e2 :: more2) e h3 (by simp)
        show e.start_byte ≤ gapsBound (e2 :: more2)
        omega
    · have := ih e h3 g hg
      cases more with
      | nil => simp [gapsFrom] at hg
      | cons e2 more2 =>
        show g.end_byte ≤ gapsBound (e2 :: more2)
        exact this

theorem exclChain_children : ∀ (cs : List STree) (lo hi : Nat) (p f : Range),
    wfChildren lo hi cs = true → p.end_byte ≤ lo → lo ≤ hi → hi ≤ f.start_byte →
    f.start_byte ≤ f.end_byte →
    exclChain p (cs.map STree.range ++ [f]) := by
  intro cs
  induction cs with
  | nil =>
    intro lo hi p f hw hp hlh hhf hf
    exact ⟨by omega, hf, trivial⟩
  | cons c rest ih =>
    intro lo hi p f hw hp hlh hhf hf
    unfold wfChildren at hw
    rw [Bool.and_eq_true, Bool.and_eq_true, Bool.and_eq_true,
      decide_eq_true_eq, decide_eq_true_eq] at hw
    obtain ⟨⟨⟨h1, h2⟩, h3⟩, h4⟩ := hw
    have hcse := (wfTree_parts c h3).1
    refine ⟨?_, ?_, ?_⟩
    · show p.end_byte ≤ c.start_byte
      omega
    · show c.start_byte ≤ c.end_byte
      omega
    · exact ih c.end_byte hi (STree.range c) f h4 (Nat.le_refl _) (by omega) hhf hf

theorem exclChain_node (ic : Bool) (n : STree) (hwf : wfTree n = true)
    (hmax : n.end_byte ≤ USIZE_MAX) :
    exclChain (precedingOf n) (exclsOf ic n) := by
  obtain ⟨hse, hch⟩ := wfTree_parts n hwf
  cases ic with
  | false =>
    show exclChain (precedingOf n) (n.children.map STree.range ++ [followingOf n])
    refine exclChain_children n.children n.start_byte n.end_byte (precedingOf n)
      (followingOf n) hch (Nat.le_refl _) (by omega) (Nat.le_refl _) ?_
    show n.end_byte ≤ USIZE_MAX
    exact hmax
  | true =>
    show exclChain (precedingOf n) ([] ++ [followingOf n])
    exact ⟨Nat.le_of_lt hse, hmax, trivial⟩

theorem nodeGaps_bounds (ic : Bool) (n : STree) (hwf : wfTree n = true)
    (hmax : n.end_byte ≤ USIZE_MAX) :
    ∀ g ∈ nodeGaps ic n, n.start_byte ≤ g.start_byte ∧ g.end_byte ≤ n.end_byte := by
  intro g hg
  have hch := exclChain_node ic n hwf hmax
  have h1 := (gapsFrom_facts (exclsOf ic n) (precedingOf n) hch g hg).1
  have h2 := gapsFrom_end_le (exclsOf ic n) (precedingOf n) hch g hg
  rw [gapsBound_exclsOf] at h2
  exact ⟨h1, h2⟩

theorem nodesBound_ge : ∀ (nodes : List STree) (b : Nat), nodesOk nodes →
    (∀ m ∈ nodes, b ≤ m.start_byte) → nodes ≠ [] → b ≤ nodesBound nodes := by
  intro nodes
  induction nodes with
  | nil =>
    intro b h hb hne
    exact absurd rfl hne
  | cons n more ih =>
    intro b h hb hne
    obtain ⟨hw, -, -, h4⟩ := h
    have hse := (wfTree_parts n hw).1
    have hbn := hb n (by simp)
    cases more with
    | nil =>
      show b ≤ n.end_byte
      omega
    | cons n2 more2 =>
      show b ≤ nodesBound (n2 :: more2)
      refine ih b h4 ?_ (by simp)
      intro m hm
      exact hb m (by simp [hm])

theorem allGaps_lb : ∀ (ic : Bool) (nodes : List STree) (b : Nat), nodesOk nodes →
    (∀ m ∈ nodes, b ≤ m.start_byte) → ∀ x, covers x (allGaps ic nodes) → b ≤ x := by
  intro ic nodes
  induction nodes with
  | nil =>
    intro b h hb x hc
    exact absurd hc (covers_nil x)
  | cons n more ih =>
    intro b h hb x hc
    obtain ⟨hw, hmax, -, h4⟩ := h
    rw [show allGaps ic (n :: more) = nodeGaps ic n ++ allGaps ic more from rfl,
      covers_append] at hc
    rcases hc with hc | hc
    · obtain ⟨g, hg, hg1, hg2⟩ := hc
      have := (nodeGaps_bounds ic n hw hmax g hg).1
      have hbn := hb n (by simp)
      omega
    · exact ih b h4 (fun m hm => hb m (by simp [hm])) x hc

/-- The `for node in nodes.iter()` loop: it pushes exactly the intersection
of the remaining parents with the candidate gaps of the nodes, as fresh
non-empty ordered ranges each inside one node span and one parent; past the
last node's end the parents are untouched, or exhausted. -/
theorem intersectNodes_spec : ∀ (ic : Bool) (nodes : List STree) (parent : Range)
    (rest acc : List Range),
    sortedRanges (parent :: rest) → nodesOk nodes →
    ∃ Δ, (intersectNodes ic nodes parent rest acc).1 = acc ++ Δ ∧
      (∀ r ∈ Δ, r.start_byte < r.end_byte ∧
        (∃ n ∈ nodes, n.start_byte ≤ r.start_byte ∧ r.end_byte ≤ n.end_byte) ∧
        ∃ p ∈ parent :: rest, p.start_byte ≤ r.start_byte ∧ r.end_byte ≤ p.end_byte) ∧
      List.Pairwise rngDisj Δ ∧
      (∀ x, covers x Δ ↔
        (covers x (allGaps ic nodes) ∧ covers x (parent :: rest))) ∧
      (match (intersectNodes ic nodes parent rest acc).2 with
       | some (parent', rest') =>
         (∃ pre, parent :: rest = pre ++ parent' :: rest') ∧
         (∀ x, nodesBound nodes ≤ x →
           (covers x (parent :: rest) ↔ covers x (parent' :: rest')))
       | none => ∀ x, nodesBound nodes ≤ x → ¬ covers x (parent :: rest)) := by
  intro ic nodes
  induction nodes with
  | nil =>
    intro parent rest acc hs hok
    refine ⟨[], by simp [intersectNodes], by simp, by simp, ?_, ?_⟩
    · intro x
      simp only [covers_nil x, false_iff]
      rintro ⟨hc, -⟩
      exact covers_nil x hc
    · have hred : (intersectNodes ic [] parent rest acc).2 = some (parent, rest) := rfl
      rw [hred]
      exact ⟨⟨[], rfl⟩, fun x hx => Iff.rfl⟩
  | cons n more ih =>
    intro parent rest acc hs hok
    obtain ⟨hw, hmax, hord, hok2⟩ := hok
    have hexcl := exclChain_node ic n hw hmax
    have hexcl2 : exclChain (⟨0, ⟨0, 0⟩, n.start_byte, n.start_position⟩ : Range)
        ((if ic then [] else n.children.map STree.range) ++
          [⟨n.end_byte, n.end_position, USIZE_MAX, ⟨USIZE_MAX, USIZE_MAX⟩⟩]) := hexcl
    obtain ⟨Δ1, heq1, hper1, hpw1, hcov1, hcont1⟩ :=
      intersectExcl_spec ((if ic then [] else n.children.map STree.range) ++
          [⟨n.end_byte, n.end_position, USIZE_MAX, ⟨USIZE_MAX, USIZE_MAX⟩⟩])
        (⟨0, ⟨0, 0⟩, n.start_byte, n.start_position⟩ : Range) parent rest acc hs hexcl2
    unfold intersectNodes
    dsimp only
    cases hx2 : intersectExcl ((if ic then [] else n.children.map STree.range) ++
        [⟨n.end_byte, n.end_position, USIZE_MAX, ⟨USIZE_MAX, USIZE_MAX⟩⟩])
        (⟨0, ⟨0, 0⟩, n.start_byte, n.start_position⟩ : Range) parent rest acc with
    | mk acc1 cont1 =>
      have heq1' : acc1 = acc ++ Δ1 := by
        have h0 := congrArg Prod.fst hx2
        dsimp only at h0
        rw [← h0]
        exact heq1
      rw [hx2] at hcont1
      dsimp only at hcont1
      cases cont1 with
      | some pr1 =>
        obtain ⟨parent1, rest1⟩ := pr1
        obtain ⟨⟨pre1, hpre1⟩, hcv1⟩ := hcont1
        have hs1 : sortedRanges (parent1 :: rest1) := by
          rw [hpre1] at hs
          exact sortedRanges_suffix pre1 _ hs
        obtain ⟨Δ2, heq2, hper2, hpw2, hcov2, hcont2⟩ := ih parent1 rest1 acc1 hs1 hok2
        dsimp only
        refine ⟨Δ1 ++ Δ2, by rw [heq2, heq1']; simp, ?_, ?_, ?_, ?_⟩
        · intro r hrr
          rw [List.mem_append] at hrr
          rcases hrr with hrr | hrr
          · obtain ⟨hne2, ⟨g, hg, hg1, hg2⟩, p, hp, hp1, hp2⟩ := hper1 r hrr
            obtain ⟨hgb1, hgb2⟩ := nodeGaps_bounds ic n hw hmax g hg
            exact ⟨hne2, ⟨n, by simp, by omega, by omega⟩, p, hp, hp1, hp2⟩
          · obtain ⟨hne2, ⟨m, hm, hm1, hm2⟩, p, hp, hp1, hp2⟩ := hper2 r hrr
            refine ⟨hne2, ⟨m, by simp [hm], hm1, hm2⟩, p, ?_, hp1, hp2⟩
            rw [hpre1]
            exact List.mem_append_right pre1 hp
        · rw [List.pairwise_append]
          refine ⟨hpw1, hpw2, ?_⟩
          intro r1 hr1 r2 hr2
          obtain ⟨-, ⟨g, hg, -, hg2⟩, -⟩ := hper1 r1 hr1
          have hgb := (nodeGaps_bounds ic n hw hmax g hg).2
          obtain ⟨-, ⟨m, hm, hm1, -⟩, -⟩ := hper2 r2 hr2
          have hnm := hord m hm
          show r1.end_byte ≤ r2.start_byte
          omega
        · intro x
          rw [covers_append, hcov1 x, hcov2 x,
            show allGaps ic (n :: more) = nodeGaps ic n ++ allGaps ic more from rfl,
            covers_append x (nodeGaps ic n) (allGaps ic more)]
          constructor
          · rintro (⟨hg, hp⟩ | ⟨hg, hp⟩)
            · exact ⟨Or.inl hg, hp⟩
            · have hx9 : gapsBound (exclsOf ic n) ≤ x := by
                rw [gapsBound_exclsOf]
                exact allGaps_lb ic more n.end_byte hok2 hord x hg
              refine ⟨Or.inr hg, ?_⟩
              rw [hcv1 x hx9]
              exact hp
          · rintro ⟨hg | hg, hp⟩
            · exact Or.inl ⟨hg, hp⟩
            · have hx9 : gapsBound (exclsOf ic n) ≤ x := by
                rw [gapsBound_exclsOf]
                exact allGaps_lb ic more n.end_byte hok2 hord x hg
              refine Or.inr ⟨hg, ?_⟩
              rw [← hcv1 x hx9]
              exact hp
        · cases hc3 : (intersectNodes ic more parent1 rest1 acc1).2 with
          | some pr2 =>
            obtain ⟨p2, r2⟩ := pr2
            rw [hc3] at hcont2
            obtain ⟨⟨pre2, hpre2⟩, hcv2⟩ := hcont2
            refine ⟨⟨pre1 ++ pre2, by rw [hpre1, hpre2]; simp⟩, ?_⟩
            intro x hx
            have hbb : n.end_byte ≤ x ∧ nodesBound more ≤ x := by
              cases more with
              | nil =>
                have hx3 : n.end_byte ≤ x := hx
                exact ⟨hx3, by show (0 : Nat) ≤ x; omega⟩
              | cons n2 more2 =>
                have hx3 : nodesBound (n2 :: more2) ≤ x := hx
                have h9 : n.end_byte ≤ nodesBound (n2 :: more2) :=
                  nodesBound_ge (n2 :: more2) n.end_byte hok2 hord (by simp)
                exact ⟨by omega, hx3⟩
            rw [hcv1 x (by show gapsBound (exclsOf ic n) ≤ x; rw [gapsBound_exclsOf]; exact hbb.1)]
            exact hcv2 x hbb.2
          | none =>
            rw [hc3] at hcont2
            intro x hx
            have hbb : n.end_byte ≤ x ∧ nodesBound more ≤ x := by
              cases more with
              | nil =>
                have hx3 : n.end_byte ≤ x := hx
                exact ⟨hx3, by show (0 : Nat) ≤ x; omega⟩
              | cons n2 more2 =>
                have hx3 : nodesBound (n2 :: more2) ≤ x := hx
                have h9 : n.end_byte ≤ nodesBound (n2 :: more2) :=
                  nodesBound_ge (n2 :: more2) n.end_byte hok2 hord (by simp)
                exact ⟨by omega, hx3⟩
            rw [hcv1 x (by show gapsBound (exclsOf ic n) ≤ x; rw [gapsBound_exclsOf]; exact hbb.1)]
            exact hcont2 x hbb.2
      | none =>
        dsimp only
        refine ⟨Δ1, heq1', ?_, hpw1, ?_, ?_⟩
        · intro r hrr
          obtain ⟨hne2, ⟨g, hg, hg1, hg2⟩, p, hp, hp1, hp2⟩ := hper1 r hrr
          obtain ⟨hgb1, hgb2⟩ := nodeGaps_bounds ic n hw hmax g hg
          exact ⟨hne2, ⟨n, by simp, by omega, by omega⟩, p, hp, hp1, hp2⟩
        · intro x
          rw [hcov1 x,
            show allGaps ic (n :: more) = nodeGaps ic n ++ allGaps ic more from rfl,
            covers_append x (nodeGaps ic n) (allGaps ic more)]
          constructor
          · rintro ⟨hg, hp⟩
            exact ⟨Or.inl hg, hp⟩
          · rintro ⟨hg | hg, hp⟩
            · exact ⟨hg, hp⟩
            · have hx9 : gapsBound (exclsOf ic n) ≤ x := by
                rw [gapsBound_exclsOf]
                exact allGaps_lb ic more n.end_byte hok2 hord x hg
              exact absurd hp (hcont1 x hx9)
        · intro x hx
          have hbb : n.end_byte ≤ x := by
            cases more with
            | nil => exact hx
            | cons n2 more2 =>
              have hx3 : nodesBound (n2 :: more2) ≤ x := hx
              have h9 : n.end_byte ≤ nodesBound (n2 :: more2) :=
                nodesBound_ge (n2 :: more2) n.end_byte hok2 hord (by simp)
              omega
          exact hcont1 x (by show gapsBound (exclsOf ic n) ≤ x; rw [gapsBound_exclsOf]; exact hbb)

/-- C4.  For every non-empty sorted disjoint list of parent ranges, every
document-ordered list of well-formed content nodes, and either value of
`includes_children`, the ranges `intersect_ranges` returns are pairwise
disjoint and sorted, each non-empty, each contained in some parent range,
each contained in some node's byte span, and a byte position is covered by
the result exactly when it is covered both by the parent ranges and by the
candidate gaps between the excluded sub-intervals (the node's children when
`includes_children` is false, plus the sentinel interval after each node's
end). -/
theorem c4_intersect_laws (parent : Range) (rest : List Range) (nodes : List STree)
    (ic : Bool) (hs : sortedRanges (parent :: rest)) (hok : nodesOk nodes) :
    (∀ r ∈ intersect_ranges (parent :: rest) nodes ic, r.start_byte < r.end_byte) ∧
    List.Pairwise rngDisj (intersect_ranges (parent :: rest) nodes ic) ∧
    (∀ r ∈ intersect_ranges (parent :: rest) nodes ic,
      ∃ p ∈ parent :: rest, p.start_byte ≤ r.start_byte ∧ r.end_byte ≤ p.end_byte) ∧
    (∀ r ∈ intersect_ranges (parent :: rest) nodes ic,
      ∃ n ∈ nodes, n.start_byte ≤ r.start_byte ∧ r.end_byte ≤ n.end_byte) ∧
    (∀ x, covers x (intersect_ranges (parent :: rest) nodes ic) ↔
      (covers x (allGaps ic nodes) ∧ covers x (parent :: rest))) := by
  obtain ⟨Δ, heq, hper, hpw, hcov, -⟩ := intersectNodes_spec ic nodes parent rest [] hs hok
  have hres : intersect_ranges (parent :: rest) nodes ic = Δ := by
    show (intersectNodes ic nodes parent rest []).1 = Δ
    rw [heq]
    simp
  rw [hres]
  exact ⟨fun r hr => (hper r hr).1, hpw, fun r hr => (hper r hr).2.2,
    fun r hr => (hper r hr).2.1, hcov⟩

/-- C4 witnessed on one parent range `[0,10)` and one childless node
spanning `[2,8)` with `includes_children` set. -/
theorem c4_intersect_laws_witness :
    sortedRanges [(⟨0, ⟨0, 0⟩, 10, ⟨0, 10⟩⟩ : Range)] ∧
    nodesOk [STree.mk 2 ⟨0, 2⟩ 8 ⟨0, 8⟩ 0 []] ∧
    (∀ x, covers x (intersect_ranges [(⟨0, ⟨0, 0⟩, 10, ⟨0, 10⟩⟩ : Range)]
        [STree.mk 2 ⟨0, 2⟩ 8 ⟨0, 8⟩ 0 []] true) ↔
      (covers x (allGaps true [STree.mk 2 ⟨0, 2⟩ 8 ⟨0, 8⟩ 0 []]) ∧
       covers x [(⟨0, ⟨0, 0⟩, 10, ⟨0, 10⟩⟩ : Range)])) := by
  have h1 : sortedRanges [(⟨0, ⟨0, 0⟩, 10, ⟨0, 10⟩⟩ : Range)] := by
    refine ⟨?_, List.pairwise_singleton _ _⟩
    intro r hr
    rw [List.mem_singleton] at hr
    subst hr
    decide
  have h2 : nodesOk [STree.mk 2 ⟨0, 2⟩ 8 ⟨0, 8⟩ 0 []] := by
    refine ⟨rfl, by decide, ?_, trivial⟩
    intro m hm
    simp at hm
  exact ⟨h1, h2,
    (c4_intersect_laws (⟨0, ⟨0, 0⟩, 10, ⟨0, 10⟩⟩ : Range) []
      [STree.mk 2 ⟨0, 2⟩ 8 ⟨0, 8⟩ 0 []] true h1 h2).2.2.2.2⟩

end TSHighlight
